import Mathlib

/-!
dapr-sdk-warpper: a shallow embedding of the reflective server layer

The development follows the files of `src/server`:

* `helper.go`  : `camelSplit`, `camelToLowerStyle`, `MarshalJSON`, `UnmarshalJSON`
* `reflect.go` : `suitableMethods`, `isExportedOrBuiltinType`, `indirectType`,
  `getJsonDataType`, `getStructFieldName`, `structToYaml`
* `func_signature.go` : `getSignature`
* `main.go`    : `validParam`, `register`, `registMethods`, `invokeWarpper`

Go strings are byte strings.  A string is represented by the sequence of items that
Go's UTF-8 decoder reads from it: a well-formed code point, or a stray byte that is
not part of a well-formed encoding.  A string is valid UTF-8 exactly when it has no
stray byte.
-/

set_option autoImplicit false

namespace DaprWrapper

/-! ## Strings and the `unicode` package -/

/-- One step of Go's UTF-8 decoder over a string: a code point or a stray byte. -/
inductive Item where
  | rune (c : Char)
  | bad (b : Nat)
  deriving DecidableEq, Repr

/-- A Go `string`. -/
abbrev GoString := List Item

/-- The string holding exactly the given code points (always valid UTF-8). -/
def ofRunes (cs : List Char) : GoString := cs.map Item.rune

/-- A Go string literal. -/
def go (s : String) : GoString := ofRunes s.data

/-- The replacement character U+FFFD (`utf8.RuneError`). -/
def runeError : Char := Char.ofNat 0xFFFD

/-- Function `utf8.ValidString`. -/
def validString (s : GoString) : Bool :=
  s.all fun it => match it with
    | Item.rune _ => true
    | Item.bad _ => false

/-- The runes that `for _, r := range s` yields: a stray byte reads as `utf8.RuneError`. -/
def runesOf (s : GoString) : List Char :=
  s.map fun it => match it with
    | Item.rune c => c
    | Item.bad _ => runeError

/-- The tables of Go's `unicode` package that `helper.go` and `go/token` consult.
They belong to the Go standard library, not to the repository, and are a parameter
of the development. -/
structure UnicodeTables where
  /-- Function `unicode.IsLower`. -/
  isLower : Char → Bool
  /-- Function `unicode.IsUpper`. -/
  isUpper : Char → Bool
  /-- Function `unicode.IsDigit`. -/
  isDigit : Char → Bool
  /-- Function `unicode.ToLower`. -/
  toLower : Char → Char

/-- The tables restricted to U+0000..U+007F, where they coincide with the `unicode`
package; code points outside that range are left unclassified and unchanged.  Used to
evaluate the functions on ASCII identifiers. -/
def asciiTables : UnicodeTables where
  isLower := Char.isLower
  isUpper := Char.isUpper
  isDigit := Char.isDigit
  toLower := Char.toLower

/-- A table agrees with the `unicode` package on the ASCII range. -/
def AsciiStandard (T : UnicodeTables) : Prop :=
  ∀ c : Char, c.toNat < 128 →
    T.isLower c = c.isLower ∧ T.isUpper c = c.isUpper ∧
    T.isDigit c = c.isDigit ∧ T.toLower c = c.toLower

/-- Function `strings.ToLower`: `unicode.ToLower` on every rune; a stray byte is
replaced by the (lowered) replacement character. -/
def stringsToLower (T : UnicodeTables) (s : GoString) : GoString :=
  s.map fun it => match it with
    | Item.rune c => Item.rune (T.toLower c)
    | Item.bad _ => Item.rune (T.toLower runeError)

/-- The concatenation of the parts with the separator between consecutive parts. -/
def joinWith {α : Type} : List (List α) → List α → List α
  | [], _ => []
  | [p], _ => p
  | p :: q :: rest, sep => p ++ sep ++ joinWith (q :: rest) sep

/-- Function `strings.Join`. -/
def stringsJoin (parts : List GoString) (sep : GoString) : GoString :=
  joinWith parts sep

/-! ## `helper.go` -/

/-- The `switch` of `camelSplit` (lines 43-52): 1 lower, 2 upper, 3 digit, 4 other. -/
def runeClass (T : UnicodeTables) (r : Char) : Nat :=
  if T.isLower r then 1
  else if T.isUpper r then 2
  else if T.isDigit r then 3
  else 4

/-- One iteration of the first loop of `camelSplit` (lines 42-59).  The state is the
pair `(runes, lastClass)`; `none` is the run-time failure of `runes[len(runes)-1]` on an
empty `runes`. -/
def splitStep (T : UnicodeTables) (st : List (List Char) × Nat) (r : Char) :
    Option (List (List Char) × Nat) :=
  let runes := st.1
  let lastClass := st.2
  let cls := runeClass T r
  if cls = lastClass then
    match runes.getLast? with
    | none => none
    | some last => some (runes.dropLast ++ [last ++ [r]], cls)
  else
    some (runes ++ [[r]], cls)

/-- The first loop of `camelSplit` (lines 42-59), from a given state. -/
def splitLoop (T : UnicodeTables) :
    List Char → List (List Char) × Nat → Option (List (List Char) × Nat)
  | [], st => some st
  | r :: rest, st =>
    match splitStep T st r with
    | none => none
    | some st1 => splitLoop T rest st1

/-- The second loop of `camelSplit` (lines 62-67) at index `i`, where `a` is the
current content of `runes[i]` and the argument lists `runes[i+1], runes[i+2], ...`.
The result lists the final `runes[i], runes[i+1], ...`.  `none` is the run-time
failure of reading element 0 (or the last element) of an empty run. -/
def fixFrom (T : UnicodeTables) (a : List Char) :
    List (List Char) → Option (List (List Char))
  | [] => some [a]
  | b :: rest =>
    match a.head? with
    | none => none
    | some a0 =>
      if T.isUpper a0 then
        match b.head? with
        | none => none
        | some b0 =>
          if T.isLower b0 then
            match a.getLast? with
            | none => none
            | some z => (fixFrom T (z :: b) rest).map fun out => a.dropLast :: out
          else (fixFrom T b rest).map fun out => a :: out
      else (fixFrom T b rest).map fun out => a :: out

/-- The second loop of `camelSplit` (lines 62-67): no iteration when `runes` has fewer
than two runs. -/
def fixLoop (T : UnicodeTables) : List (List Char) → Option (List (List Char))
  | [] => some []
  | a :: rest => fixFrom T a rest

/-- The third loop of `camelSplit` (lines 69-73). -/
def collectEntries (runes : List (List Char)) : List GoString :=
  (runes.filter fun s => 0 < s.length).map ofRunes

/-- Function `camelSplit` of `helper.go`.  `none` is a run-time failure (index out
of range). -/
def camelSplit (T : UnicodeTables) (src : GoString) : Option (List GoString) :=
  if !validString src then some [src]
  else
    match splitLoop T (runesOf src) ([], 0) with
    | none => none
    | some st =>
      match fixLoop T st.1 with
      | none => none
      | some runes => some (collectEntries runes)

/-- Function `camelToLowerStyle` of `helper.go`. -/
def camelToLowerStyle (T : UnicodeTables) (src : GoString) : Option GoString :=
  match camelSplit T src with
  | none => none
  | some names => some (stringsJoin (names.map (stringsToLower T)) (go "_"))


/-- The runs that the first loop of `camelSplit` has built once the current (last) run
is `cur`, of class `cls`, and the runes `cs` remain (specification of `splitLoop`). -/
def grow (T : UnicodeTables) (cur : List Char) (cls : Nat) : List Char → List (List Char)
  | [] => [cur]
  | r :: rest =>
    if runeClass T r = cls then grow T (cur ++ [r]) cls rest
    else cur :: grow T [r] (runeClass T r) rest

/-- The maximal runs of runes of one class (specification of the first loop). -/
def runs (T : UnicodeTables) : List Char → List (List Char)
  | [] => []
  | r :: rest => grow T [r] (runeClass T r) rest

/-- A non-empty run of lower-case ASCII letters or of ASCII digits. -/
def LowDig (l : List Char) : Prop :=
  l ≠ [] ∧ ((∀ c ∈ l, c.isLower = true) ∨ (∀ c ∈ l, c.isDigit = true))

/-- A run of ASCII letters or of ASCII digits. -/
def LetDig (e : List Char) : Prop :=
  (∀ c ∈ e, c.isAlpha = true) ∨ (∀ c ∈ e, c.isDigit = true)

/-- The runs of an identifier made of words, each an upper-case letter `w.1` followed by
lower-case letters `w.2`: the letter and the lower-case letters of every word. -/
def wordRuns : List (Char × List Char) → List (List Char)
  | [] => []
  | w :: ws => [w.1] :: w.2 :: wordRuns ws

/-- The runs of such an identifier after the second loop of `camelSplit`: every
upper-case letter has moved to the front of the run after it. -/
def wordFixed : List (Char × List Char) → List (List Char)
  | [] => []
  | w :: ws => [] :: (w.1 :: w.2) :: wordFixed ws

/-! ## The `reflect` view of the program's types -/

/-- Type `reflect.Kind`. -/
inductive Kind where
  | Invalid | Bool | Int | Int8 | Int16 | Int32 | Int64
  | Uint | Uint8 | Uint16 | Uint32 | Uint64 | Uintptr
  | Float32 | Float64 | Complex64 | Complex128
  | Array | Chan | Func | Interface | Map | Ptr | Slice | String | Struct
  | UnsafePointer
  deriving DecidableEq, Repr

/-- A Go type (a `reflect.Type`): a pointer, slice, array or map type literal, or an
entry of the program's type table (declared and predeclared types, and the struct,
interface, func and chan literals).  Two types are identical when the terms are equal. -/
inductive GoType where
  | ref (id : Nat)
  | ptr (elem : GoType)
  | slice (elem : GoType)
  | array (len : Nat) (elem : GoType)
  | map (key : GoType) (elem : GoType)
  deriving DecidableEq, Repr

/-- Type `reflect.StructField`, with the value of `Tag.Get("json")`. -/
structure StructField where
  /-- Field `Name`. -/
  name : GoString
  /-- Field `PkgPath`: empty exactly for an exported field. -/
  pkgPath : GoString
  /-- Field `Type`. -/
  typ : GoType
  /-- The result of `Tag.Get("json")`: the empty string when the tag has no json key. -/
  jsonTag : GoString
  /-- Field `Anonymous`: an embedded field. -/
  anonymous : Bool
  deriving DecidableEq, Repr

/-- An entry of the type table: what `reflect` reports for the type. -/
structure TypeDecl where
  /-- Method `Kind()`. -/
  kind : Kind
  /-- Method `Name()`. -/
  name : GoString
  /-- Method `PkgPath()`. -/
  pkgPath : GoString
  /-- Method `Elem()`, for a declared type of kind Ptr, Slice, Array, Map or Chan. -/
  elem : GoType
  /-- Method `Key()`, for a declared type of kind Map (the source never calls it). -/
  key : GoType
  /-- The fields `Field(0)`, ..., `Field(NumField()-1)` of a struct type. -/
  fields : List StructField

/-- Type `reflect.Method`: `ins` and `outs` list `Type.In(i)` (the receiver first) and
`Type.Out(i)`; `fn` identifies the function value `Func`. -/
structure Method where
  name : GoString
  pkgPath : GoString
  ins : List GoType
  outs : List GoType
  fn : Nat
  deriving DecidableEq, Repr

/-- The program whose types are inspected: its type table, the method set that
`reflect` reports for each type (`NumMethod`, `Method(i)`), and the two interface types
that `suitableMethods` compares with (`context.Context` and `error`). -/
structure Program where
  types : Nat → TypeDecl
  methods : GoType → List Method
  contextType : GoType
  errorType : GoType
  /-- Method `String()` of `reflect.Type`. -/
  typeString : GoType → GoString

namespace Program

/-- Method `Kind()` of `reflect.Type`. -/
def kind (P : Program) : GoType → Kind
  | GoType.ref id => (P.types id).kind
  | GoType.ptr _ => Kind.Ptr
  | GoType.slice _ => Kind.Slice
  | GoType.array _ _ => Kind.Array
  | GoType.map _ _ => Kind.Map

/-- Method `Name()` of `reflect.Type`: empty for a type literal. -/
def name (P : Program) : GoType → GoString
  | GoType.ref id => (P.types id).name
  | _ => []

/-- Method `PkgPath()` of `reflect.Type`: empty for a type literal. -/
def pkgPath (P : Program) : GoType → GoString
  | GoType.ref id => (P.types id).pkgPath
  | _ => []

/-- Method `Elem()` of `reflect.Type`; the source calls it only on kinds that have an
element type. -/
def elem (P : Program) : GoType → GoType
  | GoType.ref id => (P.types id).elem
  | GoType.ptr e => e
  | GoType.slice e => e
  | GoType.array _ e => e
  | GoType.map _ e => e

/-- Method `Key()` of `reflect.Type`, for a map type; the source never calls it. -/
def key (P : Program) : GoType → GoType
  | GoType.ref id => (P.types id).key
  | GoType.map k _ => k
  | t => t

/-- The struct fields `Field(m)`, `m < NumField()`. -/
def fields (P : Program) : GoType → List StructField
  | GoType.ref id => (P.types id).fields
  | _ => []

end Program

/-- How a call ends: it returns, it panics (`log.Panicf`, a `reflect` or index panic),
or it ends the process (`log.Fatalf`). -/
inductive Exec (α : Type) where
  | returned (a : α)
  | panicked
  | exited

/-- The result of a call that returns, transformed. -/
def Exec.map {α β : Type} (f : α → β) : Exec α → Exec β
  | Exec.returned a => Exec.returned (f a)
  | Exec.panicked => Exec.panicked
  | Exec.exited => Exec.exited

/-- The value a call returns, if it returns. -/
def Exec.toOption {α : Type} : Exec α → Option α
  | Exec.returned a => some a
  | Exec.panicked => none
  | Exec.exited => none

/-! ## `reflect.go` -/

/-- Function `isExportedOrBuiltinType`, first the loop `for t.Kind() == reflect.Ptr`:
the fuel bounds the number of iterations, `none` when it is used up. -/
def stripPtr (P : Program) : Nat → GoType → Option GoType
  | 0, t => if P.kind t = Kind.Ptr then none else some t
  | n + 1, t => if P.kind t = Kind.Ptr then stripPtr P n (P.elem t) else some t

/-- Function `token.IsExported`: the first rune of the name is upper case (an empty
name decodes to `utf8.RuneError`). -/
def tokenIsExported (T : UnicodeTables) (name : GoString) : Bool :=
  match name with
  | [] => T.isUpper runeError
  | Item.rune c :: _ => T.isUpper c
  | Item.bad _ :: _ => T.isUpper runeError

/-- Function `isExportedOrBuiltinType` of `reflect.go`. -/
def isExportedOrBuiltinType (T : UnicodeTables) (P : Program) (fuel : Nat) (t : GoType) :
    Option Bool :=
  match stripPtr P fuel t with
  | none => none
  | some t1 => some (tokenIsExported T (P.name t1) || decide (P.pkgPath t1 = []))

/-- Function `indirectType` of `reflect.go`: the fuel bounds the number of iterations
of its loop, `none` when it is used up. -/
def indirectType (P : Program) : Nat → GoType → Option GoType
  | 0, t => if P.kind t = Kind.Ptr ∨ P.kind t = Kind.Slice then none else some t
  | n + 1, t =>
    if P.kind t = Kind.Ptr ∨ P.kind t = Kind.Slice then indirectType P n (P.elem t)
    else some t

/-- Function `getJsonDataType` of `reflect.go`. -/
def getJsonDataType (P : Program) (t : GoType) : GoString :=
  match P.kind t with
  | Kind.Bool => go "bool"
  | Kind.Int | Kind.Int8 | Kind.Int16 | Kind.Int32 | Kind.Int64
  | Kind.Uint | Kind.Uint8 | Kind.Uint16 | Kind.Uint32 | Kind.Uint64 | Kind.Uintptr
  | Kind.Float32 | Kind.Float64 => go "number"
  | Kind.String => go "string"
  | _ => go ""

/-- The kinds of the integer and floating-point types of every width. -/
def numericKinds : List Kind :=
  [Kind.Int, Kind.Int8, Kind.Int16, Kind.Int32, Kind.Int64,
   Kind.Uint, Kind.Uint8, Kind.Uint16, Kind.Uint32, Kind.Uint64, Kind.Uintptr,
   Kind.Float32, Kind.Float64]

/-- A primitive kind: boolean, an integer or float of any width, or string. -/
def primitiveKind (k : Kind) : Bool :=
  decide (k = Kind.Bool) || decide (k ∈ numericKinds) || decide (k = Kind.String)

/-- Function `strings.Index(tag, ",")`: the position of the first comma, if any.  A
comma is one byte, so the items before it are the bytes before it. -/
def indexComma : GoString → Option Nat
  | [] => none
  | it :: rest =>
    if it = Item.rune ',' then some 0
    else (indexComma rest).map fun i => i + 1

/-- Function `getStructFieldName` of `reflect.go`. -/
def getStructFieldName (ft : StructField) : GoString × Bool :=
  let tag := ft.jsonTag
  if (go "omitempty").isSuffixOf tag then
    match indexComma tag with
    | some idx => if 0 < idx then (tag.take idx, true) else (ft.name, true)
    | none => (ft.name, true)
  else (tag, false)

/-- The values stored under the single key of a `refFieldInfo`. -/
inductive FieldValue where
  /-- A `string`: "bool", "number", "string" or "time". -/
  | tag (s : GoString)
  /-- A `[]refFieldInfo`. -/
  | nested (fs : List (GoString × FieldValue))
  /-- A `[][]refFieldInfo`. -/
  | nestedArr (fss : List (List (GoString × FieldValue)))
  /-- A `[]string`. -/
  | tagArr (ss : List GoString)
  /-- A `map[string]string`. -/
  | tagMap (m : List (GoString × GoString))

/-- Type `refFieldInfo`: every map that `structToYaml` makes receives exactly one key. -/
abbrev RefFieldInfo := GoString × FieldValue

/-- The two results of `structToYaml`: `Except.error` is `(nil, err)`, `Except.ok l`
is `(l, nil)`. -/
abbrev YamlResult := Except GoString (List RefFieldInfo)

/-- The expression `srcValue.Field(m).Addr().Interface()`, where `srcValue` is `none`
for the zero `reflect.Value` and `some X` for an addressable variable of type `X`.
`Field` panics unless `srcValue` is a struct; `Interface` panics on a value reached
through an unexported field.  The result is the type of the variable pointed to. -/
def fieldAddr (P : Program) (srcValue : Option GoType) (field : StructField) : Exec GoType :=
  match srcValue with
  | none => Exec.panicked
  | some X =>
    if P.kind X ≠ Kind.Struct then Exec.panicked
    else if field.pkgPath ≠ [] then Exec.panicked
    else Exec.returned field.typ

/-- A recursive call `ret, err := structToYaml(..)` followed by `if err != nil
{ continue }`; `emit` is what the caller appends for the result `ret`. -/
def afterCall (r : Option (Exec YamlResult)) (emit : List RefFieldInfo → List RefFieldInfo) :
    Option (Exec (List RefFieldInfo)) :=
  match r with
  | none => none
  | some Exec.panicked => some Exec.panicked
  | some Exec.exited => some Exec.exited
  | some (Exec.returned (Except.error _)) => some (Exec.returned [])
  | some (Exec.returned (Except.ok ret)) => some (Exec.returned (emit ret))

/-- The body of the loop of `structToYaml` (lines 170-255) for one field: the entries
it appends to `fieldInfoList`.  `recur X` is the recursive call on the address of a
zero variable of type `X`; `fuel` bounds the loops of `indirectType`. -/
def fieldStep (P : Program) (fuel : Nat) (recur : GoType → Option (Exec YamlResult))
    (srcValue : Option GoType) (srcType : GoType) (field : StructField) :
    Option (Exec (List RefFieldInfo)) :=
  let fieldName := (getStructFieldName field).1
  let jsonTypeName := getJsonDataType P field.typ
  if field.anonymous then
    match fieldAddr P srcValue field with
    | Exec.returned X => afterCall (recur X) fun ret => ret
    | Exec.panicked => some Exec.panicked
    | Exec.exited => some Exec.exited
  else if jsonTypeName ≠ go "" then
    some (Exec.returned [(fieldName, FieldValue.tag jsonTypeName)])
  else if P.name field.typ = go "Time" then some Exec.panicked
  else if P.name field.typ = go "JSONTime" then
    some (Exec.returned [(fieldName, FieldValue.tag (go "time"))])
  else
    match (if P.kind field.typ = Kind.Ptr then indirectType P fuel field.typ
           else some field.typ) with
    | none => none
    | some fieldType =>
      if P.kind fieldType = Kind.Struct then
        match fieldAddr P srcValue field with
        | Exec.returned X =>
          afterCall (recur X) fun ret => [(fieldName, FieldValue.nested ret)]
        | Exec.panicked => some Exec.panicked
        | Exec.exited => some Exec.exited
      else if P.kind fieldType = Kind.Array ∨ P.kind fieldType = Kind.Slice then
        let elemType := P.elem fieldType
        if P.kind elemType = Kind.Ptr ∨ P.kind elemType = Kind.Struct then
          match indirectType P fuel elemType with
          | none => none
          | some base =>
            if P.name srcType = P.name base then
              some (Exec.returned [(fieldName, FieldValue.nested [])])
            else
              afterCall (recur base) fun ret => [(fieldName, FieldValue.nestedArr [ret])]
        else
          let json := getJsonDataType P elemType
          if json ≠ go "" then some (Exec.returned [(fieldName, FieldValue.tagArr [json])])
          else some (Exec.returned [])
      else if P.kind fieldType = Kind.Map then
        if P.kind (P.elem fieldType) ≠ Kind.String then some Exec.exited
        else
          some (Exec.returned
            [(fieldName, FieldValue.tagMap [(go "string", go "string")])])
      else some (Exec.returned [])

/-- The loop `for m := 0; m < srcType.NumField(); m++` of `structToYaml`, with
`fieldInfoList` as accumulator. -/
def fieldLoop (step : StructField → Option (Exec (List RefFieldInfo))) :
    List StructField → List RefFieldInfo → Option (Exec (List RefFieldInfo))
  | [], acc => some (Exec.returned acc)
  | f :: rest, acc =>
    match step f with
    | none => none
    | some Exec.panicked => some Exec.panicked
    | some Exec.exited => some Exec.exited
    | some (Exec.returned es) => fieldLoop step rest (acc ++ es)

/-- The value `indirect(reflect.ValueOf(inst))` when `inst` is the address of a zero
variable of type `X`: the variable itself, or the zero `reflect.Value` (`none`) when the
variable is a (nil) pointer. -/
def indirectZero (P : Program) (X : GoType) : Option GoType :=
  if P.kind X = Kind.Ptr then none else some X

/-- Function `structToYaml` of `reflect.go`, applied to the address of a zero variable
of type `X`: that is `reflect.New(X).Elem().Addr().Interface()` in `getSignature`,
`&AreaNode{}` in the tests, and the address of a field of such a variable or
`reflect.New(fieldType)` in the recursive calls.  The fuel bounds the depth of the
recursion and the loops of `indirectType`; `none` when it is used up. -/
def structToYaml (P : Program) : Nat → GoType → Option (Exec YamlResult)
  | 0, _ => none
  | fuel + 1, X =>
    let srcValue := indirectZero P X
    match indirectType P fuel (GoType.ptr X) with
    | none => none
    | some srcType =>
      if P.kind srcType ≠ Kind.Struct then
        some (Exec.returned (Except.error (go "inst must be a struct")))
      else
        match fieldLoop (fieldStep P fuel (structToYaml P fuel) srcValue srcType)
            (P.fields srcType) [] with
        | none => none
        | some Exec.panicked => some Exec.panicked
        | some Exec.exited => some Exec.exited
        | some (Exec.returned l) => some (Exec.returned (Except.ok l))


/-- Type `methodType` of `reflect.go` (the mutex is not modelled). -/
structure MethodType where
  method : Method
  argType : GoType
  replyType : GoType
  numCalls : Nat
  deriving DecidableEq, Repr

/-- A Go map with string keys, as the list of its entries, in the order in which the
keys were first assigned.  The order in which `range` visits the entries is another
matter: see `RangeOrder`. -/
abbrev GoMap (α : Type) := List (GoString × α)

/-- The assignment `m[k] = v` on a Go map. -/
def mapSet {α : Type} : GoMap α → GoString → α → GoMap α
  | [], k, v => [(k, v)]
  | (k1, v1) :: rest, k, v =>
    if k1 = k then (k, v) :: rest else (k1, v1) :: mapSet rest k v

/-- The body of the loop of `suitableMethods` (lines 36-98) for one method; every
`continue` leaves the table unchanged.  The log output is not modelled. -/
def methodStep (T : UnicodeTables) (P : Program) (fuel : Nat)
    (methods : GoMap MethodType) (method : Method) : Option (Exec (GoMap MethodType)) :=
  match camelToLowerStyle T method.name with
  | none => some Exec.panicked
  | some mname =>
    if method.pkgPath ≠ [] then some (Exec.returned methods)
    else
      match method.ins with
      | [_, fistType, argType, replyType] =>
        if fistType ≠ P.contextType then some (Exec.returned methods)
        else if P.kind argType ≠ Kind.Ptr then some (Exec.returned methods)
        else
          match isExportedOrBuiltinType T P fuel argType with
          | none => none
          | some false => some (Exec.returned methods)
          | some true =>
            if P.kind replyType ≠ Kind.Ptr ∧ P.kind replyType ≠ Kind.Interface then
              some (Exec.returned methods)
            else
              match isExportedOrBuiltinType T P fuel replyType with
              | none => none
              | some false => some (Exec.returned methods)
              | some true =>
                match method.outs with
                | [returnType] =>
                  if returnType ≠ P.errorType then some (Exec.returned methods)
                  else
                    some (Exec.returned (mapSet methods mname
                      { method := method, argType := argType, replyType := replyType,
                        numCalls := 0 }))
                | _ => some (Exec.returned methods)
      | _ => some (Exec.returned methods)

/-- The loop of `suitableMethods` over `typ.Method(m)`, `m < typ.NumMethod()`. -/
def methodLoop (T : UnicodeTables) (P : Program) (fuel : Nat) :
    List Method → GoMap MethodType → Option (Exec (GoMap MethodType))
  | [], methods => some (Exec.returned methods)
  | method :: rest, methods =>
    match methodStep T P fuel methods method with
    | none => none
    | some Exec.panicked => some Exec.panicked
    | some Exec.exited => some Exec.exited
    | some (Exec.returned methods1) => methodLoop T P fuel rest methods1

/-- Function `suitableMethods` of `reflect.go`. -/
def suitableMethods (T : UnicodeTables) (P : Program) (fuel : Nat) (typ : GoType) :
    Option (Exec (GoMap MethodType)) :=
  methodLoop T P fuel (P.methods typ) []

/-- What the scan has checked of the argument type of a table entry: it is of pointer
kind and `isExportedOrBuiltinType` holds of it. -/
def ArgChecked (T : UnicodeTables) (P : Program) (fuel : Nat) (e : GoString × MethodType) :
    Prop :=
  P.kind e.2.argType = Kind.Ptr ∧ isExportedOrBuiltinType T P fuel e.2.argType = some true

/-- The descriptor `&methodType` that the scan stores for a method (reflect.go:98). -/
def descriptorOf (m : Method) : MethodType :=
  match m.ins with
  | [_, _, argType, replyType] =>
    { method := m, argType := argType, replyType := replyType, numCalls := 0 }
  | _ => { method := m, argType := GoType.ref 0, replyType := GoType.ref 0, numCalls := 0 }

/-- The eligibility rules of a candidate method, as the comments of `suitableMethods`
state them: exported; four parameters, the receiver included; the second the context
type; the third a pointer, exported or builtin; the fourth a pointer or an interface,
exported or builtin; one result, of type `error`. -/
def eligible (T : UnicodeTables) (P : Program) (fuel : Nat) (m : Method) : Bool :=
  decide (m.pkgPath = []) &&
  (match m.ins with
   | [_, ctx, arg, reply] =>
     decide (ctx = P.contextType) && decide (P.kind arg = Kind.Ptr) &&
     decide (isExportedOrBuiltinType T P fuel arg = some true) &&
     (decide (P.kind reply = Kind.Ptr) || decide (P.kind reply = Kind.Interface)) &&
     decide (isExportedOrBuiltinType T P fuel reply = some true)
   | _ => false) &&
  decide (m.outs = [P.errorType])

/-- The table entry of a method: its wire name and its descriptor, when it is
eligible. -/
def entryOf (T : UnicodeTables) (P : Program) (fuel : Nat) (m : Method) :
    Option (GoString × MethodType) :=
  if eligible T P fuel m then
    (camelToLowerStyle T m.name).map fun mname => (mname, descriptorOf m)
  else none

/-- The wire names of the eligible methods of a type, in method order. -/
def wireNames (T : UnicodeTables) (P : Program) (fuel : Nat) (typ : GoType) : List GoString :=
  ((P.methods typ).filterMap (entryOf T P fuel)).map Prod.fst

/-- The lookup `m[k]` in a Go map. -/
def mapGet {α : Type} : GoMap α → GoString → Option α
  | [], _ => none
  | (k1, v1) :: rest, k => if k1 = k then some v1 else mapGet rest k

/-- The assignments `m[e.1] = e.2` for the entries of a list, in order. -/
def mapSetAll {α : Type} (m : GoMap α) (es : List (GoString × α)) : GoMap α :=
  es.foldl (fun t e => mapSet t e.1 e.2) m

/-! ## `func_signature.go` -/

/-- Type `refMethodSignature`; `none` is a nil slice. -/
structure RefMethodSignature where
  name : GoString
  inFields : Option (List RefFieldInfo)
  outFields : Option (List RefFieldInfo)

/-- Type `serviceSignature`; `none` is a nil slice. -/
structure ServiceSignature where
  apiVersion : GoString
  spec : Option (List RefMethodSignature)

/-- An interface value holding a service object: its dynamic type, and whether it is
a nil pointer. -/
structure Receiver where
  typ : GoType
  isNil : Bool

/-- Type `service` of `reflect.go`. -/
structure Service where
  name : GoString
  rcvr : Receiver
  typ : GoType
  method : GoMap MethodType

/-- Type `daprServer` of `main.go`: the fields that registration writes (`none` is
nil).  The fields `daprSvr` and `svrType` are written by `hook` and by the
constructors only. -/
structure DaprServer where
  svcName : GoString
  service : Option Service
  signature : Option ServiceSignature

/-- Function `newDaprServer`. -/
def newDaprServer : DaprServer := { svcName := go "", service := none, signature := none }

/-- The second result of a call: `none` is a nil error. -/
abbrev GoError := Option GoString

/-- The order in which one `for name, method := range methodMap` statement visits the
entries of the method map.  The Go specification leaves the order open and the runtime
picks it afresh for every loop; all that is known is that every entry is visited once.
The order is a parameter of the functions that range over the map. -/
structure RangeOrder where
  /-- The entries in the order of the visit. -/
  visit : GoMap MethodType → List (GoString × MethodType)
  /-- Every entry is visited exactly once. -/
  perm : ∀ m : GoMap MethodType, (visit m).Perm m

/-- The visit in the order of the first assignments. -/
def RangeOrder.insertion : RangeOrder :=
  { visit := fun m => m, perm := fun m => List.Perm.refl m }

/-- The visit in the opposite order. -/
def RangeOrder.reversed : RangeOrder :=
  { visit := fun m => m.reverse, perm := fun m => List.reverse_perm m }

/-- The loop of `getSignature` (lines 37-62) over the entries of the method map, given
in the order of the visit.  The variables `in` and `out` are declared before the loop
and keep their value from one iteration to the next; `acc` lists `sig.Spec[0..m-1]`. -/
def signatureLoop (P : Program) (fuel : Nat) :
    List (GoString × MethodType) → List RefMethodSignature → Option (List RefFieldInfo) →
      Option (Exec (Except GoString (List RefMethodSignature)))
  | [], acc, _ => some (Exec.returned (Except.ok acc))
  | (name, method) :: rest, acc, out =>
    match indirectType P fuel method.argType with
    | none => none
    | some argvType =>
      match structToYaml P fuel argvType with
      | none => none
      | some Exec.panicked => some Exec.panicked
      | some Exec.exited => some Exec.exited
      | some (Exec.returned (Except.error err)) => some (Exec.returned (Except.error err))
      | some (Exec.returned (Except.ok inl)) =>
        let out1 : Option (List RefFieldInfo) :=
          if P.kind method.replyType = Kind.Interface then some [] else out
        if P.kind method.replyType = Kind.Ptr then
          match indirectType P fuel method.replyType with
          | none => none
          | some replyType =>
            match structToYaml P fuel replyType with
            | none => none
            | some Exec.panicked => some Exec.panicked
            | some Exec.exited => some Exec.exited
            | some (Exec.returned (Except.error err)) =>
              some (Exec.returned (Except.error err))
            | some (Exec.returned (Except.ok outl)) =>
              signatureLoop P fuel rest
                (acc ++ [{ name := name, inFields := some inl, outFields := some outl }])
                (some outl)
        else
          signatureLoop P fuel rest
            (acc ++ [{ name := name, inFields := some inl, outFields := out1 }]) out1

/-- Function `getSignature` of `func_signature.go`; `ρ` is the order in which its loop
visits the method map. -/
def getSignature (P : Program) (fuel : Nat) (ρ : RangeOrder) (server : DaprServer) :
    Option (Exec (Except GoString ServiceSignature)) :=
  match server.service with
  | none => some (Exec.returned (Except.ok { apiVersion := server.svcName, spec := none }))
  | some svc =>
    match signatureLoop P fuel (ρ.visit svc.method) [] none with
    | none => none
    | some Exec.panicked => some Exec.panicked
    | some Exec.exited => some Exec.exited
    | some (Exec.returned (Except.error err)) => some (Exec.returned (Except.error err))
    | some (Exec.returned (Except.ok spec)) =>
      some (Exec.returned (Except.ok { apiVersion := server.svcName, spec := some spec }))

/-- The signature entry `r` is the one that `getSignature` builds for the table entry
`e`: it has the name of the entry; its `In` list is the extraction of the argument type
with pointers (and slices) removed; its `Out` list is empty, and not nil, when the reply
type is of interface kind, and the extraction of the reply type with pointers removed
when it is of pointer kind. -/
def SigEntry (P : Program) (fuel : Nat) (e : GoString × MethodType) (r : RefMethodSignature) :
    Prop :=
  r.name = e.1 ∧
  (∃ t inl, indirectType P fuel e.2.argType = some t ∧
    structToYaml P fuel t = some (Exec.returned (Except.ok inl)) ∧ r.inFields = some inl) ∧
  (P.kind e.2.replyType = Kind.Interface → r.outFields = some []) ∧
  (P.kind e.2.replyType = Kind.Ptr →
    ∃ t outl, indirectType P fuel e.2.replyType = some t ∧
      structToYaml P fuel t = some (Exec.returned (Except.ok outl)) ∧ r.outFields = some outl)

/-- The call `structToYaml(reflect.New(indirectType(t)).Elem().Addr().Interface())` of
`getSignature` returns a field list and no error. -/
def extractsType (P : Program) (fuel : Nat) (t : GoType) : Bool :=
  match indirectType P fuel t with
  | none => false
  | some base =>
    match structToYaml P fuel base with
    | some (Exec.returned (Except.ok _)) => true
    | _ => false

/-- The extractions that `getSignature` makes for a table entry succeed: that of the
argument type and, when the reply type is of pointer kind, that of the reply type. -/
def extracts (P : Program) (fuel : Nat) (e : GoString × MethodType) : Bool :=
  extractsType P fuel e.2.argType &&
  (if P.kind e.2.replyType = Kind.Ptr then extractsType P fuel e.2.replyType else true)

/-! ## `main.go` -/

/-- The expression `reflect.Indirect(s.rcvr).Type().Name()` of `register`: `Type`
panics on the zero `reflect.Value`, which is what a nil interface and a nil pointer
give. -/
def receiverTypeName (P : Program) (rcvr : Option Receiver) : Exec GoString :=
  match rcvr with
  | none => Exec.panicked
  | some r =>
    if P.kind r.typ = Kind.Ptr then
      if r.isNil then Exec.panicked else Exec.returned (P.name (P.elem r.typ))
    else Exec.returned (P.name r.typ)

/-- Method `register` of `main.go`: the error returned and the server afterwards. -/
def register (T : UnicodeTables) (P : Program) (fuel : Nat) (server : DaprServer)
    (rcvr : Option Receiver) (name : GoString) (useName : Bool) :
    Option (Exec (GoError × DaprServer)) :=
  match receiverTypeName P rcvr, rcvr with
  | Exec.returned typeName, some r =>
    let sname := if useName then name else typeName
    if sname = go "" then
      some (Exec.returned
        (some (go "rpc.Register: no service name for type " ++ P.typeString r.typ), server))
    else if !tokenIsExported T sname && !useName then
      some (Exec.returned
        (some (go "rpc.Register: type " ++ sname ++ go " is not exported"), server))
    else
      match suitableMethods T P fuel r.typ with
      | none => none
      | some Exec.panicked => some Exec.panicked
      | some Exec.exited => some Exec.exited
      | some (Exec.returned methods) =>
        if methods.length = 0 then
          match suitableMethods T P fuel (GoType.ptr r.typ) with
          | none => none
          | some Exec.panicked => some Exec.panicked
          | some Exec.exited => some Exec.exited
          | some (Exec.returned method) =>
            if method.length ≠ 0 then
              some (Exec.returned
                (some (go "rpc.Register: type " ++ sname ++
                  go (" has no exported methods of suitable type " ++
                    "(hint: pass a pointer to value of that type)")), server))
            else
              some (Exec.returned
                (some (go "rpc.Register: type " ++ sname ++
                  go " has no exported methods of suitable type"), server))
        else
          some (Exec.returned (none,
            { server with
              svcName := sname
              service := some { name := sname, rcvr := r, typ := r.typ, method := methods } }))
  | _, _ => some Exec.panicked

/-- Method `registMethods` of `main.go`: the error returned and the server
afterwards; `ρ` is the order in which the loop of `getSignature` visits the method
map. -/
def registMethods (T : UnicodeTables) (P : Program) (fuel : Nat) (ρ : RangeOrder)
    (server : DaprServer) (className : GoString) (svr : Option Receiver) :
    Option (Exec (GoError × DaprServer)) :=
  if className = go "" then some (Exec.returned (some (go "className is empty"), server))
  else
    match register T P fuel server svr className true with
    | none => none
    | some Exec.panicked => some Exec.panicked
    | some Exec.exited => some Exec.exited
    | some (Exec.returned (some _, server1)) =>
      some (Exec.returned (some (className ++ go " has not exported method"), server1))
    | some (Exec.returned (none, server1)) =>
      match getSignature P fuel ρ server1 with
      | none => none
      | some Exec.panicked => some Exec.panicked
      | some Exec.exited => some Exec.exited
      | some (Exec.returned (Except.error err)) => some (Exec.returned (some err, server1))
      | some (Exec.returned (Except.ok sig)) =>
        some (Exec.returned (none, { server1 with signature := some sig }))


/-- The part of a Go value that `validParam` walks; the content of a struct or of any
other value is an abstract number. -/
inductive GoValue where
  | nilPtr
  | ptr (target : GoValue)
  | struct (content : Nat)
  | other (content : Nat)
  deriving DecidableEq, Repr

/-- The variable that `replyv` points to. -/
inductive ReplyTarget where
  /-- The zero value that `reflect.New` allocates. -/
  | zero (t : GoType)
  /-- The result of `reflect.MakeMap`. -/
  | emptyMap (t : GoType)
  /-- The result of `reflect.MakeSlice(t, 0, 0)`. -/
  | emptySlice (t : GoType)
  /-- A value stored by the method. -/
  | stored (content : Nat)
  deriving DecidableEq, Repr

/-- The collaborators of a handler that are not part of the repository: the JSON
codec, the validator and the business methods of the service object. -/
structure Runtime where
  /-- The call `json.Unmarshal(in.Data, &params)`, where `params` holds the address of
  a zero variable of the given type: the error, or the value of the variable after
  decoding. -/
  unmarshal : List Nat → GoType → Except GoString GoValue
  /-- The call `validate.Struct(v.Interface())`. -/
  validateStruct : GoValue → GoError
  /-- The call `function.Call` of the method with function value `fn` on the argument
  and the reply pointer (`none` is the nil pointer): how the call ends, the error
  returned and the variable behind the reply pointer afterwards. -/
  call : Nat → GoValue → Option ReplyTarget → Exec (GoError × ReplyTarget)
  /-- The call `json.Marshal(replyv.Interface())`. -/
  marshal : ReplyTarget → Except GoString (List Nat)

/-- Function `validParam` of `main.go`. -/
def validParam (R : Runtime) : GoValue → GoError
  | GoValue.struct c => R.validateStruct (GoValue.struct c)
  | GoValue.ptr target => validParam R target
  | GoValue.nilPtr => none
  | GoValue.other _ => none

/-- Type `common.Content`. -/
structure Content where
  data : List Nat
  contentType : GoString
  deriving DecidableEq, Repr

/-- What one call of a handler does: the two results, the calls of the underlying
method it made (argument and reply pointer), and the method descriptor afterwards. -/
structure HandlerResult where
  content : Option Content
  err : GoError
  calls : List (GoValue × Option ReplyTarget)
  mtype : MethodType

/-- The allocation of `replyv` in the handler (lines 141-154): `none` is the nil
pointer `(*interface)(nil)`. -/
def allocReply (P : Program) (mtype : MethodType) : Option ReplyTarget :=
  if P.kind mtype.replyType = Kind.Interface then none
  else
    match P.kind (P.elem mtype.replyType) with
    | Kind.Map => some (ReplyTarget.emptyMap (P.elem mtype.replyType))
    | Kind.Slice => some (ReplyTarget.emptySlice (P.elem mtype.replyType))
    | _ => some (ReplyTarget.zero (P.elem mtype.replyType))

/-- The fields of the variable behind `replyv` that hold a nil map or a nil slice.  In
the zero value of a struct type these are all its fields of map or slice kind; a map or
slice made by `reflect.MakeMap` or `reflect.MakeSlice` is not nil and has no fields. -/
def nilContainerFields (P : Program) : ReplyTarget → List StructField
  | ReplyTarget.zero t =>
    (P.fields t).filter fun f =>
      decide (P.kind f.typ = Kind.Map) || decide (P.kind f.typ = Kind.Slice)
  | _ => []

/-- The handler that `invokeWarpper` of `main.go` returns, applied to the request
payload `data`.  The log line of `logMethodCall` is not modelled. -/
def invokeWarpper (P : Program) (R : Runtime) (mtype : MethodType) (data : List Nat) :
    Exec HandlerResult :=
  match R.unmarshal data (P.elem mtype.argType) with
  | Except.error err =>
    Exec.returned { content := none, err := some err, calls := [], mtype := mtype }
  | Except.ok decoded =>
    let argv := GoValue.ptr decoded
    match validParam R argv with
    | some err =>
      Exec.returned { content := none, err := some err, calls := [], mtype := mtype }
    | none =>
      let replyv := allocReply P mtype
      match R.call mtype.method.fn argv replyv with
      | Exec.panicked => Exec.panicked
      | Exec.exited => Exec.exited
      | Exec.returned (some err, _) =>
        Exec.returned
          { content := none, err := some err, calls := [(argv, replyv)], mtype := mtype }
      | Exec.returned (none, target) =>
        match replyv with
        | none =>
          Exec.returned
            { content := none, err := none, calls := [(argv, replyv)], mtype := mtype }
        | some _ =>
          match R.marshal target with
          | Except.error err =>
            Exec.returned
              { content := none, err := some err, calls := [(argv, replyv)], mtype := mtype }
          | Except.ok bytes =>
            Exec.returned
              { content := some { data := bytes, contentType := go "application/json" },
                err := none, calls := [(argv, replyv)], mtype := mtype }


/-! ## `helper.go`: the methods of `JSONTime`, over a model of package `time`

Package `time` belongs to the Go standard library, not to the repository.  What the two
methods use of it is modelled after its documentation and its algorithm for the one
layout that the methods pass: the layout `2006-01-02 15:04:05`, which `Format` fills with
zero-padded decimal numbers and which `ParseInLocation` reads back, between the two
quotation marks that the methods add.  The time zone `time.Local` of the process is a
parameter. -/

/-- A `[]byte`, and the bytes of a Go string where package `time` reads them. -/
abbrev Bytes := List Nat

/-- The bytes of an ASCII text. -/
def ascii (s : String) : Bytes := s.data.map Char.toNat

/-- The quotation mark, one byte. -/
def quote : Bytes := [34]

/-- A `JSONTime`, declared as `type JSONTime time.Time`, and a `time.Time`, as far as
`Format` observes them: the date and the clock reading of the time in its own location,
as the methods `Date`, `Clock` and `Nanosecond` return them. -/
structure JSONTime where
  year : Int
  month : Nat
  day : Nat
  hour : Nat
  minute : Nat
  second : Nat
  nsec : Nat
  deriving DecidableEq, Repr

/-- The zero `time.Time`: January 1 of the year 1, 00:00:00 UTC. -/
def zeroTime : JSONTime :=
  { year := 1, month := 1, day := 1, hour := 0, minute := 0, second := 0, nsec := 0 }

/-- Function `isLeap` of package `time`. -/
def isLeap (year : Int) : Bool :=
  decide (year % 4 = 0) && (decide (year % 100 ≠ 0) || decide (year % 400 = 0))

/-- Function `daysIn` of package `time`: the number of days of a month. -/
def daysIn (month : Nat) (year : Int) : Nat :=
  if month = 2 then (if isLeap year then 29 else 28)
  else if month = 4 ∨ month = 6 ∨ month = 9 ∨ month = 11 then 30
  else if 1 ≤ month ∧ month ≤ 12 then 31
  else 0

/-- The readings that a time can have: a day of the calendar and a time of day (package
`time` knows no leap second). -/
def JSONTime.inRange (t : JSONTime) : Bool :=
  decide (1 ≤ t.month) && decide (t.month ≤ 12) &&
  decide (1 ≤ t.day) && decide (t.day ≤ daysIn t.month t.year) &&
  decide (t.hour < 24) && decide (t.minute < 60) && decide (t.second < 60) &&
  decide (t.nsec < 1000000000)

/-- The same reading, cut to the second. -/
def JSONTime.toSecond (t : JSONTime) : JSONTime := { t with nsec := 0 }

/-- A `*time.Location`, as far as `time.Date` observes it: `date c` is the reading, in
the location, of the time that `time.Date(c.year, c.month, c.day, c.hour, c.minute,
c.second, c.nsec, loc)` returns, for a reading `c` in range.  It is `c` itself when
some time has the reading `c` in the location.  Where the clocks of the location are
set forward (the start of daylight-saving time) no time has the readings of the gap, and
`Date` "returns a time that is correct in one of the two zones involved in the
transition" (documentation of `time.Date`), whose reading is therefore another one. -/
structure Location where
  date : JSONTime → JSONTime

/-- The location `time.UTC`, and any location without a change of offset: every reading
exists. -/
def Location.utc : Location := { date := fun c => c }

/-- Function `appendInt` of time/format.go: a minus sign for a negative number, then its
decimal digits, padded with zeros on the left to the given width.  The two cases that
the source treats first, a width of 2 below 100 and a width of 4 below 10000, are
written out. -/
def appendInt (x : Int) (width : Nat) : Bytes :=
  (if x < 0 then [45] else []) ++
  (if width = 2 ∧ x.natAbs < 100 then [48 + x.natAbs / 10, 48 + x.natAbs % 10]
   else if width = 4 ∧ x.natAbs < 10000 then
     [48 + x.natAbs / 1000, 48 + x.natAbs / 100 % 10, 48 + x.natAbs / 10 % 10,
      48 + x.natAbs % 10]
   else
     List.replicate (width - (Nat.toDigits 10 x.natAbs).length) 48 ++
       (Nat.toDigits 10 x.natAbs).map Char.toNat)

/-- Method `Time.Format` with the layout `2006-01-02 15:04:05`: the year, of width 4, and
the month, day, hour, minute and second, of width 2, between the texts of the layout. -/
def timeFormat (t : JSONTime) : Bytes :=
  appendInt t.year 4 ++ ascii "-" ++ appendInt t.month 2 ++ ascii "-" ++ appendInt t.day 2 ++
  ascii " " ++ appendInt t.hour 2 ++ ascii ":" ++ appendInt t.minute 2 ++ ascii ":" ++
  appendInt t.second 2

/-- Method `JSONTime.MarshalJSON` of `helper.go`: the bytes and the error. -/
def MarshalJSON (t : JSONTime) : Bytes × GoError :=
  (quote ++ timeFormat t ++ quote, none)

/-- The errors of `time.Parse` (a `*time.ParseError`): the text does not match the
layout, a field is out of range, or text is left over. -/
inductive ParseError where
  | bad
  | outOfRange (field : String)
  | extraText
  deriving DecidableEq, Repr

/-- A decimal digit. -/
def isDigitByte (c : Nat) : Bool := decide (48 ≤ c) && decide (c ≤ 57)

/-- Function `isDigit` of time/format.go: the string has a digit at index `i`. -/
def isDigitAt (s : Bytes) (i : Nat) : Bool :=
  match s.get? i with
  | some c => isDigitByte c
  | none => false

/-- Function `getnum` of time/format.go: a number of one or two digits; with `fixed`,
of two digits. -/
def getnum (s : Bytes) (fixed : Bool) : Except ParseError (Nat × Bytes) :=
  if isDigitAt s 0 = false then Except.error ParseError.bad
  else if isDigitAt s 1 = false then
    if fixed then Except.error ParseError.bad else Except.ok (s.getD 0 0 - 48, s.drop 1)
  else Except.ok ((s.getD 0 0 - 48) * 10 + (s.getD 1 0 - 48), s.drop 2)

/-- Function `cutspace` of time/format.go. -/
def cutspace (s : Bytes) : Bytes := s.dropWhile fun c => decide (c = 32)

/-- Function `skip` of time/format.go, with the rest of the layout text as second
argument: a space of the layout text stands for any number of spaces of the value
(`afterSpace` holds while the spaces of both have just been cut), any other byte for
itself. -/
def skipFrom : Bool → Bytes → Bytes → Except ParseError Bytes
  | _, value, [] => Except.ok value
  | afterSpace, value, p :: rest =>
    if p = 32 then
      if afterSpace then skipFrom true value rest
      else if value.head?.any (fun c => decide (c ≠ 32)) then Except.error ParseError.bad
      else skipFrom true (cutspace value) rest
    else
      match value with
      | [] => Except.error ParseError.bad
      | c :: value1 => if c = p then skipFrom false value1 rest else Except.error ParseError.bad

/-- Function `skip` of time/format.go. -/
def skip (value pre : Bytes) : Except ParseError Bytes := skipFrom false value pre

/-- Function `atoi` of time/format.go, without the overflow of the machine integer: an
optional sign and then digits only. -/
def atoi (s : Bytes) : Except ParseError Int :=
  let neg := decide (s.head? = some 45)
  let body := if s.head? = some 45 ∨ s.head? = some 43 then s.drop 1 else s
  if body.all isDigitByte then
    let x : Nat := body.foldl (fun x c => x * 10 + (c - 48)) 0
    Except.ok (if neg then - (x : Int) else (x : Int))
  else Except.error ParseError.bad

/-- The fraction of a second that `time.Parse` accepts after the seconds although the
layout has none: a period or a comma and digits, of which `parseNanoseconds` reads the
first nine.  The result is the nanoseconds and the rest of the value. -/
def fraction (value : Bytes) : Nat × Bytes :=
  if 2 ≤ value.length ∧ (value.head? = some 46 ∨ value.head? = some 44) ∧
      isDigitAt value 1 = true then
    let digits := (value.drop 1).takeWhile isDigitByte
    let read := digits.take 9
    (read.foldl (fun x c => x * 10 + (c - 48)) 0 * 10 ^ (9 - read.length),
     value.drop (1 + digits.length))
  else (0, value)

/-- The chunks of `time.Parse` for the date: the text before the year, the chunk `2006`
(four digits), the chunk `01` (two digits, 1 to 12) and the chunk `02` (two digits), with
the text `-` before each of the two.  The result is the year, month and day and the rest
of the value. -/
def parseDate (value : Bytes) : Except ParseError (Int × Nat × Nat × Bytes) :=
  match skip value quote with
  | Except.error e => Except.error e
  | Except.ok v1 =>
    if v1.length < 4 ∨ isDigitAt v1 0 = false then Except.error ParseError.bad
    else
      match atoi (v1.take 4) with
      | Except.error e => Except.error e
      | Except.ok year =>
        match skip (v1.drop 4) (ascii "-") with
        | Except.error e => Except.error e
        | Except.ok v2 =>
          match getnum v2 true with
          | Except.error e => Except.error e
          | Except.ok (month, v3) =>
            if month ≤ 0 ∨ 12 < month then Except.error (ParseError.outOfRange "month")
            else
              match skip v3 (ascii "-") with
              | Except.error e => Except.error e
              | Except.ok v4 =>
                match getnum v4 true with
                | Except.error e => Except.error e
                | Except.ok (day, v5) => Except.ok (year, month, day, v5)

/-- The chunks of `time.Parse` for the time of day: the chunk `15` (one or two digits,
below 24) after the text of one space, the chunks `04` and `05` (two digits, below 60),
each after the text `:`, and the fraction of a second that may follow.  The result is
the hour, minute, second and nanoseconds and the rest of the value. -/
def parseClock (value : Bytes) : Except ParseError (Nat × Nat × Nat × Nat × Bytes) :=
  match skip value (ascii " ") with
  | Except.error e => Except.error e
  | Except.ok v1 =>
    match getnum v1 false with
    | Except.error e => Except.error e
    | Except.ok (hour, v2) =>
      if 24 ≤ hour then Except.error (ParseError.outOfRange "hour")
      else
        match skip v2 (ascii ":") with
        | Except.error e => Except.error e
        | Except.ok v3 =>
          match getnum v3 true with
          | Except.error e => Except.error e
          | Except.ok (minute, v4) =>
            if 60 ≤ minute then Except.error (ParseError.outOfRange "minute")
            else
              match skip v4 (ascii ":") with
              | Except.error e => Except.error e
              | Except.ok v5 =>
                match getnum v5 true with
                | Except.error e => Except.error e
                | Except.ok (second, v6) =>
                  if 60 ≤ second then Except.error (ParseError.outOfRange "second")
                  else Except.ok (hour, minute, second, (fraction v6).1, (fraction v6).2)

/-- The call `time.ParseInLocation(layout, value, loc)` of `UnmarshalJSON`, whose layout
is `2006-01-02 15:04:05` between two quotation marks: the chunks of the date and of the
time of day, the closing quotation mark and nothing after it, the check of the day
against the month, and `time.Date` in the location. -/
def parseInLocation (loc : Location) (value : Bytes) : Except ParseError JSONTime :=
  match parseDate value with
  | Except.error e => Except.error e
  | Except.ok (year, month, day, v1) =>
    match parseClock v1 with
    | Except.error e => Except.error e
    | Except.ok (hour, minute, second, nsec, v2) =>
      match skip v2 quote with
      | Except.error e => Except.error e
      | Except.ok v3 =>
        if v3 ≠ [] then Except.error ParseError.extraText
        else if day < 1 ∨ daysIn month year < day then
          Except.error (ParseError.outOfRange "day")
        else
          Except.ok (loc.date
            { year := year, month := month, day := day, hour := hour, minute := minute,
              second := second, nsec := nsec })

/-- Method `JSONTime.UnmarshalJSON` of `helper.go`, with `loc` for `time.Local`: the
value of `*t` afterwards (the zero time when the parser fails) and the error. -/
def UnmarshalJSON (loc : Location) (data : Bytes) : JSONTime × Option ParseError :=
  match parseInLocation loc data with
  | Except.ok now => (now, none)
  | Except.error e => (zeroTime, some e)

/-- The bytes are a quoted string in the pattern `YYYY-MM-DD HH:MM:SS`: a quotation
mark, four digits, `-`, two digits, `-`, two digits, a space, two digits, `:`, two digits,
`:`, two digits and a quotation mark. -/
def quotedPattern : Bytes → Bool
  | [q1, y1, y2, y3, y4, a1, m1, m2, a2, d1, d2, sp, h1, h2, c1, n1, n2, c2, s1, s2, q2] =>
    decide (q1 = 34) && isDigitByte y1 && isDigitByte y2 && isDigitByte y3 && isDigitByte y4 &&
    decide (a1 = 45) && isDigitByte m1 && isDigitByte m2 &&
    decide (a2 = 45) && isDigitByte d1 && isDigitByte d2 &&
    decide (sp = 32) && isDigitByte h1 && isDigitByte h2 &&
    decide (c1 = 58) && isDigitByte n1 && isDigitByte n2 &&
    decide (c2 = 58) && isDigitByte s1 && isDigitByte s2 && decide (q2 = 34)
  | _ => false


/-! ## The types of `dapr_test.go`, and a few more, as a program -/

namespace Sample

/-- The package path of the repository's package. -/
def pkg : GoString := go "github.com/wxz1211/dapr-sdk-warpper/server"

/-- A predeclared type. -/
def basic (k : Kind) (n : String) : TypeDecl :=
  { kind := k, name := go n, pkgPath := go "", elem := GoType.ref 0, key := GoType.ref 0, fields := [] }

/-- A struct type declared in the package. -/
def structDecl (n : String) (fs : List StructField) : TypeDecl :=
  { kind := Kind.Struct, name := go n, pkgPath := pkg, elem := GoType.ref 0, key := GoType.ref 0, fields := fs }

/-- An exported field with a json tag. -/
def fld (n : String) (t : GoType) (tag : String) : StructField :=
  { name := go n, pkgPath := go "", typ := t, jsonTag := go tag, anonymous := false }

/-- An embedded field without tag; it is exported when `exported` holds. -/
def embedded (n : String) (t : GoType) (exported : Bool) : StructField :=
  { name := go n, pkgPath := if exported then go "" else pkg, typ := t, jsonTag := go "",
    anonymous := true }

def tString : GoType := GoType.ref 0
def tInt : GoType := GoType.ref 1
def tFloat64 : GoType := GoType.ref 2
def tBool : GoType := GoType.ref 3
def tPermission : GoType := GoType.ref 4
def tSubDemo : GoType := GoType.ref 5
def tYamlDemo : GoType := GoType.ref 6
def tAreaNode : GoType := GoType.ref 7
def tContext : GoType := GoType.ref 8
def tError : GoType := GoType.ref 9
def tEmptyInterface : GoType := GoType.ref 10
def tDemoServer : GoType := GoType.ref 11
def tTime : GoType := GoType.ref 12
def tBaseResponse : GoType := GoType.ref 13
def tLoginKind : GoType := GoType.ref 14
def tGetLoginKindResponse : GoType := GoType.ref 15
/-- Not in the repository: `struct` with the field `Count map[string]int`. -/
def tCounters : GoType := GoType.ref 16
/-- Not in the repository: `struct` with the field `Names map[int]string`. -/
def tIndex : GoType := GoType.ref 17
/-- Not in the repository: a service type with the method
`Incr(ctx context.Context, in *int, out interface) error`. -/
def tIntServer : GoType := GoType.ref 18
/-- Not in the repository: the unexported struct type `base` with the field `ID int`. -/
def tBase : GoType := GoType.ref 19
/-- Not in the repository: `struct` with the embedded field `base` and the field
`Name string`. -/
def tHolder : GoType := GoType.ref 20

/-- Not in the repository: the struct type `Node` of a package `a`, with the field
`Peers []b.Node`. -/
def tNodeA : GoType := GoType.ref 21
/-- Not in the repository: the struct type `Node` of a package `b`, with the field
`ID int`. -/
def tNodeB : GoType := GoType.ref 22
/-- Not in the repository: the defined type `Count`, declared as `type Count int`. -/
def tCount : GoType := GoType.ref 23
/-- Not in the repository: `struct` with the single, embedded field `Count`. -/
def tTally : GoType := GoType.ref 24
/-- The type `UpdateIn` of exmaple/main.go. -/
def tUpdateIn : GoType := GoType.ref 25
/-- Not in the repository: a service type with the methods `Close() error` and
`UpdateInfo` (as `EchoServer.UpdateInfo` of exmaple/main.go). -/
def tUpdateServer : GoType := GoType.ref 26
/-- Not in the repository: a service type with the methods `Close() error` and
`GetLoginKind` (as `DemoServer.GetLoginKind` of dapr_test.go). -/
def tMixedServer : GoType := GoType.ref 27
/-- Not in the repository: a service type with the methods `GetURL` and `GetUrl`, both
with the parameters of `UpdateInfo`. -/
def tUrlServer : GoType := GoType.ref 28
/-- The type `EchoIn` of exmaple/main.go. -/
def tEchoIn : GoType := GoType.ref 29
/-- The type `Extention` of exmaple/main.go. -/
def tExtention : GoType := GoType.ref 30
/-- The type `EchoOut` of exmaple/main.go. -/
def tEchoOut : GoType := GoType.ref 31
/-- The type `EchoServer` of exmaple/main.go. -/
def tEchoServer : GoType := GoType.ref 32

/-- The type table. -/
def types : Nat → TypeDecl
  | 0 => basic Kind.String "string"
  | 1 => basic Kind.Int "int"
  | 2 => basic Kind.Float64 "float64"
  | 3 => basic Kind.Bool "bool"
  | 4 => structDecl "Permission"
      [fld "ServiceID" tString "service_id", fld "Method" (GoType.slice tString) "method"]
  | 5 => structDecl "SubDemo"
      [fld "ID" tInt "id,omitempty", fld "Float" tFloat64 "float", fld "Bool" tBool "boolean"]
  | 6 => structDecl "YamlDemo"
      [embedded "SubDemo" tSubDemo true, fld "Name" tString "name",
       fld "Meta" (GoType.map tString tString) "meta",
       fld "Permission" (GoType.slice (GoType.ptr tPermission)) "permission"]
  | 7 => structDecl "AreaNode"
      [fld "Code" tString "code", fld "Name" tString "name",
       fld "Children" (GoType.slice (GoType.ptr tAreaNode)) "children"]
  | 8 => { kind := Kind.Interface, name := go "Context", pkgPath := go "context",
           elem := GoType.ref 0, key := GoType.ref 0, fields := [] }
  | 9 => basic Kind.Interface "error"
  | 10 => basic Kind.Interface ""
  | 11 => structDecl "DemoServer" []
  | 12 => { kind := Kind.Struct, name := go "Time", pkgPath := go "time",
            elem := GoType.ref 0, key := GoType.ref 0, fields := [] }
  | 13 => structDecl "BaseResponse" [fld "Result" tInt "result", fld "Message" tString "msg"]
  | 14 => structDecl "LoginKind" [fld "Name" tString "name", fld "Label" tString "label"]
  | 15 => structDecl "GetLoginKindResponse"
      [embedded "BaseResponse" tBaseResponse true,
       fld "Kinds" (GoType.slice tLoginKind) "kinds", fld "CreateAt" tTime "create"]
  | 16 => structDecl "Counters" [fld "Count" (GoType.map tString tInt) "count"]
  | 17 => structDecl "Index" [fld "Names" (GoType.map tInt tString) "names"]
  | 18 => structDecl "IntServer" []
  | 19 => structDecl "base" [fld "ID" tInt "id"]
  | 20 => structDecl "Holder" [embedded "base" tBase false, fld "Name" tString "name"]
  | 21 => { kind := Kind.Struct, name := go "Node", pkgPath := go "a",
            elem := GoType.ref 0, key := GoType.ref 0,
            fields := [fld "Peers" (GoType.slice tNodeB) "peers"] }
  | 22 => { kind := Kind.Struct, name := go "Node", pkgPath := go "b",
            elem := GoType.ref 0, key := GoType.ref 0, fields := [fld "ID" tInt "id"] }
  | 23 => { kind := Kind.Int, name := go "Count", pkgPath := pkg,
            elem := GoType.ref 0, key := GoType.ref 0, fields := [] }
  | 24 => structDecl "Tally" [embedded "Count" tCount true]
  | 25 => structDecl "UpdateIn"
      [fld "IsNewUser" tBool "is_new", fld "Age" tInt "age",
       fld "BodyHeights" tInt "body_heights", fld "Name" tString "name",
       fld "LoginDate" tInt "login_date"]
  | 26 => structDecl "UpdateServer" []
  | 27 => structDecl "MixedServer" []
  | 28 => structDecl "UrlServer" []
  | 29 => structDecl "EchoIn" [fld "Message" tString "message", fld "CreateAt" tTime "create_at"]
  | 30 => structDecl "Extention" [fld "ID" tString "id", fld "Name" tString "name"]
  | 31 => structDecl "EchoOut"
      [fld "Message" tString "message",
       fld "Extentions" (GoType.slice (GoType.ptr tExtention)) "extention",
       fld "EchoAt" tTime "echo_at"]
  | 32 => structDecl "EchoServer" []
  | _ => basic Kind.Invalid ""

/-- The method `GetLoginKind` of `*DemoServer` (dapr_test.go). -/
def getLoginKind : Method :=
  { name := go "GetLoginKind", pkgPath := go "",
    ins := [GoType.ptr tDemoServer, tContext, GoType.ptr tAreaNode,
            GoType.ptr tGetLoginKindResponse],
    outs := [tError], fn := 0 }

/-- Not in the repository: the method `Incr` of `*IntServer`. -/
def incr : Method :=
  { name := go "Incr", pkgPath := go "",
    ins := [GoType.ptr tIntServer, tContext, GoType.ptr tInt, tEmptyInterface],
    outs := [tError], fn := 1 }

/-- A method `Close() error` with a pointer receiver: it has one parameter, the
receiver, where the scan needs four. -/
def closeOf (recv : GoType) : Method :=
  { name := go "Close", pkgPath := go "", ins := [GoType.ptr recv], outs := [tError], fn := 3 }

/-- A method with the parameters of `GetLoginKind` (dapr_test.go) on another
receiver. -/
def getLoginKindOf (recv : GoType) : Method :=
  { name := go "GetLoginKind", pkgPath := go "",
    ins := [GoType.ptr recv, tContext, GoType.ptr tAreaNode, GoType.ptr tGetLoginKindResponse],
    outs := [tError], fn := 4 }

/-- A method with the parameters of `UpdateInfo` (exmaple/main.go):
`(ctx context.Context, in *UpdateIn, out interface) error`. -/
def updateInfo (name : GoString) (recv : GoType) (fn : Nat) : Method :=
  { name := name, pkgPath := go "",
    ins := [GoType.ptr recv, tContext, GoType.ptr tUpdateIn, tEmptyInterface],
    outs := [tError], fn := fn }

/-- The method `Echo` of `*EchoServer` (exmaple/main.go). -/
def echo : Method :=
  { name := go "Echo", pkgPath := go "",
    ins := [GoType.ptr tEchoServer, tContext, GoType.ptr tEchoIn, GoType.ptr tEchoOut],
    outs := [tError], fn := 7 }

/-- The method sets in method order (sorted by name): `*DemoServer` has `GetLoginKind`,
`*IntServer` has `Incr`, `*UpdateServer` has `Close` and `UpdateInfo`, `*MixedServer`
has `Close` and `GetLoginKind`, `*UrlServer` has `GetURL` and `GetUrl`, `*EchoServer`
has `Echo` and `UpdateInfo`; every other type has no method. -/
def methods (t : GoType) : List Method :=
  if t = GoType.ptr tDemoServer then [getLoginKind]
  else if t = GoType.ptr tIntServer then [incr]
  else if t = GoType.ptr tUpdateServer then
    [closeOf tUpdateServer, updateInfo (go "UpdateInfo") tUpdateServer 2]
  else if t = GoType.ptr tMixedServer then
    [closeOf tMixedServer, getLoginKindOf tMixedServer]
  else if t = GoType.ptr tUrlServer then
    [updateInfo (go "GetURL") tUrlServer 5, updateInfo (go "GetUrl") tUrlServer 6]
  else if t = GoType.ptr tEchoServer then [echo, updateInfo (go "UpdateInfo") tEchoServer 8]
  else []

/-- The text of a type, here its name only (used in one error message). -/
def typeString : GoType → GoString
  | GoType.ref id => (types id).name
  | _ => go ""

/-- The program. -/
def program : Program :=
  { types := types, methods := methods, contextType := tContext, errorType := tError,
    typeString := typeString }

/-- The descriptor that `suitableMethods` builds for `GetLoginKind`. -/
def getLoginKindType : MethodType :=
  { method := getLoginKind, argType := GoType.ptr tAreaNode,
    replyType := GoType.ptr tGetLoginKindResponse, numCalls := 0 }

/-- The descriptor that `suitableMethods` builds for `UpdateInfo` of `*UpdateServer`. -/
def updateInfoType : MethodType :=
  descriptorOf (updateInfo (go "UpdateInfo") tUpdateServer 2)

/-- The service descriptor of `updateServer`. -/
def updateService : Service :=
  { name := go "className",
    rcvr := { typ := GoType.ptr tUpdateServer, isNil := false },
    typ := GoType.ptr tUpdateServer,
    method := [(go "update_info", updateInfoType)] }

/-- The server after the registration of an `*UpdateServer`, before `getSignature`. -/
def updateServer : DaprServer :=
  { svcName := go "className",
    service := some updateService,
    signature := none }

/-- The signature entry of `UpdateInfo`. -/
def updateInfoEntry : RefMethodSignature :=
  { name := go "update_info",
    inFields := some [(go "is_new", FieldValue.tag (go "bool")),
                      (go "age", FieldValue.tag (go "number")),
                      (go "body_heights", FieldValue.tag (go "number")),
                      (go "name", FieldValue.tag (go "string")),
                      (go "login_date", FieldValue.tag (go "number"))],
    outFields := some [] }

/-- The method table of an `*EchoServer` (exmaple/main.go). -/
def echoTable : GoMap MethodType :=
  [(go "echo", descriptorOf echo),
   (go "update_info", descriptorOf (updateInfo (go "UpdateInfo") tEchoServer 8))]

/-- The server after the registration of an `*EchoServer` under the name that
exmaple/main.go gives it, before `getSignature`. -/
def echoServer : DaprServer :=
  { svcName := go "demo.echo.hugelink.cn/v1",
    service := some { name := go "demo.echo.hugelink.cn/v1",
                      rcvr := { typ := GoType.ptr tEchoServer, isNil := false },
                      typ := GoType.ptr tEchoServer,
                      method := echoTable },
    signature := none }

/-- The descriptor that `suitableMethods` builds for `Incr`. -/
def incrType : MethodType :=
  { method := incr, argType := GoType.ptr tInt, replyType := tEmptyInterface, numCalls := 0 }

/-- A runtime for the evaluation of handlers: the empty payload does not decode, any
other payload decodes to a struct whose content is the length of the payload; the
struct of content 1 fails validation; every method stores 0 in its reply and returns
nil; every reply encodes as the two bytes of an empty JSON object. -/
def runtime : Runtime :=
  { unmarshal := fun data _ =>
      if data = [] then Except.error (go "unexpected end of JSON input")
      else Except.ok (GoValue.struct data.length)
    validateStruct := fun v =>
      if v = GoValue.struct 1 then some (go "validation failed") else none
    call := fun _ _ _ => Exec.returned (none, ReplyTarget.stored 0)
    marshal := fun _ => Except.ok [123, 125] }

/-- The location America/New_York as far as 14 March 2021 is concerned: that night
the clocks went from 01:59:59 EST to 03:00:00 EDT, so no time has a reading from 02:00:00
to 02:59:59 of that day.  For such a reading `time.Date` returns a time that is correct in
one of the two zones, and its documentation does not say in which: the time that reads
one hour earlier in EST (01:30:00 for 02:30:00), or, with `later`, the time that reads one
hour later in EDT (03:30:00).  Every other reading is taken to exist. -/
def newYork (later : Bool) : Location :=
  { date := fun c =>
      if c.year = 2021 ∧ c.month = 3 ∧ c.day = 14 ∧ c.hour = 2 then
        { c with hour := if later then 3 else 1 }
      else c }

/-- The time 2021-03-14 02:30:00 UTC, as
`JSONTime(time.Date(2021, 3, 14, 2, 30, 0, 0, time.UTC))`. -/
def halfPastTwo : JSONTime :=
  { year := 2021, month := 3, day := 14, hour := 2, minute := 30, second := 0, nsec := 0 }

/-- A time of the afternoon of 5 November 2026, with a fraction of a second. -/
def afternoon : JSONTime :=
  { year := 2026, month := 11, day := 5, hour := 16, minute := 7, second := 9,
    nsec := 123456789 }

end Sample

/-! # Theorems -/


/-! ## Lemmas on `camelSplit` -/

theorem validString_ofRunes (cs : List Char) : validString (ofRunes cs) = true := by
  induction cs with
  | nil => rfl
  | cons c cs ih => simp [validString, ofRunes]

theorem runesOf_ofRunes (cs : List Char) : runesOf (ofRunes cs) = cs := by
  induction cs with
  | nil => rfl
  | cons c cs ih => simpa [runesOf, ofRunes] using ih

theorem ofRunes_append (xs ys : List Char) : ofRunes (xs ++ ys) = ofRunes xs ++ ofRunes ys := by
  simp [ofRunes]

theorem stringsToLower_ofRunes (T : UnicodeTables) (cs : List Char) :
    stringsToLower T (ofRunes cs) = ofRunes (cs.map T.toLower) := by
  induction cs with
  | nil => rfl
  | cons c cs ih => simp [stringsToLower, ofRunes]

theorem runeClass_pos (T : UnicodeTables) (r : Char) : runeClass T r ≠ 0 := by
  unfold runeClass
  split_ifs <;> simp

theorem splitLoop_grow (T : UnicodeTables) (cs : List Char) :
    ∀ (rs : List (List Char)) (cur : List Char) (cls : Nat),
      (splitLoop T cs (rs ++ [cur], cls)).map Prod.fst = some (rs ++ grow T cur cls cs) := by
  induction cs with
  | nil => intro rs cur cls; simp [splitLoop, grow]
  | cons r rest ih =>
    intro rs cur cls
    by_cases h : runeClass T r = cls
    · have := ih rs (cur ++ [r]) cls
      simpa [splitLoop, splitStep, grow, h] using this
    · have := ih (rs ++ [cur]) [r] (runeClass T r)
      simpa [splitLoop, splitStep, grow, h] using this

theorem splitLoop_runs (T : UnicodeTables) (cs : List Char) :
    (splitLoop T cs ([], 0)).map Prod.fst = some (runs T cs) := by
  cases cs with
  | nil => simp [splitLoop, runs]
  | cons r rest =>
    have := splitLoop_grow T rest [] [r] (runeClass T r)
    simpa [splitLoop, splitStep, runs, runeClass_pos T r] using this

/-- On a valid string `camelSplit` is the second and third loop applied to the runs. -/
theorem camelSplit_ofRunes (T : UnicodeTables) (cs : List Char) :
    camelSplit T (ofRunes cs) = (fixLoop T (runs T cs)).map collectEntries := by
  have h := splitLoop_runs T cs
  unfold camelSplit
  rw [validString_ofRunes, runesOf_ofRunes]
  cases hs : splitLoop T cs ([], 0) with
  | none => simp [hs] at h
  | some st =>
    simp only [hs, Option.map_some', Option.some.injEq] at h
    simp only [Bool.not_true, Bool.false_eq_true, if_false, h]
    cases fixLoop T (runs T cs) <;> rfl

theorem grow_nonempty (T : UnicodeTables) (cs : List Char) :
    ∀ (cur : List Char) (cls : Nat), cur ≠ [] → ∀ e ∈ grow T cur cls cs, e ≠ [] := by
  induction cs with
  | nil => intro cur cls h e he; simp [grow] at he; subst he; exact h
  | cons r rest ih =>
    intro cur cls h e he
    unfold grow at he
    split_ifs at he with hc
    · exact ih (cur ++ [r]) cls (by simp) e he
    · rcases List.mem_cons.1 he with rfl | he
      · exact h
      · exact ih [r] _ (by simp) e he

theorem runs_nonempty (T : UnicodeTables) (cs : List Char) : ∀ e ∈ runs T cs, e ≠ [] := by
  cases cs with
  | nil => intro e he; simp [runs] at he
  | cons r rest => exact grow_nonempty T rest [r] _ (by simp)

theorem grow_uniform (T : UnicodeTables) (cls : Nat) (xs : List Char) :
    ∀ (cur ys : List Char), (∀ c ∈ xs, runeClass T c = cls) →
      grow T cur cls (xs ++ ys) = grow T (cur ++ xs) cls ys := by
  induction xs with
  | nil => intro cur ys _; simp
  | cons x xs ih =>
    intro cur ys h
    have hx : runeClass T x = cls := h x (List.mem_cons_self _ _)
    have := ih (cur ++ [x]) ys (fun c hc => h c (List.mem_cons_of_mem _ hc))
    simpa [grow, hx] using this

/-- A non-empty stretch of runes of one class, followed by nothing or by a rune of
another class, is the first run. -/
theorem runs_append (T : UnicodeTables) (cls : Nat) (e ys : List Char) (he : e ≠ [])
    (hu : ∀ c ∈ e, runeClass T c = cls)
    (hy : ∀ y, ys.head? = some y → runeClass T y ≠ cls) :
    runs T (e ++ ys) = e :: runs T ys := by
  obtain ⟨x, xs, rfl⟩ := List.exists_cons_of_ne_nil he
  have hx : runeClass T x = cls := hu x (List.mem_cons_self _ _)
  have hxs : ∀ c ∈ xs, runeClass T c = cls := fun c hc => hu c (List.mem_cons_of_mem _ hc)
  have h1 : runs T (x :: xs ++ ys) = grow T (x :: xs) cls ys := by
    have := grow_uniform T cls xs [x] ys hxs
    simpa [runs, hx] using this
  rw [h1]
  cases ys with
  | nil => simp [grow, runs]
  | cons y ys =>
    have : runeClass T y ≠ cls := hy y rfl
    simp [grow, runs, this]

theorem fixFrom_total (T : UnicodeTables) (rest : List (List Char)) :
    ∀ a : List Char, a ≠ [] → (∀ b ∈ rest, b ≠ []) → ∃ out, fixFrom T a rest = some out := by
  induction rest with
  | nil => intro a _ _; exact ⟨[a], rfl⟩
  | cons b rest ih =>
    intro a ha hrest
    have hb : b ≠ [] := hrest b (List.mem_cons_self _ _)
    have hr : ∀ x ∈ rest, x ≠ [] := fun x hx => hrest x (List.mem_cons_of_mem _ hx)
    obtain ⟨a0, as, rfl⟩ := List.exists_cons_of_ne_nil ha
    obtain ⟨b0, bs, rfl⟩ := List.exists_cons_of_ne_nil hb
    obtain ⟨o1, h1⟩ := ih (b0 :: bs) (by simp) hr
    unfold fixFrom
    simp only [List.head?_cons]
    by_cases hu : T.isUpper a0 = true
    · by_cases hl : T.isLower b0 = true
      · obtain ⟨z, hz⟩ : ∃ z, (a0 :: as).getLast? = some z :=
          ⟨(a0 :: as).getLast (by simp), List.getLast?_eq_getLast _ _⟩
        obtain ⟨o2, h2⟩ := ih (z :: b0 :: bs) (by simp) hr
        simp [hu, hl, hz, h2]
      · simp [hu, hl, h1]
    · simp [hu, h1]

theorem fixLoop_total (T : UnicodeTables) (rs : List (List Char)) (h : ∀ b ∈ rs, b ≠ []) :
    ∃ out, fixLoop T rs = some out := by
  cases rs with
  | nil => exact ⟨[], rfl⟩
  | cons a rest =>
    exact fixFrom_total T rest a (h a (List.mem_cons_self _ _))
      (fun b hb => h b (List.mem_cons_of_mem _ hb))

theorem camelSplit_total (T : UnicodeTables) (cs : List Char) :
    ∃ names, camelSplit T (ofRunes cs) = some names := by
  obtain ⟨out, h⟩ := fixLoop_total T (runs T cs) (runs_nonempty T cs)
  exact ⟨collectEntries out, by rw [camelSplit_ofRunes, h]; rfl⟩

theorem runeClass_upper (T : UnicodeTables) (c : Char) (hu : T.isUpper c = true)
    (hl : T.isLower c = false) : runeClass T c = 2 := by
  simp [runeClass, hu, hl]

theorem runeClass_lower (T : UnicodeTables) (c : Char) (hl : T.isLower c = true) :
    runeClass T c = 1 := by
  simp [runeClass, hl]

/-- The split of an upper-case run followed by a lower-case run. -/
theorem camelSplit_upper_lower (T : UnicodeTables) (U0 : List Char) (z : Char) (L : List Char)
    (hU0 : U0 ≠ []) (hL : L ≠ [])
    (hU : ∀ c ∈ U0 ++ [z], T.isUpper c = true ∧ T.isLower c = false)
    (hLc : ∀ c ∈ L, T.isLower c = true) :
    camelSplit T (ofRunes (U0 ++ [z] ++ L)) = some [ofRunes U0, ofRunes (z :: L)] := by
  have hruns : runs T (U0 ++ [z] ++ L) = [U0 ++ [z], L] := by
    rw [runs_append T 2 (U0 ++ [z]) L (by simp)
      (fun c hc => runeClass_upper T c (hU c hc).1 (hU c hc).2)]
    · have := runs_append T 1 L [] hL (fun c hc => runeClass_lower T c (hLc c hc))
        (by simp)
      simpa [runs] using this
    · intro y hy
      have : y ∈ L := List.mem_of_mem_head? hy
      rw [runeClass_lower T y (hLc y this)]; decide
  obtain ⟨u, us, rfl⟩ := List.exists_cons_of_ne_nil hU0
  obtain ⟨l, ls, rfl⟩ := List.exists_cons_of_ne_nil hL
  have hu : T.isUpper u = true := (hU u (by simp)).1
  have hl : T.isLower l = true := hLc l (by simp)
  rw [camelSplit_ofRunes, hruns]
  have hlast : (u :: (us ++ [z])).getLast? = some z :=
    List.getLast?_concat (u :: us)
  have hdrop : (u :: (us ++ [z])).dropLast = u :: us :=
    @List.dropLast_concat _ (u :: us) z
  have : fixLoop T [u :: us ++ [z], l :: ls] = some [u :: us, z :: l :: ls] := by
    simp only [fixLoop, fixFrom, List.cons_append, List.head?_cons, hu, hl, if_true, hlast,
      hdrop, Option.map_some']
  rw [this]
  simp [collectEntries, ofRunes]

/-! ## ASCII facts -/

theorem isUpper_iff (c : Char) : c.isUpper = true ↔ 65 ≤ c.toNat ∧ c.toNat ≤ 90 := by
  simp [Char.isUpper, Char.toNat, UInt32.le_def, UInt32.toNat, BitVec.le_def]

theorem isLower_iff (c : Char) : c.isLower = true ↔ 97 ≤ c.toNat ∧ c.toNat ≤ 122 := by
  simp [Char.isLower, Char.toNat, UInt32.le_def, UInt32.toNat, BitVec.le_def]

theorem isDigit_iff (c : Char) : c.isDigit = true ↔ 48 ≤ c.toNat ∧ c.toNat ≤ 57 := by
  simp [Char.isDigit, Char.toNat, UInt32.le_def, UInt32.toNat, BitVec.le_def]

theorem isAlpha_iff (c : Char) :
    c.isAlpha = true ↔ (65 ≤ c.toNat ∧ c.toNat ≤ 90) ∨ (97 ≤ c.toNat ∧ c.toNat ≤ 122) := by
  simp [Char.isAlpha, isUpper_iff, isLower_iff]

theorem toLower_of_isUpper (c : Char) (h : c.isUpper = true) : c.toLower.isLower = true := by
  rw [isUpper_iff] at h
  have hc : c = Char.ofNat c.toNat := by simp
  rw [hc]
  generalize c.toNat = n at h
  obtain ⟨h1, h2⟩ := h
  interval_cases n <;> decide

theorem toLower_of_not_isUpper (c : Char) (h : c.isUpper = false) : c.toLower = c := by
  have : ¬ (65 ≤ c.toNat ∧ c.toNat ≤ 90) := by
    rw [← isUpper_iff]; simp [h]
  unfold Char.toLower
  simp only [ge_iff_le]
  rw [if_neg this]

theorem isUpper_false_of_isLower (c : Char) (h : c.isLower = true) : c.isUpper = false := by
  rw [isLower_iff] at h
  have : ¬ c.isUpper = true := by rw [isUpper_iff]; omega
  simpa using this

theorem isUpper_false_of_isDigit (c : Char) (h : c.isDigit = true) : c.isUpper = false := by
  rw [isDigit_iff] at h
  have : ¬ c.isUpper = true := by rw [isUpper_iff]; omega
  simpa using this

theorem isLower_false_of_isDigit (c : Char) (h : c.isDigit = true) : c.isLower = false := by
  rw [isDigit_iff] at h
  have : ¬ c.isLower = true := by rw [isLower_iff]; omega
  simpa using this

theorem isDigit_false_of_isAlpha (c : Char) (h : c.isAlpha = true) : c.isDigit = false := by
  rw [isAlpha_iff] at h
  have : ¬ c.isDigit = true := by rw [isDigit_iff]; omega
  simpa using this

theorem toLower_isLower_of_isAlpha (c : Char) (h : c.isAlpha = true) :
    c.toLower.isLower = true := by
  by_cases hu : c.isUpper = true
  · exact toLower_of_isUpper c hu
  · have hu2 : c.isUpper = false := by simpa using hu
    rw [toLower_of_not_isUpper c hu2]
    simpa [Char.isAlpha, hu2] using h

theorem ascii_of_isAlpha (c : Char) (h : c.isAlpha = true) : c.toNat < 128 := by
  rw [isAlpha_iff] at h; omega

theorem ascii_of_isDigit (c : Char) (h : c.isDigit = true) : c.toNat < 128 := by
  rw [isDigit_iff] at h; omega

theorem ascii_of_isLower (c : Char) (h : c.isLower = true) : c.toNat < 128 := by
  rw [isLower_iff] at h; omega

/-- The class of a lower-case ASCII letter. -/
theorem runeClass_of_isLower (T : UnicodeTables) (hT : AsciiStandard T) (c : Char)
    (h : c.isLower = true) : runeClass T c = 1 := by
  have := hT c (ascii_of_isLower c h)
  simp [runeClass, this.1, h]

/-- The class of an ASCII digit. -/
theorem runeClass_of_isDigit (T : UnicodeTables) (hT : AsciiStandard T) (c : Char)
    (h : c.isDigit = true) : runeClass T c = 3 := by
  have := hT c (ascii_of_isDigit c h)
  simp [runeClass, this.1, this.2.1, this.2.2.1, h, isUpper_false_of_isDigit c h,
    isLower_false_of_isDigit c h]

theorem runeClass_underscore (T : UnicodeTables) (hT : AsciiStandard T) :
    runeClass T '_' = 4 := by
  have := hT '_' (by decide)
  simp [runeClass, this.1, this.2.1, this.2.2.1]

/-! ## Converting twice -/

theorem joinWith_map {α β : Type} (f : α → β) (ls : List (List α)) (sep : List α) :
    joinWith (ls.map (List.map f)) (sep.map f) = (joinWith ls sep).map f := by
  induction ls with
  | nil => rfl
  | cons p rest ih =>
    cases rest with
    | nil => rfl
    | cons q rest =>
      simp only [List.map_cons, joinWith, List.map_append] at ih ⊢
      rw [ih]

theorem stringsJoin_ofRunes (ls : List (List Char)) (sep : List Char) :
    stringsJoin (ls.map ofRunes) (ofRunes sep) = ofRunes (joinWith ls sep) := by
  unfold stringsJoin
  exact joinWith_map Item.rune ls sep

theorem joinWith_head {α : Type} (l : List α) (rest : List (List α)) (sep : List α)
    (hl : l ≠ []) : (joinWith (l :: rest) sep).head? = l.head? := by
  obtain ⟨x, xs, rfl⟩ := List.exists_cons_of_ne_nil hl
  cases rest <;> simp [joinWith]

theorem joinWith_cons_of_ne_nil {α : Type} (p : List α) (l : List (List α)) (sep : List α)
    (hl : l ≠ []) : joinWith (p :: l) sep = p ++ sep ++ joinWith l sep := by
  obtain ⟨q, rest, rfl⟩ := List.exists_cons_of_ne_nil hl
  rfl

theorem joinWith_intersperse {α : Type} (ls : List (List α)) (sep : List α) :
    joinWith (ls.intersperse sep) sep = joinWith ls (sep ++ sep ++ sep) := by
  induction ls with
  | nil => rfl
  | cons p rest ih =>
    cases rest with
    | nil => rfl
    | cons q rest =>
      have h1 : (p :: q :: rest).intersperse sep = p :: sep :: (q :: rest).intersperse sep := by
        simp [List.intersperse]
      have h2 : (q :: rest).intersperse sep ≠ [] := by
        cases rest <;> simp [List.intersperse]
      rw [h1, joinWith_cons_of_ne_nil p _ sep (by simp),
        joinWith_cons_of_ne_nil sep _ sep h2, ih,
        joinWith_cons_of_ne_nil p _ _ (by simp)]
      simp [List.append_assoc]

theorem length_joinWith {α : Type} (ls : List (List α)) (sep : List α) :
    (joinWith ls sep).length = (ls.map List.length).sum + sep.length * (ls.length - 1) := by
  induction ls with
  | nil => simp [joinWith]
  | cons p rest ih =>
    cases rest with
    | nil => simp [joinWith]
    | cons q rest =>
      simp only [joinWith, List.length_append, List.map_cons, List.sum_cons, List.length_cons]
        at ih ⊢
      rw [ih]
      simp only [Nat.add_sub_cancel, Nat.mul_add, Nat.mul_one]
      omega

theorem grow_uniform_runs (T : UnicodeTables) (cs : List Char) :
    ∀ (cur : List Char) (cls : Nat), (∀ c ∈ cur, runeClass T c = cls) →
      ∀ e ∈ grow T cur cls cs,
        (∃ k, ∀ c ∈ e, runeClass T c = k) ∧ ∀ c ∈ e, c ∈ cur ++ cs := by
  induction cs with
  | nil =>
    intro cur cls h e he
    simp only [grow, List.mem_singleton] at he
    subst he
    exact ⟨⟨cls, h⟩, fun c hc => by simpa using hc⟩
  | cons r rest ih =>
    intro cur cls h e he
    unfold grow at he
    split_ifs at he with hc
    · have := ih (cur ++ [r]) cls (by
        intro c hcm
        rcases List.mem_append.1 hcm with h1 | h1
        · exact h c h1
        · simp only [List.mem_singleton] at h1; subst h1; exact hc) e he
      exact ⟨this.1, fun c hcm => by simpa using this.2 c hcm⟩
    · rcases List.mem_cons.1 he with rfl | he
      · exact ⟨⟨cls, h⟩, fun c hcm => List.mem_append_left _ hcm⟩
      · have := ih [r] (runeClass T r) (by simp) e he
        refine ⟨this.1, fun c hcm => ?_⟩
        have h2 := this.2 c hcm
        simp only [List.singleton_append] at h2
        exact List.mem_append_right _ h2

theorem runs_uniform (T : UnicodeTables) (cs : List Char) :
    ∀ e ∈ runs T cs, (∃ k, ∀ c ∈ e, runeClass T c = k) ∧ ∀ c ∈ e, c ∈ cs := by
  cases cs with
  | nil => intro e he; simp [runs] at he
  | cons r rest =>
    intro e he
    have := grow_uniform_runs T rest [r] (runeClass T r) (by simp) e he
    simpa using this

theorem runs_letDig (T : UnicodeTables) (hT : AsciiStandard T) (cs : List Char)
    (hx : ∀ c ∈ cs, c.isAlphanum = true) : ∀ e ∈ runs T cs, LetDig e := by
  intro e he
  obtain ⟨⟨k, hk⟩, hmem⟩ := runs_uniform T cs e he
  by_cases h3 : k = 3
  · right
    intro c hc
    have hcl := hk c hc
    have hal := hx c (hmem c hc)
    by_contra hd
    have hd2 : c.isDigit = false := by simpa using hd
    have ha : c.isAlpha = true := by simpa [Char.isAlphanum, hd2] using hal
    have hs := hT c (ascii_of_isAlpha c ha)
    rw [h3] at hcl
    simp only [runeClass, hs.1, hs.2.1, hs.2.2.1, hd2] at hcl
    split_ifs at hcl
    all_goals first | exact absurd hcl (by decide) | contradiction
  · left
    intro c hc
    have hcl := hk c hc
    have hal := hx c (hmem c hc)
    by_contra ha
    have ha2 : c.isAlpha = false := by simpa using ha
    have hd : c.isDigit = true := by simpa [Char.isAlphanum, ha2] using hal
    exact h3 (by rw [← hcl]; exact runeClass_of_isDigit T hT c hd)

theorem letDig_alpha_of_mem (e : List Char) (h : LetDig e) (c : Char) (hc : c ∈ e)
    (ha : c.isAlpha = true) : ∀ d ∈ e, d.isAlpha = true := by
  rcases h with h | h
  · exact h
  · have := h c hc
    rw [isDigit_false_of_isAlpha c ha] at this
    exact absurd this (by simp)

theorem letDig_ascii (e : List Char) (h : LetDig e) (c : Char) (hc : c ∈ e) :
    c.toNat < 128 := by
  rcases h with h | h
  · exact ascii_of_isAlpha c (h c hc)
  · exact ascii_of_isDigit c (h c hc)

theorem letDig_of_subset (e f : List Char) (h : LetDig e) (hs : ∀ c ∈ f, c ∈ e) : LetDig f := by
  rcases h with h | h
  · exact Or.inl fun c hc => h c (hs c hc)
  · exact Or.inr fun c hc => h c (hs c hc)

theorem fixFrom_letDig (T : UnicodeTables) (hT : AsciiStandard T) (rest : List (List Char)) :
    ∀ (a : List Char) (out : List (List Char)), LetDig a → (∀ b ∈ rest, LetDig b) →
      fixFrom T a rest = some out → ∀ e ∈ out, LetDig e := by
  induction rest with
  | nil =>
    intro a out ha _ h e he
    simp only [fixFrom, Option.some.injEq] at h
    subst h
    simp only [List.mem_singleton] at he
    subst he; exact ha
  | cons b rest ih =>
    intro a out ha hrest h e he
    have hb : LetDig b := hrest b (List.mem_cons_self _ _)
    have hr : ∀ x ∈ rest, LetDig x := fun x hx => hrest x (List.mem_cons_of_mem _ hx)
    unfold fixFrom at h
    cases ha0 : a.head? with
    | none => simp [ha0] at h
    | some a0 =>
      simp only [ha0] at h
      have step : ∀ o, fixFrom T b rest = some o → out = a :: o → LetDig e := by
        intro o ho hout
        subst hout
        rcases List.mem_cons.1 he with rfl | he
        · exact ha
        · exact ih b o hb hr ho e he
      by_cases hu : T.isUpper a0 = true
      · simp only [hu, if_true] at h
        cases hb0 : b.head? with
        | none => simp [hb0] at h
        | some b0 =>
          simp only [hb0] at h
          by_cases hl : T.isLower b0 = true
          · simp only [hl, if_true] at h
            cases hz : a.getLast? with
            | none => simp [hz] at h
            | some z =>
              simp only [hz] at h
              cases ho : fixFrom T (z :: b) rest with
              | none => simp [ho] at h
              | some o =>
                simp only [ho, Option.map_some', Option.some.injEq] at h
                subst h
                have ha0m : a0 ∈ a := List.mem_of_mem_head? ha0
                have hb0m : b0 ∈ b := List.mem_of_mem_head? hb0
                have hzm : z ∈ a := List.mem_of_mem_getLast? hz
                have ha0u : a0.isUpper = true := by
                  rw [← (hT a0 (letDig_ascii a ha a0 ha0m)).2.1]; exact hu
                have hb0l : b0.isLower = true := by
                  rw [← (hT b0 (letDig_ascii b hb b0 hb0m)).1]; exact hl
                have haA := letDig_alpha_of_mem a ha a0 ha0m (by simp [Char.isAlpha, ha0u])
                have hbA := letDig_alpha_of_mem b hb b0 hb0m (by simp [Char.isAlpha, hb0l])
                rcases List.mem_cons.1 he with rfl | he
                · exact letDig_of_subset a _ ha (fun c hc => List.mem_of_mem_dropLast hc)
                · refine ih (z :: b) o (Or.inl ?_) hr ho e he
                  intro c hc
                  rcases List.mem_cons.1 hc with rfl | hc
                  · exact haA _ hzm
                  · exact hbA c hc
          · have hl2 : T.isLower b0 = false := by simpa using hl
            simp only [hl2, Bool.false_eq_true, if_false] at h
            cases ho : fixFrom T b rest with
            | none => simp [ho] at h
            | some o =>
              simp only [ho, Option.map_some', Option.some.injEq] at h
              exact step o ho h.symm
      · have hu2 : T.isUpper a0 = false := by simpa using hu
        simp only [hu2, Bool.false_eq_true, if_false] at h
        cases ho : fixFrom T b rest with
        | none => simp [ho] at h
        | some o =>
          simp only [ho, Option.map_some', Option.some.injEq] at h
          exact step o ho h.symm

theorem fixLoop_letDig (T : UnicodeTables) (hT : AsciiStandard T) (rs out : List (List Char))
    (h : ∀ b ∈ rs, LetDig b) (ho : fixLoop T rs = some out) : ∀ e ∈ out, LetDig e := by
  cases rs with
  | nil =>
    simp only [fixLoop, Option.some.injEq] at ho
    subst ho; intro e he; simp at he
  | cons a rest =>
    exact fixFrom_letDig T hT rest a out (h a (List.mem_cons_self _ _))
      (fun b hb => h b (List.mem_cons_of_mem _ hb)) ho

theorem lowDig_class (T : UnicodeTables) (hT : AsciiStandard T) (l : List Char) (h : LowDig l) :
    ∃ k, k ≠ 4 ∧ ∀ c ∈ l, runeClass T c = k := by
  rcases h.2 with h | h
  · exact ⟨1, by decide, fun c hc => runeClass_of_isLower T hT c (h c hc)⟩
  · exact ⟨3, by decide, fun c hc => runeClass_of_isDigit T hT c (h c hc)⟩

theorem lowDig_not_upper (T : UnicodeTables) (hT : AsciiStandard T) (l : List Char)
    (h : LowDig l) : ∀ c ∈ l, T.isUpper c = false ∧ T.toLower c = c := by
  intro c hc
  rcases h.2 with h | h
  · have hs := hT c (ascii_of_isLower c (h c hc))
    have hu := isUpper_false_of_isLower c (h c hc)
    exact ⟨by rw [hs.2.1, hu], by rw [hs.2.2.2, toLower_of_not_isUpper c hu]⟩
  · have hs := hT c (ascii_of_isDigit c (h c hc))
    have hu := isUpper_false_of_isDigit c (h c hc)
    exact ⟨by rw [hs.2.1, hu], by rw [hs.2.2.2, toLower_of_not_isUpper c hu]⟩

theorem underscore_not_upper (T : UnicodeTables) (hT : AsciiStandard T) :
    T.isUpper '_' = false ∧ T.toLower '_' = '_' := by
  have hs := hT '_' (by decide)
  exact ⟨by rw [hs.2.1]; decide, by rw [hs.2.2.2]; decide⟩

theorem lowDig_map_toLower (T : UnicodeTables) (hT : AsciiStandard T) (e : List Char)
    (hne : e ≠ []) (h : LetDig e) : LowDig (e.map T.toLower) := by
  refine ⟨by simpa using hne, ?_⟩
  rcases h with h | h
  · left
    intro c hc
    obtain ⟨d, hd, rfl⟩ := List.mem_map.1 hc
    rw [(hT d (ascii_of_isAlpha d (h d hd))).2.2.2]
    exact toLower_isLower_of_isAlpha d (h d hd)
  · right
    intro c hc
    obtain ⟨d, hd, rfl⟩ := List.mem_map.1 hc
    rw [(hT d (ascii_of_isDigit d (h d hd))).2.2.2,
      toLower_of_not_isUpper d (isUpper_false_of_isDigit d (h d hd))]
    exact h d hd

theorem mem_intersperse_cases {α : Type} (s : α) (l : List α) :
    ∀ e ∈ l.intersperse s, e = s ∨ e ∈ l := by
  induction l with
  | nil => intro e he; simp at he
  | cons p rest ih =>
    cases rest with
    | nil => intro e he; simp at he; exact Or.inr (by simp [he])
    | cons q rest =>
      intro e he
      have h1 : (p :: q :: rest).intersperse s = p :: s :: (q :: rest).intersperse s := by
        simp [List.intersperse]
      rw [h1] at he
      rcases List.mem_cons.1 he with rfl | he
      · exact Or.inr (List.mem_cons_self _ _)
      · rcases List.mem_cons.1 he with rfl | he
        · exact Or.inl rfl
        · rcases ih e he with h | h
          · exact Or.inl h
          · exact Or.inr (List.mem_cons_of_mem _ h)

/-- The runs of lowered entries joined by an underscore are the entries and the
underscores between them. -/
theorem runs_joinWith (T : UnicodeTables) (hT : AsciiStandard T) (ls : List (List Char))
    (h : ∀ l ∈ ls, LowDig l) : runs T (joinWith ls ['_']) = ls.intersperse ['_'] := by
  induction ls with
  | nil => rfl
  | cons p rest ih =>
    have hp : LowDig p := h p (List.mem_cons_self _ _)
    obtain ⟨k, hk4, hk⟩ := lowDig_class T hT p hp
    cases rest with
    | nil =>
      have := runs_append T k p [] hp.1 hk (by simp)
      simpa [joinWith, runs] using this
    | cons q rest =>
      have hq : LowDig q := h q (by simp)
      obtain ⟨kq, hkq4, hkq⟩ := lowDig_class T hT q hq
      have ih2 := ih (fun l hl => h l (List.mem_cons_of_mem _ hl))
      have h1 : (p :: q :: rest).intersperse ['_'] =
          p :: ['_'] :: (q :: rest).intersperse ['_'] := by
        simp [List.intersperse]
      have hj : joinWith (p :: q :: rest) ['_'] = p ++ (['_'] ++ joinWith (q :: rest) ['_']) := by
        simp [joinWith]
      rw [h1, hj, runs_append T k p _ hp.1 hk, runs_append T 4 ['_'] _ (by simp), ih2]
      · intro c hc
        simp only [List.mem_singleton] at hc
        subst hc; exact runeClass_underscore T hT
      · intro y hy
        rw [joinWith_head q rest ['_'] hq.1] at hy
        rw [hkq y (List.mem_of_mem_head? hy)]
        exact hkq4
      · intro y hy
        simp only [List.singleton_append, List.head?_cons, Option.some.injEq] at hy
        subst hy
        rw [runeClass_underscore T hT]
        exact fun h4 => hk4 h4.symm

theorem fixFrom_noop (T : UnicodeTables) (rest : List (List Char)) :
    ∀ a : List Char, (∀ b ∈ a :: rest, ∃ b0, b.head? = some b0 ∧ T.isUpper b0 = false) →
      fixFrom T a rest = some (a :: rest) := by
  induction rest with
  | nil => intro a _; rfl
  | cons b rest ih =>
    intro a h
    obtain ⟨a0, ha0, hu⟩ := h a (List.mem_cons_self _ _)
    have := ih b (fun x hx => h x (List.mem_cons_of_mem _ hx))
    unfold fixFrom
    simp [ha0, hu, this]

theorem fixLoop_noop (T : UnicodeTables) (rs : List (List Char))
    (h : ∀ b ∈ rs, ∃ b0, b.head? = some b0 ∧ T.isUpper b0 = false) :
    fixLoop T rs = some rs := by
  cases rs with
  | nil => rfl
  | cons a rest => exact fixFrom_noop T rest a h

theorem collectEntries_of_nonempty (rs : List (List Char)) (h : ∀ b ∈ rs, b ≠ []) :
    collectEntries rs = rs.map ofRunes := by
  unfold collectEntries
  congr 1
  apply List.filter_eq_self.2
  intro b hb
  have := h b hb
  simpa [List.length_pos] using this

theorem map_eq_self_of_fixed {α : Type} (f : α → α) (l : List α) (h : ∀ a ∈ l, f a = a) :
    l.map f = l := by
  induction l with
  | nil => rfl
  | cons a l ih =>
    simp only [List.map_cons]
    rw [h a (List.mem_cons_self _ _), ih (fun b hb => h b (List.mem_cons_of_mem _ hb))]

theorem map_map_eq_self_of_fixed {α : Type} (f : List α → List α) (l : List (List α))
    (h : ∀ a ∈ l, f a = a) : l.map f = l :=
  map_eq_self_of_fixed f l h

/-- The converter on a string that is already converted: every separator becomes three. -/
theorem camelToLowerStyle_joined (T : UnicodeTables) (hT : AsciiStandard T)
    (ls : List (List Char)) (h : ∀ l ∈ ls, LowDig l) :
    camelToLowerStyle T (ofRunes (joinWith ls ['_'])) =
      some (ofRunes (joinWith ls ['_', '_', '_'])) := by
  have hI : ∀ e ∈ ls.intersperse ['_'],
      e ≠ [] ∧ (∃ b0, e.head? = some b0 ∧ T.isUpper b0 = false) ∧ e.map T.toLower = e := by
    intro e he
    rcases mem_intersperse_cases ['_'] ls e he with rfl | hm
    · exact ⟨by simp, ⟨'_', rfl, (underscore_not_upper T hT).1⟩,
        by simp [(underscore_not_upper T hT).2]⟩
    · have hl := h e hm
      obtain ⟨c, cs, rfl⟩ := List.exists_cons_of_ne_nil hl.1
      exact ⟨hl.1, ⟨c, rfl, (lowDig_not_upper T hT _ hl c (by simp)).1⟩,
        map_eq_self_of_fixed _ _ (fun d hd => (lowDig_not_upper T hT _ hl d hd).2)⟩
  have hsplit : camelSplit T (ofRunes (joinWith ls ['_'])) =
      some ((ls.intersperse ['_']).map ofRunes) := by
    rw [camelSplit_ofRunes, runs_joinWith T hT ls h,
      fixLoop_noop T _ (fun b hb => (hI b hb).2.1), Option.map_some',
      collectEntries_of_nonempty _ (fun b hb => (hI b hb).1)]
  unfold camelToLowerStyle
  rw [hsplit]
  simp only [List.map_map]
  have hmap : (ls.intersperse ['_']).map (stringsToLower T ∘ ofRunes) =
      ((ls.intersperse ['_']).map (List.map T.toLower)).map ofRunes := by
    simp only [List.map_map]
    apply List.map_congr_left
    intro e _
    simp [stringsToLower_ofRunes]
  rw [hmap, map_map_eq_self_of_fixed _ _ (fun e he => (hI e he).2.2)]
  have hgo : go "_" = ofRunes ['_'] := rfl
  rw [hgo, stringsJoin_ofRunes, joinWith_intersperse]
  rfl

/-- The entries of `camelSplit` on an ASCII identifier of letters and digits. -/
theorem camelSplit_alnum (T : UnicodeTables) (hT : AsciiStandard T) (x : List Char)
    (hx : ∀ c ∈ x, c.isAlphanum = true) :
    ∃ es : List (List Char), camelSplit T (ofRunes x) = some (es.map ofRunes) ∧
      ∀ e ∈ es, e ≠ [] ∧ LetDig e := by
  obtain ⟨out, ho⟩ := fixLoop_total T (runs T x) (runs_nonempty T x)
  refine ⟨out.filter fun s => 0 < s.length, ?_, ?_⟩
  · rw [camelSplit_ofRunes, ho]; rfl
  · intro e he
    obtain ⟨hm, hlen⟩ := List.mem_filter.1 he
    refine ⟨?_, fixLoop_letDig T hT _ out (runs_letDig T hT x hx) ho e hm⟩
    intro hnil
    subst hnil
    simp at hlen

theorem asciiStandard_asciiTables : AsciiStandard asciiTables :=
  fun _ _ => ⟨rfl, rfl, rfl, rfl⟩

/-! ## C1 -/

/-- C1 (counterexample): the converter is not idempotent on its own output.  The
identifier "PDFLoader" converts to "pdf_loader", and "pdf_loader" converts to
"pdf___loader": the underscore that the first conversion inserted is a run of its own
for the second. -/
theorem camelToLowerStyle_not_idempotent :
    camelToLowerStyle asciiTables (go "PDFLoader") = some (go "pdf_loader") ∧
    camelToLowerStyle asciiTables (go "pdf_loader") = some (go "pdf___loader") ∧
    ¬ ((camelToLowerStyle asciiTables (go "PDFLoader")).bind (camelToLowerStyle asciiTables) =
        camelToLowerStyle asciiTables (go "PDFLoader")) := by
  decide

/-- C1 (amended): for an identifier of ASCII letters and digits, converting a second
time gives the lowered entries of `camelSplit` joined by three underscores where the
first conversion joined them by one; the two conversions agree exactly when
`camelSplit` yields at most one entry. -/
theorem camelToLowerStyle_twice (T : UnicodeTables) (hT : AsciiStandard T) (x : List Char)
    (hx : ∀ c ∈ x, c.isAlphanum = true) :
    ∃ names, camelSplit T (ofRunes x) = some names ∧
      camelToLowerStyle T (ofRunes x) =
        some (stringsJoin (names.map (stringsToLower T)) (go "_")) ∧
      (camelToLowerStyle T (ofRunes x)).bind (camelToLowerStyle T) =
        some (stringsJoin (names.map (stringsToLower T)) (go "___")) ∧
      ((camelToLowerStyle T (ofRunes x)).bind (camelToLowerStyle T) =
        camelToLowerStyle T (ofRunes x) ↔ names.length ≤ 1) := by
  obtain ⟨es, hsplit, hes⟩ := camelSplit_alnum T hT x hx
  have hconv : camelToLowerStyle T (ofRunes x) =
      some (stringsJoin ((es.map ofRunes).map (stringsToLower T)) (go "_")) := by
    unfold camelToLowerStyle; rw [hsplit]
  have hlow : (es.map ofRunes).map (stringsToLower T) =
      (es.map (List.map T.toLower)).map ofRunes := by
    simp only [List.map_map]
    apply List.map_congr_left
    intro e _
    simp [stringsToLower_ofRunes]
  have hld : ∀ l ∈ es.map (List.map T.toLower), LowDig l := by
    intro l hl
    obtain ⟨e, he, rfl⟩ := List.mem_map.1 hl
    exact lowDig_map_toLower T hT e (hes e he).1 (hes e he).2
  have h1 : go "_" = ofRunes ['_'] := rfl
  have h3 : go "___" = ofRunes ['_', '_', '_'] := rfl
  have htwice : (camelToLowerStyle T (ofRunes x)).bind (camelToLowerStyle T) =
      some (stringsJoin ((es.map ofRunes).map (stringsToLower T)) (go "___")) := by
    rw [hconv, Option.some_bind, hlow, h1, h3, stringsJoin_ofRunes, stringsJoin_ofRunes]
    exact camelToLowerStyle_joined T hT _ hld
  refine ⟨es.map ofRunes, hsplit, hconv, htwice, ?_⟩
  rw [htwice, hconv, hlow, h1, h3, stringsJoin_ofRunes, stringsJoin_ofRunes]
  simp only [Option.some.injEq, List.length_map]
  constructor
  · intro heq
    have hlen := congrArg List.length heq
    simp only [ofRunes, List.length_map, length_joinWith, List.length_cons,
      List.length_nil] at hlen
    omega
  · intro hle
    match es, hle with
    | [], _ => rfl
    | [e], _ => rfl

/-- C1 (witness): the amended statement at "PDFLoader". -/
theorem camelToLowerStyle_twice_witness :
    ∃ names, camelSplit asciiTables (ofRunes "PDFLoader".data) = some names ∧
      camelToLowerStyle asciiTables (ofRunes "PDFLoader".data) =
        some (stringsJoin (names.map (stringsToLower asciiTables)) (go "_")) ∧
      (camelToLowerStyle asciiTables (ofRunes "PDFLoader".data)).bind
          (camelToLowerStyle asciiTables) =
        some (stringsJoin (names.map (stringsToLower asciiTables)) (go "___")) ∧
      ((camelToLowerStyle asciiTables (ofRunes "PDFLoader".data)).bind
          (camelToLowerStyle asciiTables) =
        camelToLowerStyle asciiTables (ofRunes "PDFLoader".data) ↔ names.length ≤ 1) :=
  camelToLowerStyle_twice asciiTables asciiStandard_asciiTables "PDFLoader".data (by decide)

/-! ## C2 -/

/-- C2: an identifier made of a run of two or more upper-case letters (`U0` followed by
its last letter `z`) and then a run `L` of lower-case letters splits into exactly the
two entries `U0` and `z` followed by `L`, and converts to the lowered `U0`, an
underscore, and the lowered `z` followed by `L`; with the ASCII classification
"PDFLoader" converts to "pdf_loader". -/
theorem camelSplit_acronym_boundary (T : UnicodeTables) (U0 : List Char) (z : Char)
    (L : List Char) (hU0 : U0 ≠ []) (hL : L ≠ [])
    (hU : ∀ c ∈ U0 ++ [z], T.isUpper c = true ∧ T.isLower c = false)
    (hLc : ∀ c ∈ L, T.isLower c = true) :
    camelSplit T (ofRunes (U0 ++ [z] ++ L)) = some [ofRunes U0, ofRunes (z :: L)] ∧
    camelToLowerStyle T (ofRunes (U0 ++ [z] ++ L)) =
      some (stringsToLower T (ofRunes U0) ++ go "_" ++ stringsToLower T (ofRunes (z :: L))) ∧
    (AsciiStandard T → camelToLowerStyle T (go "PDFLoader") = some (go "pdf_loader")) := by
  have hs := camelSplit_upper_lower T U0 z L hU0 hL hU hLc
  refine ⟨hs, ?_, ?_⟩
  · unfold camelToLowerStyle
    rw [hs]
    rfl
  · intro hT
    have hu : ∀ c ∈ ['P', 'D', 'F'] ++ ['L'], T.isUpper c = true ∧ T.isLower c = false := by
      intro c hc
      have hc2 : c = 'P' ∨ c = 'D' ∨ c = 'F' ∨ c = 'L' := by simpa using hc
      rcases hc2 with rfl | rfl | rfl | rfl
      · have := hT 'P' (by decide); exact ⟨by rw [this.2.1]; decide, by rw [this.1]; decide⟩
      · have := hT 'D' (by decide); exact ⟨by rw [this.2.1]; decide, by rw [this.1]; decide⟩
      · have := hT 'F' (by decide); exact ⟨by rw [this.2.1]; decide, by rw [this.1]; decide⟩
      · have := hT 'L' (by decide); exact ⟨by rw [this.2.1]; decide, by rw [this.1]; decide⟩
    have hl : ∀ c ∈ ['o', 'a', 'd', 'e', 'r'], T.isLower c = true := by
      intro c hc
      have hc2 : c = 'o' ∨ c = 'a' ∨ c = 'd' ∨ c = 'e' ∨ c = 'r' := by simpa using hc
      rcases hc2 with rfl | rfl | rfl | rfl | rfl
      · rw [(hT 'o' (by decide)).1]; decide
      · rw [(hT 'a' (by decide)).1]; decide
      · rw [(hT 'd' (by decide)).1]; decide
      · rw [(hT 'e' (by decide)).1]; decide
      · rw [(hT 'r' (by decide)).1]; decide
    have hs2 := camelSplit_upper_lower T ['P', 'D', 'F'] 'L' ['o', 'a', 'd', 'e', 'r']
      (by simp) (by simp) hu hl
    have hgo : go "PDFLoader" = ofRunes (['P', 'D', 'F'] ++ ['L'] ++ ['o', 'a', 'd', 'e', 'r']) := rfl
    unfold camelToLowerStyle
    rw [hgo, hs2]
    simp only [List.map_cons, List.map_nil, stringsToLower_ofRunes,
      (hT 'P' (by decide)).2.2.2, (hT 'D' (by decide)).2.2.2, (hT 'F' (by decide)).2.2.2, (hT 'L' (by decide)).2.2.2,
      (hT 'o' (by decide)).2.2.2, (hT 'a' (by decide)).2.2.2, (hT 'd' (by decide)).2.2.2,
      (hT 'e' (by decide)).2.2.2, (hT 'r' (by decide)).2.2.2]
    decide

/-- C2 (witness): "PDFLoader" with the ASCII classification. -/
theorem camelSplit_acronym_boundary_witness :
    camelSplit asciiTables (ofRunes (['P', 'D', 'F'] ++ ['L'] ++ ['o', 'a', 'd', 'e', 'r'])) =
      some [ofRunes ['P', 'D', 'F'], ofRunes ('L' :: ['o', 'a', 'd', 'e', 'r'])] ∧
    camelToLowerStyle asciiTables (ofRunes (['P', 'D', 'F'] ++ ['L'] ++ ['o', 'a', 'd', 'e', 'r'])) =
      some (stringsToLower asciiTables (ofRunes ['P', 'D', 'F']) ++ go "_" ++
        stringsToLower asciiTables (ofRunes ('L' :: ['o', 'a', 'd', 'e', 'r']))) ∧
    (AsciiStandard asciiTables →
      camelToLowerStyle asciiTables (go "PDFLoader") = some (go "pdf_loader")) :=
  camelSplit_acronym_boundary asciiTables ['P', 'D', 'F'] 'L' ['o', 'a', 'd', 'e', 'r']
    (by decide) (by decide) (by decide) (by decide)

/-! ## Lemmas on `structToYaml` -/

theorem indirectType_of_base (P : Program) (n : Nat) (t : GoType)
    (h1 : P.kind t ≠ Kind.Ptr) (h2 : P.kind t ≠ Kind.Slice) : indirectType P n t = some t := by
  cases n <;> simp [indirectType, h1, h2]

theorem indirectType_ptr (P : Program) (n : Nat) (t : GoType) :
    indirectType P (n + 1) (GoType.ptr t) = indirectType P n t := by
  simp [indirectType, Program.kind, Program.elem]

theorem indirectType_ptr_struct (P : Program) (n : Nat) (X : GoType)
    (hX : P.kind X = Kind.Struct) : indirectType P (n + 1) (GoType.ptr X) = some X := by
  rw [indirectType_ptr]
  exact indirectType_of_base P n X (by rw [hX]; decide) (by rw [hX]; decide)

/-- The loop started with entries already collected prepends them to its result. -/
theorem fieldLoop_acc (step : StructField → Option (Exec (List RefFieldInfo)))
    (l : List StructField) :
    ∀ acc : List RefFieldInfo,
      fieldLoop step l acc = (fieldLoop step l []).map (Exec.map fun es => acc ++ es) := by
  induction l with
  | nil => intro acc; simp [fieldLoop, Exec.map]
  | cons f rest ih =>
    intro acc
    unfold fieldLoop
    cases hs : step f with
    | none => rfl
    | some r =>
      cases r with
      | panicked => rfl
      | exited => rfl
      | returned e1 =>
        simp only [List.nil_append]
        rw [ih (acc ++ e1), ih e1]
        cases fieldLoop step rest [] with
        | none => rfl
        | some r2 => cases r2 <;> simp [Exec.map, List.append_assoc]

theorem fieldLoop_append (step : StructField → Option (Exec (List RefFieldInfo)))
    (pre rest : List StructField) :
    ∀ (acc es : List RefFieldInfo), fieldLoop step pre acc = some (Exec.returned es) →
      fieldLoop step (pre ++ rest) acc = fieldLoop step rest es := by
  induction pre with
  | nil =>
    intro acc es h
    simp only [fieldLoop, Option.some.injEq, Exec.returned.injEq] at h
    subst h; rfl
  | cons f pre ih =>
    intro acc es h
    simp only [List.cons_append]
    cases hs : step f with
    | none => simp [fieldLoop, hs] at h
    | some r =>
      cases r with
      | panicked => simp [fieldLoop, hs] at h
      | exited => simp [fieldLoop, hs] at h
      | returned e1 =>
        simp only [fieldLoop, hs] at h
        have := ih _ es h
        simpa only [fieldLoop, hs] using this

/-- The loop over the fields before a field, the field, and the fields after it. -/
theorem fieldLoop_split (step : StructField → Option (Exec (List RefFieldInfo)))
    (pre post : List StructField) (f : StructField) (epre ef epost : List RefFieldInfo)
    (hpre : fieldLoop step pre [] = some (Exec.returned epre))
    (hf : step f = some (Exec.returned ef))
    (hpost : fieldLoop step post [] = some (Exec.returned epost)) :
    fieldLoop step (pre ++ f :: post) [] = some (Exec.returned (epre ++ ef ++ epost)) := by
  rw [fieldLoop_append step pre (f :: post) [] epre hpre]
  unfold fieldLoop
  simp only [hf]
  rw [fieldLoop_acc step post (epre ++ ef), hpost]
  rfl

theorem fieldLoop_split_exited (step : StructField → Option (Exec (List RefFieldInfo)))
    (pre post : List StructField) (f : StructField) (epre : List RefFieldInfo)
    (hpre : fieldLoop step pre [] = some (Exec.returned epre))
    (hf : step f = some Exec.exited) :
    fieldLoop step (pre ++ f :: post) [] = some Exec.exited := by
  rw [fieldLoop_append step pre (f :: post) [] epre hpre]
  unfold fieldLoop
  simp only [hf]

theorem fieldLoop_split_panicked (step : StructField → Option (Exec (List RefFieldInfo)))
    (pre post : List StructField) (f : StructField) (epre : List RefFieldInfo)
    (hpre : fieldLoop step pre [] = some (Exec.returned epre))
    (hf : step f = some Exec.panicked) :
    fieldLoop step (pre ++ f :: post) [] = some Exec.panicked := by
  rw [fieldLoop_append step pre (f :: post) [] epre hpre]
  unfold fieldLoop
  simp only [hf]

/-- On a struct type `structToYaml` is the loop over its fields. -/
theorem structToYaml_struct (P : Program) (n : Nat) (X : GoType)
    (hX : P.kind X = Kind.Struct) :
    structToYaml P (n + 2) X =
      (fieldLoop (fieldStep P (n + 1) (structToYaml P (n + 1)) (some X) X)
        (P.fields X) []).map (Exec.map Except.ok) := by
  have hz : indirectZero P X = some X := by simp [indirectZero, hX]
  rw [structToYaml, indirectType_ptr_struct P n X hX]
  simp only [hz, hX, ne_eq, not_true_eq_false, if_false]
  cases fieldLoop (fieldStep P (n + 1) (structToYaml P (n + 1)) (some X) X) (P.fields X) [] with
  | none => rfl
  | some r => cases r <;> rfl


theorem getJsonDataType_of_map (P : Program) (t : GoType) (h : P.kind t = Kind.Map) :
    getJsonDataType P t = go "" := by
  simp [getJsonDataType, h]

theorem getJsonDataType_of_slice (P : Program) (t : GoType) (h : P.kind t = Kind.Slice) :
    getJsonDataType P t = go "" := by
  simp [getJsonDataType, h]

/-- The step of a map field that is not embedded and whose type is not named "Time" or
"JSONTime": the placeholder when the element type is of string kind, the end of the
process otherwise. -/
theorem fieldStep_map (P : Program) (fuel : Nat) (recur : GoType → Option (Exec YamlResult))
    (srcValue : Option GoType) (srcType : GoType) (f : StructField)
    (hanon : f.anonymous = false) (hmap : P.kind f.typ = Kind.Map)
    (hname1 : P.name f.typ ≠ go "Time") (hname2 : P.name f.typ ≠ go "JSONTime") :
    fieldStep P fuel recur srcValue srcType f =
      if P.kind (P.elem f.typ) = Kind.String then
        some (Exec.returned
          [((getStructFieldName f).1, FieldValue.tagMap [(go "string", go "string")])])
      else some Exec.exited := by
  unfold fieldStep
  simp only [hanon, Bool.false_eq_true, if_false, getJsonDataType_of_map P f.typ hmap,
    ne_eq, not_true_eq_false, hname1, hname2, hmap]
  simp only [show ¬ (Kind.Map = Kind.Ptr) from by decide,
    show ¬ (Kind.Map = Kind.Struct) from by decide,
    show ¬ (Kind.Map = Kind.Array ∨ Kind.Map = Kind.Slice) from by decide, if_false, if_true]
  split_ifs <;> simp_all

/-! ## C3 -/

/-- C3 (counterexample): the struct `Counters` has the single field `Count
map[string]int`, a map with string keys; `structToYaml` ends the process
(`log.Fatalf`) instead of emitting an entry for it. -/
theorem structToYaml_string_keyed_map_exits :
    Sample.program.fields Sample.tCounters =
        [Sample.fld "Count" (GoType.map Sample.tString Sample.tInt) "count"] ∧
    Sample.program.kind (Sample.program.key (GoType.map Sample.tString Sample.tInt)) =
        Kind.String ∧
    structToYaml Sample.program 3 Sample.tCounters = some Exec.exited := by
  refine ⟨rfl, rfl, rfl⟩

/-- C3 (amended): in a struct `X`, a field `f` that is not embedded, whose type is a map
(not named "Time" or "JSONTime") with string keys: when the value type of the map is of
string kind, the field contributes the single entry `wireName: ("string": "string")`
between the entries `epre` of the fields before it and the entries of the fields after it;
when the value type is not of string kind, `structToYaml` ends the process. -/
theorem structToYaml_string_map_field (P : Program) (n : Nat) (X : GoType)
    (pre post : List StructField) (f : StructField) (epre : List RefFieldInfo)
    (hX : P.kind X = Kind.Struct) (hfields : P.fields X = pre ++ f :: post)
    (hanon : f.anonymous = false) (hmap : P.kind f.typ = Kind.Map)
    (hname1 : P.name f.typ ≠ go "Time") (hname2 : P.name f.typ ≠ go "JSONTime")
    (_hkey : P.kind (P.key f.typ) = Kind.String)
    (hpre : fieldLoop (fieldStep P (n + 1) (structToYaml P (n + 1)) (some X) X) pre [] =
      some (Exec.returned epre)) :
    (P.kind (P.elem f.typ) = Kind.String →
      ∀ epost, fieldLoop (fieldStep P (n + 1) (structToYaml P (n + 1)) (some X) X) post [] =
          some (Exec.returned epost) →
        structToYaml P (n + 2) X = some (Exec.returned (Except.ok
          (epre ++ [((getStructFieldName f).1,
            FieldValue.tagMap [(go "string", go "string")])] ++ epost)))) ∧
    (P.kind (P.elem f.typ) ≠ Kind.String → structToYaml P (n + 2) X = some Exec.exited) := by
  have hstep := fieldStep_map P (n + 1) (structToYaml P (n + 1)) (some X) X f hanon hmap
    hname1 hname2
  constructor
  · intro hval epost hpost
    rw [if_pos hval] at hstep
    rw [structToYaml_struct P n X hX, hfields,
      fieldLoop_split _ pre post f epre _ epost hpre hstep hpost]
    rfl
  · intro hval
    rw [if_neg hval] at hstep
    rw [structToYaml_struct P n X hX, hfields, fieldLoop_split_exited _ pre post f epre hpre hstep]
    rfl

/-- C3 (witness): the field `Meta map[string]string` of `YamlDemo` (dapr_test.go). -/
theorem structToYaml_string_map_field_witness :
    structToYaml Sample.program 3 Sample.tYamlDemo = some (Exec.returned (Except.ok
      ([(go "id", FieldValue.tag (go "number")), (go "float", FieldValue.tag (go "number")),
        (go "boolean", FieldValue.tag (go "bool")), (go "name", FieldValue.tag (go "string"))] ++
       [((getStructFieldName (Sample.fld "Meta" (GoType.map Sample.tString Sample.tString)
          "meta")).1, FieldValue.tagMap [(go "string", go "string")])] ++
       [(go "permission", FieldValue.nestedArr
          [[(go "service_id", FieldValue.tag (go "string")),
            (go "method", FieldValue.tagArr [go "string"])]])]))) :=
  (structToYaml_string_map_field Sample.program 1 Sample.tYamlDemo
    [Sample.embedded "SubDemo" Sample.tSubDemo true, Sample.fld "Name" Sample.tString "name"]
    [Sample.fld "Permission" (GoType.slice (GoType.ptr Sample.tPermission)) "permission"]
    (Sample.fld "Meta" (GoType.map Sample.tString Sample.tString) "meta") _
    rfl rfl rfl rfl (by decide) (by decide) rfl rfl).1 rfl _ rfl

/-! ## C4 -/

/-- C4 (the code at the failing input): the struct `Index` has the single field `Names
map[int]string`, a map whose key type is not string; `structToYaml` returns normally
with the placeholder entry for it. -/
theorem structToYaml_int_keyed_map_accepted :
    Sample.program.fields Sample.tIndex =
        [Sample.fld "Names" (GoType.map Sample.tInt Sample.tString) "names"] ∧
    Sample.program.kind (Sample.program.key (GoType.map Sample.tInt Sample.tString)) =
        Kind.Int ∧
    structToYaml Sample.program 3 Sample.tIndex = some (Exec.returned (Except.ok
      [(go "names", FieldValue.tagMap [(go "string", go "string")])])) := by
  refine ⟨rfl, rfl, rfl⟩


/-! ## C5 -/

/-- The step of a field of primitive kind that is not embedded. -/
theorem fieldStep_primitive (P : Program) (fuel : Nat)
    (recur : GoType → Option (Exec YamlResult)) (srcValue : Option GoType) (srcType : GoType)
    (g : StructField) (hanon : g.anonymous = false) (hprim : getJsonDataType P g.typ ≠ go "") :
    fieldStep P fuel recur srcValue srcType g =
      some (Exec.returned [((getStructFieldName g).1, FieldValue.tag (getJsonDataType P g.typ))]) := by
  unfold fieldStep
  simp only [hanon, Bool.false_eq_true, if_false, ne_eq, hprim, not_false_eq_true, if_true]

theorem fieldLoop_primitive (P : Program) (fuel : Nat)
    (recur : GoType → Option (Exec YamlResult)) (srcValue : Option GoType) (srcType : GoType)
    (l : List StructField)
    (h : ∀ g ∈ l, g.anonymous = false ∧ getJsonDataType P g.typ ≠ go "") :
    fieldLoop (fieldStep P fuel recur srcValue srcType) l [] =
      some (Exec.returned (l.map fun g =>
        ((getStructFieldName g).1, FieldValue.tag (getJsonDataType P g.typ)))) := by
  induction l with
  | nil => rfl
  | cons g rest ih =>
    have hg := h g (List.mem_cons_self _ _)
    have hrest := ih (fun x hx => h x (List.mem_cons_of_mem _ hx))
    rw [fieldLoop, fieldStep_primitive P fuel recur srcValue srcType g hg.1 hg.2]
    simp only [List.nil_append]
    rw [fieldLoop_acc, hrest]
    rfl

/-- The step of a slice field whose element type is the enclosing struct type, directly
or through a pointer. -/
theorem fieldStep_self_slice (P : Program) (fuel : Nat)
    (recur : GoType → Option (Exec YamlResult)) (srcValue : Option GoType) (X : GoType)
    (f : StructField) (hX : P.kind X = Kind.Struct) (hanon : f.anonymous = false)
    (hf : f.typ = GoType.slice X ∨ f.typ = GoType.slice (GoType.ptr X)) :
    fieldStep P (fuel + 1) recur srcValue X f =
      some (Exec.returned [((getStructFieldName f).1, FieldValue.nested [])]) := by
  have hk : P.kind f.typ = Kind.Slice := by rcases hf with h | h <;> rw [h] <;> rfl
  have hn : P.name f.typ = [] := by rcases hf with h | h <;> rw [h] <;> rfl
  have hbase : indirectType P (fuel + 1) (P.elem f.typ) = some X := by
    rcases hf with h | h
    · rw [h]
      exact indirectType_of_base P _ X (by rw [hX]; decide) (by rw [hX]; decide)
    · rw [h]
      exact indirectType_ptr_struct P fuel X hX
  have hek : P.kind (P.elem f.typ) = Kind.Ptr ∨ P.kind (P.elem f.typ) = Kind.Struct := by
    rcases hf with h | h
    · right; rw [h]; exact hX
    · left; rw [h]; rfl
  unfold fieldStep
  simp only [hanon, Bool.false_eq_true, if_false, getJsonDataType_of_slice P f.typ hk, ne_eq,
    not_true_eq_false, hn, hk, hek, hbase, if_true,
    show ¬ (([] : GoString) = go "Time") from by decide,
    show ¬ (([] : GoString) = go "JSONTime") from by decide,
    show ¬ (Kind.Slice = Kind.Ptr) from by decide,
    show ¬ (Kind.Slice = Kind.Struct) from by decide, or_true]

/-- The extraction of a directly self-referential struct type. -/
theorem structToYaml_self_slice (P : Program) (n : Nat) (X : GoType)
    (pre post : List StructField) (f : StructField)
    (hX : P.kind X = Kind.Struct) (hfields : P.fields X = pre ++ f :: post)
    (hanon : f.anonymous = false)
    (hf : f.typ = GoType.slice X ∨ f.typ = GoType.slice (GoType.ptr X))
    (hprim : ∀ g ∈ pre ++ post, g.anonymous = false ∧ getJsonDataType P g.typ ≠ go "") :
    structToYaml P (n + 2) X = some (Exec.returned (Except.ok
      ((pre.map fun g => ((getStructFieldName g).1, FieldValue.tag (getJsonDataType P g.typ))) ++
        [((getStructFieldName f).1, FieldValue.nested [])] ++
        (post.map fun g =>
          ((getStructFieldName g).1, FieldValue.tag (getJsonDataType P g.typ)))))) := by
  rw [structToYaml_struct P n X hX, hfields,
    fieldLoop_split _ pre post f _ _ _
      (fieldLoop_primitive P _ _ _ _ pre (fun g hg => hprim g (List.mem_append_left _ hg)))
      (fieldStep_self_slice P n _ _ X f hX hanon hf)
      (fieldLoop_primitive P _ _ _ _ post (fun g hg => hprim g (List.mem_append_right _ hg)))]
  rfl

/-- C5: for a struct type `X` with a slice field `f` whose element type is `X` itself or
a pointer to `X`, and whose other fields (those before, `pre`, and after, `post`) are
plain fields of primitive kind, `structToYaml` returns, for every fuel from 2 on, the
entries of the primitive fields in order with the empty-array marker `wireName: []` at
the place of `f`; for `AreaNode` (dapr_test.go) the result is `code: "string"`,
`name: "string"`, `children: []`. -/
theorem structToYaml_self_reference (P : Program) (n : Nat) (X : GoType)
    (pre post : List StructField) (f : StructField)
    (hX : P.kind X = Kind.Struct) (hfields : P.fields X = pre ++ f :: post)
    (hanon : f.anonymous = false)
    (hf : f.typ = GoType.slice X ∨ f.typ = GoType.slice (GoType.ptr X))
    (hprim : ∀ g ∈ pre ++ post, g.anonymous = false ∧ getJsonDataType P g.typ ≠ go "") :
    structToYaml P (n + 2) X = some (Exec.returned (Except.ok
      ((pre.map fun g => ((getStructFieldName g).1, FieldValue.tag (getJsonDataType P g.typ))) ++
        [((getStructFieldName f).1, FieldValue.nested [])] ++
        (post.map fun g =>
          ((getStructFieldName g).1, FieldValue.tag (getJsonDataType P g.typ)))))) ∧
    ∀ m, structToYaml Sample.program (m + 2) Sample.tAreaNode = some (Exec.returned (Except.ok
      [(go "code", FieldValue.tag (go "string")), (go "name", FieldValue.tag (go "string")),
       (go "children", FieldValue.nested [])])) := by
  refine ⟨structToYaml_self_slice P n X pre post f hX hfields hanon hf hprim, fun m => ?_⟩
  exact structToYaml_self_slice Sample.program m Sample.tAreaNode
    [Sample.fld "Code" Sample.tString "code", Sample.fld "Name" Sample.tString "name"] []
    (Sample.fld "Children" (GoType.slice (GoType.ptr Sample.tAreaNode)) "children")
    rfl rfl rfl (Or.inr rfl) (by decide)

/-- C5 (witness): the type `AreaNode` of dapr_test.go, with fuel 2. -/
theorem structToYaml_self_reference_witness :
    structToYaml Sample.program 2 Sample.tAreaNode = some (Exec.returned (Except.ok
      ([(go "code", FieldValue.tag (go "string")), (go "name", FieldValue.tag (go "string"))] ++
       [(go "children", FieldValue.nested [])] ++ []))) :=
  (structToYaml_self_reference Sample.program 0 Sample.tAreaNode
    [Sample.fld "Code" Sample.tString "code", Sample.fld "Name" Sample.tString "name"] []
    (Sample.fld "Children" (GoType.slice (GoType.ptr Sample.tAreaNode)) "children")
    rfl rfl rfl (Or.inr rfl) (by decide)).1


/-! ## C10 -/

/-- The step of an embedded, exported field of a struct variable: the entries of the
recursive call, spliced in; nothing when the call returns an error. -/
theorem fieldStep_embedded (P : Program) (fuel : Nat)
    (recur : GoType → Option (Exec YamlResult)) (X srcType : GoType) (f : StructField)
    (hX : P.kind X = Kind.Struct) (hanon : f.anonymous = true) (hexp : f.pkgPath = []) :
    fieldStep P fuel recur (some X) srcType f = afterCall (recur f.typ) fun ret => ret := by
  unfold fieldStep
  simp [hanon, fieldAddr, hX, hexp]

/-- The flattening of an embedded field whose name is exported: the entries of the
embedded struct type take the place of the field. -/
theorem structToYaml_embedded_exported (P : Program) (n : Nat) (X : GoType)
    (pre post : List StructField) (f : StructField) (epre r epost : List RefFieldInfo)
    (hX : P.kind X = Kind.Struct) (hfields : P.fields X = pre ++ f :: post)
    (hanon : f.anonymous = true) (hexp : f.pkgPath = [])
    (hE : structToYaml P (n + 1) f.typ = some (Exec.returned (Except.ok r)))
    (hpre : fieldLoop (fieldStep P (n + 1) (structToYaml P (n + 1)) (some X) X) pre [] =
      some (Exec.returned epre))
    (hpost : fieldLoop (fieldStep P (n + 1) (structToYaml P (n + 1)) (some X) X) post [] =
      some (Exec.returned epost)) :
    structToYaml P (n + 2) X = some (Exec.returned (Except.ok (epre ++ r ++ epost))) := by
  have hstep : fieldStep P (n + 1) (structToYaml P (n + 1)) (some X) X f =
      some (Exec.returned r) := by
    rw [fieldStep_embedded P _ _ X X f hX hanon hexp, hE]; rfl
  rw [structToYaml_struct P n X hX, hfields, fieldLoop_split _ pre post f epre r epost hpre
    hstep hpost]
  rfl

/-- The step of an embedded field whose name is not exported: `Interface()` panics. -/
theorem fieldStep_embedded_unexported (P : Program) (fuel : Nat)
    (recur : GoType → Option (Exec YamlResult)) (srcValue : Option GoType) (srcType : GoType)
    (f : StructField) (hanon : f.anonymous = true) (hexp : f.pkgPath ≠ []) :
    fieldStep P fuel recur srcValue srcType f = some Exec.panicked := by
  unfold fieldStep
  cases srcValue with
  | none => simp [hanon, fieldAddr]
  | some X =>
    by_cases hX : P.kind X = Kind.Struct <;> simp [hanon, fieldAddr, hX, hexp]

/-- C10 (the code at the failing input): the struct `Holder` embeds the struct type
`base`, whose name is not exported, and has the field `Name string`.  The extraction of
`base` alone gives the entry `id: "number"`, but the extraction of `Holder` panics
instead of giving `id: "number"`, `name: "string"`. -/
theorem structToYaml_unexported_embedded_panics :
    Sample.program.fields Sample.tHolder =
      [Sample.embedded "base" Sample.tBase false, Sample.fld "Name" Sample.tString "name"] ∧
    Sample.program.kind Sample.tBase = Kind.Struct ∧
    structToYaml Sample.program 2 Sample.tBase =
      some (Exec.returned (Except.ok [(go "id", FieldValue.tag (go "number"))])) ∧
    structToYaml Sample.program 3 Sample.tHolder = some Exec.panicked := by
  refine ⟨rfl, rfl, rfl, rfl⟩

/-! ## C6 -/

theorem mem_mapSet {α : Type} (m : GoMap α) (k : GoString) (v : α) :
    ∀ e ∈ mapSet m k v, e ∈ m ∨ e = (k, v) := by
  induction m with
  | nil => intro e he; simp [mapSet] at he; exact Or.inr he
  | cons p rest ih =>
    obtain ⟨k1, v1⟩ := p
    intro e he
    unfold mapSet at he
    split_ifs at he with hk
    · rcases List.mem_cons.1 he with h | h
      · exact Or.inr h
      · exact Or.inl (List.mem_cons_of_mem _ h)
    · rcases List.mem_cons.1 he with h | h
      · exact Or.inl (by rw [h]; exact List.mem_cons_self _ _)
      · rcases ih e h with h2 | h2
        · exact Or.inl (List.mem_cons_of_mem _ h2)
        · exact Or.inr h2

theorem methodStep_argChecked (T : UnicodeTables) (P : Program) (fuel : Nat)
    (methods methods1 : GoMap MethodType) (method : Method)
    (h : methodStep T P fuel methods method = some (Exec.returned methods1))
    (hm : ∀ e ∈ methods, ArgChecked T P fuel e) : ∀ e ∈ methods1, ArgChecked T P fuel e := by
  unfold methodStep at h
  repeat' split at h
  all_goals first
    | (simp at h; done)
    | (simp only [Option.some.injEq, Exec.returned.injEq] at h; subst h; exact hm)
    | skip
  simp only [Option.some.injEq, Exec.returned.injEq] at h
  subst h
  intro e he
  rcases mem_mapSet _ _ _ e he with h6 | h6
  · exact hm e h6
  · subst h6
    refine ⟨?_, ?_⟩
    · simp_all
    · assumption


theorem methodLoop_argChecked (T : UnicodeTables) (P : Program) (fuel : Nat)
    (l : List Method) :
    ∀ (methods table : GoMap MethodType),
      methodLoop T P fuel l methods = some (Exec.returned table) →
      (∀ e ∈ methods, ArgChecked T P fuel e) → ∀ e ∈ table, ArgChecked T P fuel e := by
  induction l with
  | nil =>
    intro methods table h hm
    simp only [methodLoop, Option.some.injEq, Exec.returned.injEq] at h
    subst h; exact hm
  | cons m rest ih =>
    intro methods table h hm
    unfold methodLoop at h
    cases hs : methodStep T P fuel methods m with
    | none => simp [hs] at h
    | some r =>
      cases r with
      | panicked => simp [hs] at h
      | exited => simp [hs] at h
      | returned methods1 =>
        simp only [hs] at h
        exact ih methods1 table h (methodStep_argChecked T P fuel methods methods1 m hs hm)

/-- C6 (counterexample): the table that `suitableMethods` returns for `*IntServer` has
the entry "incr" of the method `Incr(ctx, in *int, out interface) error`, whose
argument type `*int` points to a type of kind Int, not to a struct. -/
theorem suitableMethods_keeps_int_argument :
    suitableMethods asciiTables Sample.program 1 (GoType.ptr Sample.tIntServer) =
      some (Exec.returned [(go "incr", Sample.incrType)]) ∧
    Sample.incrType.argType = GoType.ptr Sample.tInt ∧
    Sample.program.kind (Sample.program.elem Sample.incrType.argType) = Kind.Int :=
  ⟨rfl, rfl, rfl⟩

/-- C6 (amended): every entry of the table returned by `suitableMethods` has an argument
type of pointer kind whose base type, all pointer levels removed, has an exported name
or an empty package path (a predeclared type or a type literal). -/
theorem suitableMethods_argument_checked (T : UnicodeTables) (P : Program) (fuel : Nat)
    (typ : GoType) (table : GoMap MethodType)
    (h : suitableMethods T P fuel typ = some (Exec.returned table)) :
    ∀ e ∈ table, P.kind e.2.argType = Kind.Ptr ∧
      ∃ base, stripPtr P fuel e.2.argType = some base ∧
        (tokenIsExported T (P.name base) = true ∨ P.pkgPath base = []) := by
  intro e he
  have hq := methodLoop_argChecked T P fuel (P.methods typ) [] table h
    (fun x hx => by simp at hx) e he
  refine ⟨hq.1, ?_⟩
  have h2 := hq.2
  unfold isExportedOrBuiltinType at h2
  cases hs : stripPtr P fuel e.2.argType with
  | none => simp [hs] at h2
  | some base =>
    refine ⟨base, rfl, ?_⟩
    simpa [hs] using h2

/-- C6 (witness): the entry "get_login_kind" of the table of `*DemoServer`
(dapr_test.go). -/
theorem suitableMethods_argument_checked_witness :
    Sample.program.kind Sample.getLoginKindType.argType = Kind.Ptr ∧
      ∃ base, stripPtr Sample.program 1 Sample.getLoginKindType.argType = some base ∧
        (tokenIsExported asciiTables (Sample.program.name base) = true ∨
          Sample.program.pkgPath base = []) :=
  suitableMethods_argument_checked asciiTables Sample.program 1
    (GoType.ptr Sample.tDemoServer) [(go "get_login_kind", Sample.getLoginKindType)] rfl
    (go "get_login_kind", Sample.getLoginKindType) (List.mem_singleton.2 rfl)

/-! ## C7 -/

/-- C7 (counterexample): a nil `*AreaNode` registered under the name "className".  The
type `*AreaNode` has no method, so none of its methods is eligible and the scan returns
the empty table; yet `registMethods` does not return an error: it panics, in
`reflect.Indirect(s.rcvr).Type()` of `register` (main.go:63), before the scan.  So does
the nil interface. -/
theorem registMethods_nil_pointer_panics :
    Sample.program.methods (GoType.ptr Sample.tAreaNode) = [] ∧
    suitableMethods asciiTables Sample.program 1 (GoType.ptr Sample.tAreaNode) =
      some (Exec.returned []) ∧
    (∀ ρ : RangeOrder,
      registMethods asciiTables Sample.program 1 ρ newDaprServer (go "className")
        (some { typ := GoType.ptr Sample.tAreaNode, isNil := true }) = some Exec.panicked) ∧
    (∀ ρ : RangeOrder,
      registMethods asciiTables Sample.program 1 ρ newDaprServer (go "className") none =
        some Exec.panicked) :=
  ⟨rfl, rfl, fun _ => rfl, fun _ => rfl⟩

/-- C7 (amended): for a service object that is an interface value holding something
other than a nil pointer, whose scan ends and yields no eligible method (the second
scan, of the pointer type, made for the hint of the message, ends too), and a non-empty
service name, `registMethods` returns the error "<className> has not exported method"
and the server is left as it was: its service name, service descriptor and signature are
not written. -/
theorem registMethods_no_eligible_method (T : UnicodeTables) (P : Program) (fuel : Nat)
    (ρ : RangeOrder) (server : DaprServer) (className : GoString) (svr : Receiver)
    (hint : GoMap MethodType)
    (hname : className ≠ go "")
    (hobj : ¬ (P.kind svr.typ = Kind.Ptr ∧ svr.isNil = true))
    (hscan : suitableMethods T P fuel svr.typ = some (Exec.returned []))
    (hhint : suitableMethods T P fuel (GoType.ptr svr.typ) = some (Exec.returned hint)) :
    registMethods T P fuel ρ server className (some svr) =
      some (Exec.returned (some (className ++ go " has not exported method"), server)) := by
  have hreg : ∃ msg, register T P fuel server (some svr) className true =
      some (Exec.returned (some msg, server)) := by
    unfold register receiverTypeName
    by_cases hk : P.kind svr.typ = Kind.Ptr
    · have hn : svr.isNil = false := by
        cases hnil : svr.isNil with
        | false => rfl
        | true => exact absurd ⟨hk, hnil⟩ hobj
      simp only [hk, hn, if_true, Bool.false_eq_true, if_false, hname, hscan, hhint,
        Bool.not_true, Bool.and_false, List.length_nil]
      split_ifs <;> exact ⟨_, rfl⟩
    · simp only [hk, if_false, Bool.false_eq_true, if_true, hname, hscan, hhint,
        Bool.not_true, Bool.and_false, List.length_nil]
      split_ifs <;> exact ⟨_, rfl⟩
  obtain ⟨msg, hmsg⟩ := hreg
  unfold registMethods
  simp only [hname, if_false, hmsg]

/-- C7 (witness): a `DemoServer` passed by value has no method at all (`GetLoginKind`
has a pointer receiver). -/
theorem registMethods_no_eligible_method_witness :
    registMethods asciiTables Sample.program 1 RangeOrder.insertion newDaprServer
        (go "className") (some { typ := Sample.tDemoServer, isNil := false }) =
      some (Exec.returned (some (go "className" ++ go " has not exported method"),
        newDaprServer)) :=
  registMethods_no_eligible_method asciiTables Sample.program 1 RangeOrder.insertion
    newDaprServer (go "className")
    { typ := Sample.tDemoServer, isNil := false } [(go "get_login_kind", Sample.getLoginKindType)]
    (by decide) (by decide) rfl rfl


/-! ## C8 -/

/-- The validation of a struct behind any number of pointers is the validator's verdict
on the struct. -/
theorem validParam_ptr_struct (R : Runtime) (c : Nat) (n : Nat) :
    validParam R (GoValue.ptr^[n] (GoValue.struct c)) = R.validateStruct (GoValue.struct c) := by
  induction n with
  | zero => rfl
  | succ n ih =>
    rw [Function.iterate_succ_apply']
    exact ih

/-- C8: in a call of a handler, when decoding the payload fails the handler returns
that error, no content, and has not called the method; when decoding succeeds and
validation of the decoded argument fails, likewise, where the validation of an argument
that is a struct, directly or behind pointers, is the verdict of the validator
(`validate.Struct`) on that struct; whenever the handler returns, it has called the
method at most once, and it has called it only after both steps succeeded (for a struct
argument: only after the validator accepted it), exactly once, on the decoded argument
and the freshly allocated reply; and when both steps succeed and the method returns, the
handler returns, with that one call. -/
theorem invokeWarpper_decode_validate_first (P : Program) (R : Runtime) (mtype : MethodType)
    (data : List Nat) :
    (∀ err, R.unmarshal data (P.elem mtype.argType) = Except.error err →
      invokeWarpper P R mtype data =
        Exec.returned { content := none, err := some err, calls := [], mtype := mtype }) ∧
    (∀ v err, R.unmarshal data (P.elem mtype.argType) = Except.ok v →
      validParam R (GoValue.ptr v) = some err →
      invokeWarpper P R mtype data =
        Exec.returned { content := none, err := some err, calls := [], mtype := mtype }) ∧
    (∀ v r, R.unmarshal data (P.elem mtype.argType) = Except.ok v →
      validParam R (GoValue.ptr v) = none →
      invokeWarpper P R mtype data = Exec.returned r →
      r.calls = [(GoValue.ptr v, allocReply P mtype)]) ∧
    (∀ r, invokeWarpper P R mtype data = Exec.returned r → r.calls ≠ [] →
      ∃ v, R.unmarshal data (P.elem mtype.argType) = Except.ok v ∧
        validParam R (GoValue.ptr v) = none) ∧
    (∀ n c err,
      R.unmarshal data (P.elem mtype.argType) = Except.ok (GoValue.ptr^[n] (GoValue.struct c)) →
      R.validateStruct (GoValue.struct c) = some err →
      invokeWarpper P R mtype data =
        Exec.returned { content := none, err := some err, calls := [], mtype := mtype }) ∧
    (∀ n c r,
      R.unmarshal data (P.elem mtype.argType) = Except.ok (GoValue.ptr^[n] (GoValue.struct c)) →
      invokeWarpper P R mtype data = Exec.returned r → r.calls ≠ [] →
      R.validateStruct (GoValue.struct c) = none) ∧
    (∀ v e target, R.unmarshal data (P.elem mtype.argType) = Except.ok v →
      validParam R (GoValue.ptr v) = none →
      R.call mtype.method.fn (GoValue.ptr v) (allocReply P mtype) = Exec.returned (e, target) →
      ∃ r, invokeWarpper P R mtype data = Exec.returned r ∧
        r.calls = [(GoValue.ptr v, allocReply P mtype)]) := by
  have key : ∀ v r, R.unmarshal data (P.elem mtype.argType) = Except.ok v →
      validParam R (GoValue.ptr v) = none →
      invokeWarpper P R mtype data = Exec.returned r →
      r.calls = [(GoValue.ptr v, allocReply P mtype)] := by
    intro v r hd hv h
    unfold invokeWarpper at h
    simp only [hd, hv] at h
    repeat' split at h
    all_goals first
      | (simp at h; done)
      | (simp only [Exec.returned.injEq] at h; subst h; rfl)
  have verr : ∀ v err, R.unmarshal data (P.elem mtype.argType) = Except.ok v →
      validParam R (GoValue.ptr v) = some err →
      invokeWarpper P R mtype data =
        Exec.returned { content := none, err := some err, calls := [], mtype := mtype } := by
    intro v err hd hv
    unfold invokeWarpper
    simp only [hd, hv]
  have called : ∀ r, invokeWarpper P R mtype data = Exec.returned r → r.calls ≠ [] →
      ∃ v, R.unmarshal data (P.elem mtype.argType) = Except.ok v ∧
        validParam R (GoValue.ptr v) = none := by
    intro r h hne
    cases hd : R.unmarshal data (P.elem mtype.argType) with
    | error err =>
      unfold invokeWarpper at h
      simp only [hd, Exec.returned.injEq] at h
      subst h
      exact absurd rfl hne
    | ok v =>
      cases hv : validParam R (GoValue.ptr v) with
      | none => exact ⟨v, rfl, hv⟩
      | some err =>
        unfold invokeWarpper at h
        simp only [hd, hv, Exec.returned.injEq] at h
        subst h
        exact absurd rfl hne
  refine ⟨?_, verr, key, called, ?_, ?_, ?_⟩
  · intro err hd
    unfold invokeWarpper
    simp only [hd]
  · intro n c err hd hval
    apply verr _ err hd
    have := validParam_ptr_struct R c (n + 1)
    rw [Function.iterate_succ_apply'] at this
    rw [this, hval]
  · intro n c r hd h hne
    obtain ⟨v, hv1, hv2⟩ := called r h hne
    rw [hd] at hv1
    have hv : v = GoValue.ptr^[n] (GoValue.struct c) := (Except.ok.inj hv1).symm
    subst hv
    have := validParam_ptr_struct R c (n + 1)
    rw [Function.iterate_succ_apply'] at this
    rw [← this, hv2]
  · intro v e target hd hv hc
    unfold invokeWarpper
    simp only [hd, hv, hc]
    cases e with
    | some err => exact ⟨_, rfl, rfl⟩
    | none =>
      cases hr : allocReply P mtype with
      | none => exact ⟨_, rfl, rfl⟩
      | some tgt =>
        dsimp only
        cases hm : R.marshal target with
        | error err => exact ⟨_, rfl, rfl⟩
        | ok bytes => exact ⟨_, rfl, rfl⟩

/-- C8 (witness): with the sample runtime the empty payload does not decode, and the
payload of one byte decodes to a struct that the validator rejects; in both cases the
handler of `GetLoginKind` returns the error and has not called the method. -/
theorem invokeWarpper_decode_validate_first_witness :
    invokeWarpper Sample.program Sample.runtime Sample.getLoginKindType [] =
      Exec.returned { content := none, err := some (go "unexpected end of JSON input"),
                      calls := [], mtype := Sample.getLoginKindType } ∧
    invokeWarpper Sample.program Sample.runtime Sample.getLoginKindType [0] =
      Exec.returned { content := none, err := some (go "validation failed"),
                      calls := [], mtype := Sample.getLoginKindType } :=
  ⟨(invokeWarpper_decode_validate_first Sample.program Sample.runtime Sample.getLoginKindType
      []).1 _ rfl,
   (invokeWarpper_decode_validate_first Sample.program Sample.runtime Sample.getLoginKindType
      [0]).2.2.2.2.1 0 1 (go "validation failed") rfl rfl⟩

/-! ## C9 -/

/-- C9 (counterexample): a call of the handler of `GetLoginKind` that invokes the method
once leaves the call counter of the descriptor at 0; it is not increased by one. -/
theorem invokeWarpper_counter_not_incremented :
    (invokeWarpper Sample.program Sample.runtime Sample.getLoginKindType [123, 125]).toOption.map
        (fun r => (r.calls.length, r.mtype.numCalls)) = some (1, 0) ∧
    Sample.getLoginKindType.numCalls = 0 := by
  decide

/-- C9 (amended): no call of a handler changes the method descriptor; in particular the
call counter `numCalls` keeps its value whether or not the method was invoked and
whatever it returned. -/
theorem invokeWarpper_counter_unchanged (P : Program) (R : Runtime) (mtype : MethodType)
    (data : List Nat) (r : HandlerResult)
    (h : invokeWarpper P R mtype data = Exec.returned r) :
    r.mtype = mtype ∧ r.mtype.numCalls = mtype.numCalls := by
  have : r.mtype = mtype := by
    unfold invokeWarpper at h
    cases hd : R.unmarshal data (P.elem mtype.argType) with
    | error err =>
      simp only [hd, Exec.returned.injEq] at h
      subst h; rfl
    | ok v =>
      cases hv : validParam R (GoValue.ptr v) with
      | some err =>
        simp only [hd, hv, Exec.returned.injEq] at h
        subst h; rfl
      | none =>
        simp only [hd, hv] at h
        repeat' split at h
        all_goals first
          | (simp at h; done)
          | (simp only [Exec.returned.injEq] at h; subst h; rfl)
  exact ⟨this, by rw [this]⟩

/-- C9 (witness): the call of the counterexample returns with the descriptor, and its
counter, as they were. -/
theorem invokeWarpper_counter_unchanged_witness :
    ∃ r, invokeWarpper Sample.program Sample.runtime Sample.getLoginKindType [123, 125] =
        Exec.returned r ∧
      r.mtype = Sample.getLoginKindType ∧
      r.mtype.numCalls = Sample.getLoginKindType.numCalls :=
  ⟨_, rfl, invokeWarpper_counter_unchanged Sample.program Sample.runtime
    Sample.getLoginKindType [123, 125] _ rfl⟩

/-! ## C11 -/

theorem getJsonDataType_primitive (P : Program) (t : GoType)
    (h : primitiveKind (P.kind t) = true) :
    (P.kind t = Kind.Bool ∧ getJsonDataType P t = go "bool") ∨
    (P.kind t ∈ numericKinds ∧ getJsonDataType P t = go "number") ∨
    (P.kind t = Kind.String ∧ getJsonDataType P t = go "string") := by
  unfold getJsonDataType
  generalize P.kind t = k at h
  cases k <;> first | (exfalso; revert h; decide) | decide

theorem getJsonDataType_ne_empty (P : Program) (t : GoType)
    (h : primitiveKind (P.kind t) = true) : getJsonDataType P t ≠ go "" := by
  rcases getJsonDataType_primitive P t h with h1 | h1 | h1 <;> rw [h1.2] <;> decide

/-- C11 (counterexample): the struct `Tally` has one field, the embedded `Count` of the
type `type Count int`, of kind Int; `structToYaml` returns the empty list, which has not
the length of the field list. -/
theorem structToYaml_embedded_primitive_skipped :
    Sample.program.fields Sample.tTally = [Sample.embedded "Count" Sample.tCount true] ∧
    Sample.program.kind Sample.tCount = Kind.Int ∧
    structToYaml Sample.program 3 Sample.tTally = some (Exec.returned (Except.ok [])) :=
  ⟨rfl, rfl, rfl⟩

/-- C11 (amended): for a struct type all of whose fields are fields of primitive kind
that are not embedded, `structToYaml` returns, for every fuel from 2 on, one entry per
field, in declaration order: the list has the length of the field list, and the entry
of a field maps its wire name to "bool", "number" or "string" according to its kind. -/
theorem structToYaml_primitive_fields (P : Program) (n : Nat) (X : GoType)
    (hX : P.kind X = Kind.Struct)
    (hprim : ∀ g ∈ P.fields X, g.anonymous = false ∧ primitiveKind (P.kind g.typ) = true) :
    (∃ l, structToYaml P (n + 2) X = some (Exec.returned (Except.ok l)) ∧
      l.length = (P.fields X).length ∧
      l = (P.fields X).map fun g =>
        ((getStructFieldName g).1, FieldValue.tag (getJsonDataType P g.typ))) ∧
    ∀ g ∈ P.fields X,
      (P.kind g.typ = Kind.Bool ∧ getJsonDataType P g.typ = go "bool") ∨
      (P.kind g.typ ∈ numericKinds ∧ getJsonDataType P g.typ = go "number") ∨
      (P.kind g.typ = Kind.String ∧ getJsonDataType P g.typ = go "string") := by
  refine ⟨⟨_, ?_, by simp, rfl⟩, fun g hg => getJsonDataType_primitive P g.typ (hprim g hg).2⟩
  rw [structToYaml_struct P n X hX,
    fieldLoop_primitive P _ _ _ _ (P.fields X)
      (fun g hg => ⟨(hprim g hg).1, getJsonDataType_ne_empty P g.typ (hprim g hg).2⟩)]
  rfl

/-- C11 (witness): the type `UpdateIn` of exmaple/main.go, with its five fields. -/
theorem structToYaml_primitive_fields_witness :
    ∃ l, structToYaml Sample.program 2 Sample.tUpdateIn =
        some (Exec.returned (Except.ok l)) ∧
      l.length = (Sample.program.fields Sample.tUpdateIn).length ∧
      l = (Sample.program.fields Sample.tUpdateIn).map fun g =>
        ((getStructFieldName g).1, FieldValue.tag (getJsonDataType Sample.program g.typ)) :=
  (structToYaml_primitive_fields Sample.program 0 Sample.tUpdateIn rfl (by decide)).1


/-! ## C12 -/

theorem signatureLoop_entries (P : Program) (fuel : Nat) (table : List (GoString × MethodType)) :
    ∀ (acc : List RefMethodSignature) (out : Option (List RefFieldInfo))
      (spec : List RefMethodSignature),
      signatureLoop P fuel table acc out = some (Exec.returned (Except.ok spec)) →
      ∃ rest, spec = acc ++ rest ∧ List.Forall₂ (SigEntry P fuel) table rest := by
  induction table with
  | nil =>
    intro acc out spec h
    simp only [signatureLoop, Option.some.injEq, Exec.returned.injEq, Except.ok.injEq] at h
    exact ⟨[], by simp [h], List.Forall₂.nil⟩
  | cons e table ih =>
    obtain ⟨name, method⟩ := e
    intro acc out spec h
    unfold signatureLoop at h
    cases ha : indirectType P fuel method.argType with
    | none => simp [ha] at h
    | some argvType =>
      simp only [ha] at h
      cases hin : structToYaml P fuel argvType with
      | none => simp [hin] at h
      | some r =>
        cases r with
        | panicked => simp [hin] at h
        | exited => simp [hin] at h
        | returned res =>
          cases res with
          | error err => simp [hin] at h
          | ok inl =>
            simp only [hin] at h
            by_cases hp : P.kind method.replyType = Kind.Ptr
            · simp only [hp, if_true] at h
              cases hr : indirectType P fuel method.replyType with
              | none => simp [hr] at h
              | some replyType =>
                simp only [hr] at h
                cases hout : structToYaml P fuel replyType with
                | none => simp [hout] at h
                | some r2 =>
                  cases r2 with
                  | panicked => simp [hout] at h
                  | exited => simp [hout] at h
                  | returned res2 =>
                    cases res2 with
                    | error err => simp [hout] at h
                    | ok outl =>
                      simp only [hout] at h
                      obtain ⟨rest, hspec, hall⟩ := ih _ _ _ h
                      refine ⟨{ name := name, inFields := some inl, outFields := some outl } ::
                        rest, by simp [hspec], List.Forall₂.cons ?_ hall⟩
                      refine ⟨rfl, ⟨argvType, inl, ha, hin, rfl⟩, ?_, ?_⟩
                      · intro hi; rw [hp] at hi; exact absurd hi (by decide)
                      · intro _; exact ⟨replyType, outl, hr, hout, rfl⟩
            · simp only [hp, if_false] at h
              obtain ⟨rest, hspec, hall⟩ := ih _ _ _ h
              refine ⟨{ name := name, inFields := some inl,
                        outFields := if P.kind method.replyType = Kind.Interface then some []
                          else out } :: rest, by simp [hspec], List.Forall₂.cons ?_ hall⟩
              refine ⟨rfl, ⟨argvType, inl, ha, hin, rfl⟩, ?_, ?_⟩
              · intro hi; simp [hi]
              · intro hq; exact absurd hq hp

theorem extractsType_iff (P : Program) (fuel : Nat) (t : GoType) :
    extractsType P fuel t = true ↔
      ∃ base l, indirectType P fuel t = some base ∧
        structToYaml P fuel base = some (Exec.returned (Except.ok l)) := by
  unfold extractsType
  cases ha : indirectType P fuel t with
  | none => simp
  | some base =>
    cases hin : structToYaml P fuel base with
    | none => simp [hin]
    | some r =>
      cases r with
      | panicked => simp [hin]
      | exited => simp [hin]
      | returned res =>
        cases res with
        | error err => simp [hin]
        | ok l => simp [hin]

/-- A table entry with a signature entry is one whose types extract. -/
theorem extracts_of_sigEntry (P : Program) (fuel : Nat) (e : GoString × MethodType)
    (r : RefMethodSignature) (h : SigEntry P fuel e r) : extracts P fuel e = true := by
  obtain ⟨_, ⟨t, inl, ha, hin, _⟩, _, hptr⟩ := h
  unfold extracts
  rw [Bool.and_eq_true]
  refine ⟨(extractsType_iff P fuel _).2 ⟨t, inl, ha, hin⟩, ?_⟩
  split_ifs with hp
  · obtain ⟨t2, outl, hr, hout, _⟩ := hptr hp
    exact (extractsType_iff P fuel _).2 ⟨t2, outl, hr, hout⟩
  · rfl

/-- The loop returns a list when the types of every entry extract. -/
theorem signatureLoop_returns (P : Program) (fuel : Nat)
    (table : List (GoString × MethodType)) :
    (∀ e ∈ table, extracts P fuel e = true) →
    ∀ (acc : List RefMethodSignature) (out : Option (List RefFieldInfo)),
      ∃ spec, signatureLoop P fuel table acc out = some (Exec.returned (Except.ok spec)) := by
  induction table with
  | nil => intro _ acc out; exact ⟨acc, rfl⟩
  | cons e table ih =>
    obtain ⟨name, method⟩ := e
    intro h acc out
    have he := h (name, method) (List.mem_cons_self _ _)
    have ih2 := ih (fun x hx => h x (List.mem_cons_of_mem _ hx))
    unfold extracts at he
    rw [Bool.and_eq_true] at he
    obtain ⟨t, inl, ha, hin⟩ := (extractsType_iff P fuel _).1 he.1
    unfold signatureLoop
    simp only [ha, hin]
    by_cases hp : P.kind method.replyType = Kind.Ptr
    · have h2 := he.2
      simp only [hp, if_true] at h2
      obtain ⟨t2, outl, hr, hout⟩ := (extractsType_iff P fuel _).1 h2
      simp only [hp, if_true, hr, hout]
      exact ih2 _ _
    · simp only [hp, if_false]
      exact ih2 _ _

theorem names_of_sigEntries (P : Program) (fuel : Nat) (table : List (GoString × MethodType))
    (spec : List RefMethodSignature) (h : List.Forall₂ (SigEntry P fuel) table spec) :
    spec.map (fun r => r.name) = table.map Prod.fst := by
  induction h with
  | nil => rfl
  | cons h1 _ ih => simp only [List.map_cons, ih, h1.1]

theorem sigEntry_of_mem (P : Program) (fuel : Nat) (table : List (GoString × MethodType))
    (spec : List RefMethodSignature) (h : List.Forall₂ (SigEntry P fuel) table spec) :
    ∀ e ∈ table, ∃ r ∈ spec, SigEntry P fuel e r := by
  induction h with
  | nil => intro e he; simp at he
  | cons h1 _ ih =>
    intro e he
    rcases List.mem_cons.1 he with rfl | he
    · exact ⟨_, List.mem_cons_self _ _, h1⟩
    · obtain ⟨r, hr, hs⟩ := ih e he
      exact ⟨r, List.mem_cons_of_mem _ hr, hs⟩

/-- What `getSignature` returns for a server with a registered service whose types all
extract: a signature whose entries are those of the method table, in the order of the
visit. -/
theorem getSignature_returns (P : Program) (fuel : Nat) (ρ : RangeOrder) (server : DaprServer)
    (svc : Service) (hsvc : server.service = some svc)
    (hext : ∀ e ∈ svc.method, extracts P fuel e = true) :
    ∃ spec, getSignature P fuel ρ server =
        some (Exec.returned (Except.ok { apiVersion := server.svcName, spec := some spec })) ∧
      List.Forall₂ (SigEntry P fuel) (ρ.visit svc.method) spec := by
  have hv : ∀ e ∈ ρ.visit svc.method, extracts P fuel e = true :=
    fun e he => hext e ((ρ.perm svc.method).subset he)
  obtain ⟨spec, hspec⟩ := signatureLoop_returns P fuel _ hv [] none
  obtain ⟨rest, hrest, hall⟩ := signatureLoop_entries P fuel _ [] none spec hspec
  simp only [List.nil_append] at hrest
  subst hrest
  refine ⟨spec, ?_, hall⟩
  unfold getSignature
  simp only [hsvc, hspec]

/-- A signature returned by `getSignature` for a registered service shows that the types
of every table entry extract. -/
theorem extracts_of_getSignature (P : Program) (fuel : Nat) (ρ : RangeOrder)
    (server : DaprServer) (svc : Service) (sig : ServiceSignature)
    (hsvc : server.service = some svc)
    (hsig : getSignature P fuel ρ server = some (Exec.returned (Except.ok sig))) :
    ∀ e ∈ svc.method, extracts P fuel e = true := by
  unfold getSignature at hsig
  simp only [hsvc] at hsig
  cases hl : signatureLoop P fuel (ρ.visit svc.method) [] none with
  | none => simp [hl] at hsig
  | some r =>
    cases r with
    | panicked => simp [hl] at hsig
    | exited => simp [hl] at hsig
    | returned res =>
      cases res with
      | error err => simp [hl] at hsig
      | ok spec =>
        obtain ⟨rest, _, hall⟩ := signatureLoop_entries P fuel _ [] none spec hl
        intro e he
        obtain ⟨r, _, hr⟩ := sigEntry_of_mem P fuel _ rest hall e ((ρ.perm svc.method).symm.subset he)
        exact extracts_of_sigEntry P fuel e r hr

/-- The visit of a table of two entries is one of the two orders. -/
theorem visit_pair (ρ : RangeOrder) (a b : GoString × MethodType) :
    ρ.visit [a, b] = [a, b] ∨ ρ.visit [a, b] = [b, a] := by
  have hp := ρ.perm [a, b]
  obtain ⟨x, y, hxy⟩ := List.length_eq_two.1 (by simpa using hp.length_eq)
  rw [hxy] at hp ⊢
  have hx : x ∈ [a, b] := hp.subset (List.mem_cons_self _ _)
  rcases List.mem_cons.1 hx with rfl | hx
  · left
    have := (List.perm_cons x).1 hp
    rw [List.perm_singleton.1 this]
  · have hxb : x = b := by simpa using hx
    subst hxb
    right
    have h2 : [x, y].Perm [x, a] := hp.trans (List.Perm.swap x a [])
    have := (List.perm_cons x).1 h2
    rw [List.perm_singleton.1 this]

/-- The visit of a table of one entry. -/
theorem visit_single (ρ : RangeOrder) (a : GoString × MethodType) : ρ.visit [a] = [a] :=
  List.perm_singleton.1 (ρ.perm [a])

/-- C12 (counterexample): the service of exmaple/main.go.  The scan of `*EchoServer`
registers `Echo` and `UpdateInfo`, and the reply type of `UpdateInfo` is of interface
kind (the void marker); in whatever order the method map is visited, `getSignature`
panics in the extraction of `EchoIn` (field `CreateAt time.Time`), and so does
`registMethods`: it returns no signature and `UpdateInfo` gets no entry. -/
theorem getSignature_example_service_panics :
    suitableMethods asciiTables Sample.program 3 (GoType.ptr Sample.tEchoServer) =
      some (Exec.returned Sample.echoTable) ∧
    mapGet Sample.echoTable (go "update_info") =
      some (descriptorOf (Sample.updateInfo (go "UpdateInfo") Sample.tEchoServer 8)) ∧
    Sample.program.kind
      (descriptorOf (Sample.updateInfo (go "UpdateInfo") Sample.tEchoServer 8)).replyType =
        Kind.Interface ∧
    (∀ ρ : RangeOrder, getSignature Sample.program 3 ρ Sample.echoServer = some Exec.panicked) ∧
    (∀ ρ : RangeOrder,
      registMethods asciiTables Sample.program 3 ρ newDaprServer (go "demo.echo.hugelink.cn/v1")
        (some { typ := GoType.ptr Sample.tEchoServer, isNil := false }) = some Exec.panicked) := by
  have hsig : ∀ ρ : RangeOrder,
      getSignature Sample.program 3 ρ Sample.echoServer = some Exec.panicked := by
    intro ρ
    have hv := visit_pair ρ (go "echo", descriptorOf Sample.echo)
      (go "update_info", descriptorOf (Sample.updateInfo (go "UpdateInfo") Sample.tEchoServer 8))
    have hg : getSignature Sample.program 3 ρ Sample.echoServer =
        match signatureLoop Sample.program 3 (ρ.visit Sample.echoTable) [] none with
        | none => none
        | some Exec.panicked => some Exec.panicked
        | some Exec.exited => some Exec.exited
        | some (Exec.returned (Except.error err)) => some (Exec.returned (Except.error err))
        | some (Exec.returned (Except.ok spec)) =>
          some (Exec.returned (Except.ok
            { apiVersion := Sample.echoServer.svcName, spec := some spec })) := rfl
    rw [hg]
    rcases hv with h | h
    · have : ρ.visit Sample.echoTable = _ := h
      rw [this]; rfl
    · have : ρ.visit Sample.echoTable = _ := h
      rw [this]; rfl
  refine ⟨rfl, rfl, rfl, hsig, ?_⟩
  intro ρ
  have hreg : register asciiTables Sample.program 3 newDaprServer
      (some { typ := GoType.ptr Sample.tEchoServer, isNil := false })
      (go "demo.echo.hugelink.cn/v1") true =
        some (Exec.returned (none, Sample.echoServer)) := rfl
  unfold registMethods
  rw [if_neg (by decide), hreg]
  simp only [hsig ρ]

/-- C12 (amended): for a server with a registered service, `getSignature` returns a
signature exactly when the types of every registered method extract (the argument type,
and the reply type when it is a pointer).  Then, in whatever order the method map is
visited, the signature has one entry per registered method, and a method whose reply
type is of interface kind (the void marker) has an entry with its name, an `Out` list
that is empty and not nil, and as `In` list the extraction of the argument type with its
pointers removed. -/
theorem getSignature_void_result (P : Program) (fuel : Nat) (ρ : RangeOrder)
    (server : DaprServer) (svc : Service) (hsvc : server.service = some svc) :
    (∀ sig, getSignature P fuel ρ server = some (Exec.returned (Except.ok sig)) →
      ∀ e ∈ svc.method, extracts P fuel e = true) ∧
    ((∀ e ∈ svc.method, extracts P fuel e = true) →
      ∃ spec, getSignature P fuel ρ server =
          some (Exec.returned (Except.ok { apiVersion := server.svcName, spec := some spec })) ∧
        spec.length = svc.method.length ∧
        (spec.map fun r => r.name).Perm (svc.method.map Prod.fst) ∧
        ∀ e ∈ svc.method, P.kind e.2.replyType = Kind.Interface →
          ∃ r ∈ spec, r.name = e.1 ∧ r.outFields = some [] ∧
            ∃ t inl, indirectType P fuel e.2.argType = some t ∧
              structToYaml P fuel t = some (Exec.returned (Except.ok inl)) ∧
              r.inFields = some inl) := by
  refine ⟨fun sig hsig => extracts_of_getSignature P fuel ρ server svc sig hsvc hsig, ?_⟩
  intro hext
  obtain ⟨spec, hspec, hall⟩ := getSignature_returns P fuel ρ server svc hsvc hext
  have hnames := names_of_sigEntries P fuel _ spec hall
  have hperm : (spec.map fun r => r.name).Perm (svc.method.map Prod.fst) := by
    rw [hnames]
    exact (ρ.perm svc.method).map Prod.fst
  refine ⟨spec, hspec, ?_, hperm, ?_⟩
  · have := hperm.length_eq
    simpa using this
  · intro e he hi
    obtain ⟨r, hr, hs⟩ := sigEntry_of_mem P fuel _ spec hall e
      ((ρ.perm svc.method).symm.subset he)
    exact ⟨r, hr, hs.1, hs.2.2.1 hi, hs.2.1⟩

/-- C12 (witness): the signature of an `*UpdateServer`, whose method `UpdateInfo`
(as in exmaple/main.go) has the reply type `interface`. -/
theorem getSignature_void_result_witness :
    ∃ spec, getSignature Sample.program 3 RangeOrder.insertion Sample.updateServer =
        some (Exec.returned (Except.ok
          { apiVersion := Sample.updateServer.svcName, spec := some spec })) ∧
      spec.length = Sample.updateService.method.length ∧
      (spec.map fun r => r.name).Perm (Sample.updateService.method.map Prod.fst) ∧
      ∀ e ∈ Sample.updateService.method, Sample.program.kind e.2.replyType = Kind.Interface →
        ∃ r ∈ spec, r.name = e.1 ∧ r.outFields = some [] ∧
          ∃ t inl, indirectType Sample.program 3 e.2.argType = some t ∧
            structToYaml Sample.program 3 t = some (Exec.returned (Except.ok inl)) ∧
            r.inFields = some inl :=
  (getSignature_void_result Sample.program 3 RangeOrder.insertion Sample.updateServer
    Sample.updateService rfl).2
    (by
      intro e he
      have : e = (go "update_info", Sample.updateInfoType) := by
        simpa [Sample.updateService] using he
      subst this
      rfl)

/-! ## C13 -/

/-- C13: for a method whose reply type is of interface kind (the void marker) and a
request that decodes to `v` and validates, the handler calls the method once with the
nil reply pointer; it returns no content and no error when the method returns nil, and
no content and the error of the method when the method returns an error. -/
theorem invokeWarpper_void_result (P : Program) (R : Runtime) (mtype : MethodType)
    (data : List Nat) (v : GoValue) (hvoid : P.kind mtype.replyType = Kind.Interface)
    (hd : R.unmarshal data (P.elem mtype.argType) = Except.ok v)
    (hv : validParam R (GoValue.ptr v) = none) :
    (∀ target, R.call mtype.method.fn (GoValue.ptr v) none = Exec.returned (none, target) →
      invokeWarpper P R mtype data =
        Exec.returned { content := none, err := none, calls := [(GoValue.ptr v, none)],
                        mtype := mtype }) ∧
    (∀ err target,
      R.call mtype.method.fn (GoValue.ptr v) none = Exec.returned (some err, target) →
      invokeWarpper P R mtype data =
        Exec.returned { content := none, err := some err, calls := [(GoValue.ptr v, none)],
                        mtype := mtype }) := by
  have ha : allocReply P mtype = none := by simp [allocReply, hvoid]
  constructor
  · intro target hc
    unfold invokeWarpper
    simp only [hd, hv, ha, hc]
  · intro err target hc
    unfold invokeWarpper
    simp only [hd, hv, ha, hc]

/-- C13 (witness): the handler of `UpdateInfo` with the sample runtime, whose methods
return nil. -/
theorem invokeWarpper_void_result_witness :
    invokeWarpper Sample.program Sample.runtime Sample.updateInfoType [123, 125] =
      Exec.returned { content := none, err := none,
                      calls := [(GoValue.ptr (GoValue.struct 2), none)],
                      mtype := Sample.updateInfoType } :=
  (invokeWarpper_void_result Sample.program Sample.runtime Sample.updateInfoType [123, 125]
    (GoValue.struct 2) rfl rfl rfl).1 (ReplyTarget.stored 0) rfl



/-! ## The method table -/

theorem ofRunes_runesOf (s : GoString) (h : validString s = true) : ofRunes (runesOf s) = s := by
  induction s with
  | nil => rfl
  | cons it rest ih =>
    cases it with
    | rune c =>
      have hr : validString rest = true := by simpa [validString] using h
      have := ih hr
      simp only [runesOf, ofRunes, List.map_cons, List.map_map] at this ⊢
      rw [this]
    | bad b => simp [validString] at h

/-- The converter never fails. -/
theorem camelToLowerStyle_total (T : UnicodeTables) (s : GoString) :
    ∃ r, camelToLowerStyle T s = some r := by
  by_cases hv : validString s = true
  · obtain ⟨names, hn⟩ := camelSplit_total T (runesOf s)
    rw [ofRunes_runesOf s hv] at hn
    exact ⟨_, by unfold camelToLowerStyle; rw [hn]⟩
  · have hs : camelSplit T s = some [s] := by
      unfold camelSplit
      simp [hv]
    exact ⟨_, by unfold camelToLowerStyle; rw [hs]⟩

/-- One step of the scan assigns the entry of the method, if it has one. -/
theorem methodStep_eq (T : UnicodeTables) (P : Program) (fuel : Nat)
    (methods methods1 : GoMap MethodType) (m : Method)
    (h : methodStep T P fuel methods m = some (Exec.returned methods1)) :
    methods1 = mapSetAll methods (entryOf T P fuel m).toList := by
  unfold methodStep at h
  repeat' split at h
  all_goals first
    | (simp at h; done)
    | (simp only [Option.some.injEq, Exec.returned.injEq] at h; subst h
       simp_all [entryOf, eligible, mapSetAll, descriptorOf]; done)
    | (simp only [Option.some.injEq, Exec.returned.injEq] at h; subst h
       simp_all [entryOf, eligible, mapSetAll, descriptorOf]
       split_ifs with hc
       · rfl
       · exfalso; tauto)

theorem methodLoop_eq (T : UnicodeTables) (P : Program) (fuel : Nat) (l : List Method) :
    ∀ (methods table : GoMap MethodType),
      methodLoop T P fuel l methods = some (Exec.returned table) →
      table = mapSetAll methods (l.filterMap (entryOf T P fuel)) := by
  induction l with
  | nil =>
    intro methods table h
    simp only [methodLoop, Option.some.injEq, Exec.returned.injEq] at h
    subst h; rfl
  | cons m rest ih =>
    intro methods table h
    unfold methodLoop at h
    cases hs : methodStep T P fuel methods m with
    | none => simp [hs] at h
    | some r =>
      cases r with
      | panicked => simp [hs] at h
      | exited => simp [hs] at h
      | returned methods1 =>
        simp only [hs] at h
        rw [ih methods1 table h, methodStep_eq T P fuel methods methods1 m hs]
        cases he : entryOf T P fuel m <;> simp [mapSetAll, List.filterMap_cons, he]

/-- The table of `suitableMethods` is the result of assigning the entries of the eligible
methods, in method order, to an empty map. -/
theorem suitableMethods_eq (T : UnicodeTables) (P : Program) (fuel : Nat) (typ : GoType)
    (table : GoMap MethodType) (h : suitableMethods T P fuel typ = some (Exec.returned table)) :
    table = mapSetAll [] ((P.methods typ).filterMap (entryOf T P fuel)) :=
  methodLoop_eq T P fuel (P.methods typ) [] table h

theorem keys_mapSet {α : Type} (m : GoMap α) (k : GoString) (v : α) :
    (mapSet m k v).map Prod.fst =
      if k ∈ m.map Prod.fst then m.map Prod.fst else m.map Prod.fst ++ [k] := by
  induction m with
  | nil => simp [mapSet]
  | cons p rest ih =>
    obtain ⟨k1, v1⟩ := p
    unfold mapSet
    by_cases hk : k1 = k
    · simp [hk]
    · have hk2 : ¬ k = k1 := fun h => hk h.symm
      simp only [hk, if_false, List.map_cons, ih, List.mem_cons, hk2, false_or]
      split_ifs <;> simp

theorem nodup_keys_mapSet {α : Type} (m : GoMap α) (k : GoString) (v : α)
    (h : (m.map Prod.fst).Nodup) : ((mapSet m k v).map Prod.fst).Nodup := by
  rw [keys_mapSet]
  split_ifs with hk
  · exact h
  · exact List.Nodup.append h (List.nodup_singleton k) (by
      intro a ha hb
      simp only [List.mem_singleton] at hb
      subst hb; exact hk ha)

theorem mem_keys_mapSet {α : Type} (m : GoMap α) (k : GoString) (v : α) (a : GoString) :
    a ∈ (mapSet m k v).map Prod.fst ↔ a = k ∨ a ∈ m.map Prod.fst := by
  rw [keys_mapSet]
  split_ifs with hk
  · constructor
    · exact Or.inr
    · rintro (rfl | h)
      · exact hk
      · exact h
  · simp only [List.mem_append, List.mem_singleton]
    tauto

theorem mapGet_mapSet {α : Type} (m : GoMap α) (k : GoString) (v : α) (a : GoString) :
    mapGet (mapSet m k v) a = if k = a then some v else mapGet m a := by
  induction m with
  | nil => simp [mapSet, mapGet]
  | cons p rest ih =>
    obtain ⟨k1, v1⟩ := p
    unfold mapSet
    by_cases hk : k1 = k
    · subst hk
      by_cases ha : k1 = a <;> simp [mapGet, ha]
    · simp only [hk, if_false, mapGet, ih]
      by_cases ha : k1 = a
      · have : ¬ k = a := fun h => hk (ha.trans h.symm)
        simp [ha, this]
      · simp [ha]

theorem nodup_keys_mapSetAll {α : Type} (es : List (GoString × α)) :
    ∀ m : GoMap α, (m.map Prod.fst).Nodup → ((mapSetAll m es).map Prod.fst).Nodup := by
  induction es with
  | nil => intro m h; exact h
  | cons e es ih =>
    intro m h
    exact ih (mapSet m e.1 e.2) (nodup_keys_mapSet m e.1 e.2 h)

theorem mem_keys_mapSetAll {α : Type} (es : List (GoString × α)) (a : GoString) :
    ∀ m : GoMap α,
      a ∈ (mapSetAll m es).map Prod.fst ↔ a ∈ es.map Prod.fst ∨ a ∈ m.map Prod.fst := by
  induction es with
  | nil => intro m; simp [mapSetAll]
  | cons e es ih =>
    intro m
    have := ih (mapSet m e.1 e.2)
    simp only [mapSetAll, List.foldl_cons] at this ⊢
    rw [this, mem_keys_mapSet]
    simp only [List.map_cons, List.mem_cons]
    tauto

/-- The value of a key after the assignments is that of the last assignment to it. -/
theorem mapGet_mapSetAll_last {α : Type} (pre post : List (GoString × α)) (k : GoString)
    (v : α) (hpost : ∀ e ∈ post, e.1 ≠ k) :
    ∀ m : GoMap α, mapGet (mapSetAll m (pre ++ (k, v) :: post)) k = some v := by
  have hp : ∀ (post : List (GoString × α)), (∀ e ∈ post, e.1 ≠ k) →
      ∀ m : GoMap α, mapGet (mapSetAll m post) k = mapGet m k := by
    intro post
    induction post with
    | nil => intro _ m; rfl
    | cons e post ih =>
      intro h m
      have he : ¬ e.1 = k := h e (List.mem_cons_self _ _)
      have := ih (fun x hx => h x (List.mem_cons_of_mem _ hx)) (mapSet m e.1 e.2)
      simp only [mapSetAll, List.foldl_cons] at this ⊢
      rw [this, mapGet_mapSet, if_neg he]
  intro m
  have hsplit : mapSetAll m (pre ++ (k, v) :: post) =
      mapSetAll (mapSet (mapSetAll m pre) k v) post := by
    simp [mapSetAll, List.foldl_append]
  rw [hsplit, hp post hpost, mapGet_mapSet, if_pos rfl]

theorem mapGet_of_mem {α : Type} (m : GoMap α) (h : (m.map Prod.fst).Nodup) (k : GoString)
    (v : α) : (k, v) ∈ m ↔ mapGet m k = some v := by
  induction m with
  | nil => simp [mapGet]
  | cons p rest ih =>
    obtain ⟨k1, v1⟩ := p
    have hn := List.nodup_cons.1 h
    have ih2 := ih hn.2
    by_cases hk : k1 = k
    · subst hk
      simp only [mapGet, if_true, Option.some.injEq, List.mem_cons, Prod.mk.injEq, true_and]
      constructor
      · rintro (h1 | h1)
        · exact h1.symm
        · exact absurd (List.mem_map.2 ⟨(k1, v), h1, rfl⟩) hn.1
      · intro h1; exact Or.inl h1.symm
    · have hk2 : ¬ k = k1 := fun h => hk h.symm
      simp only [mapGet, hk, if_false, List.mem_cons, Prod.mk.injEq, hk2, false_and, false_or]
      exact ih2

theorem filter_key_of_mem {α : Type} (m : GoMap α) (h : (m.map Prod.fst).Nodup)
    (k : GoString) (v : α) (hm : (k, v) ∈ m) :
    m.filter (fun e => decide (e.1 = k)) = [(k, v)] := by
  induction m with
  | nil => simp at hm
  | cons p rest ih =>
    obtain ⟨k1, v1⟩ := p
    have hn := List.nodup_cons.1 h
    rcases List.mem_cons.1 hm with h1 | h1
    · have hk : k1 = k := (Prod.mk.inj h1).1.symm
      have hv : v1 = v := (Prod.mk.inj h1).2.symm
      subst hk; subst hv
      have hrest : rest.filter (fun e => decide (e.1 = k1)) = [] := by
        apply List.filter_eq_nil_iff.2
        intro e he
        have : e.1 ≠ k1 := fun heq => hn.1 (List.mem_map.2 ⟨e, he, heq⟩)
        simpa using this
      simp [List.filter_cons, hrest]
    · have hk : ¬ k1 = k := by
        intro heq
        exact hn.1 (List.mem_map.2 ⟨(k, v), h1, heq.symm⟩)
      simp only [List.filter_cons, hk, decide_False, Bool.false_eq_true, if_false]
      exact ih hn.2 h1


theorem entryOf_some_iff (T : UnicodeTables) (P : Program) (fuel : Nat) (m : Method)
    (k : GoString) (mt : MethodType) :
    entryOf T P fuel m = some (k, mt) ↔
      eligible T P fuel m = true ∧ camelToLowerStyle T m.name = some k ∧
        mt = descriptorOf m := by
  unfold entryOf
  by_cases he : eligible T P fuel m = true
  · simp only [he, if_true, true_and]
    cases camelToLowerStyle T m.name with
    | none => simp
    | some r =>
      simp only [Option.map_some', Option.some.injEq, Prod.mk.injEq]
      constructor
      · rintro ⟨h1, h2⟩; exact ⟨h1, h2.symm⟩
      · rintro ⟨h1, h2⟩; exact ⟨h1, h2.symm⟩
  · simp [he]

theorem mem_wireNames (T : UnicodeTables) (P : Program) (fuel : Nat) (typ : GoType)
    (k : GoString) :
    k ∈ wireNames T P fuel typ ↔
      ∃ m ∈ P.methods typ, eligible T P fuel m = true ∧ camelToLowerStyle T m.name = some k := by
  unfold wireNames
  simp only [List.mem_map, List.mem_filterMap, Prod.exists, exists_and_right, exists_eq_right]
  constructor
  · rintro ⟨mt, m, hm, he⟩
    rw [entryOf_some_iff] at he
    exact ⟨m, hm, he.1, he.2.1⟩
  · rintro ⟨m, hm, he, hk⟩
    exact ⟨descriptorOf m, m, hm, (entryOf_some_iff T P fuel m k _).2 ⟨he, hk, rfl⟩⟩

/-- The keys of the table are the wire names of the eligible methods, each once. -/
theorem suitableMethods_keys (T : UnicodeTables) (P : Program) (fuel : Nat) (typ : GoType)
    (table : GoMap MethodType) (h : suitableMethods T P fuel typ = some (Exec.returned table)) :
    (table.map Prod.fst).Nodup ∧ ∀ k, k ∈ table.map Prod.fst ↔ k ∈ wireNames T P fuel typ := by
  rw [suitableMethods_eq T P fuel typ table h]
  refine ⟨nodup_keys_mapSetAll _ [] List.nodup_nil, fun k => ?_⟩
  rw [mem_keys_mapSetAll]
  simp [wireNames]

/-! ## C19 -/

/-- C19: in the table that `suitableMethods` returns, the wire name `k` of an eligible
method `m` that no later eligible method converts to (so `m` is the later one of any
methods that collide on `k`) has exactly one entry, bound to `m`; and the number of
entries of the table is the number of distinct wire names of eligible methods. -/
theorem suitableMethods_last_wins (T : UnicodeTables) (P : Program) (fuel : Nat)
    (typ : GoType) (table : GoMap MethodType) (pre post : List Method) (m : Method)
    (k : GoString)
    (hscan : suitableMethods T P fuel typ = some (Exec.returned table))
    (hm : P.methods typ = pre ++ m :: post)
    (helig : eligible T P fuel m = true) (hk : camelToLowerStyle T m.name = some k)
    (hlast : ∀ m1 ∈ post, eligible T P fuel m1 = true → camelToLowerStyle T m1.name ≠ some k) :
    table.filter (fun e => decide (e.1 = k)) = [(k, descriptorOf m)] ∧
    table.length = (wireNames T P fuel typ).dedup.length := by
  have hkeys := suitableMethods_keys T P fuel typ table hscan
  constructor
  · apply filter_key_of_mem table hkeys.1
    rw [mapGet_of_mem table hkeys.1, suitableMethods_eq T P fuel typ table hscan, hm,
      List.filterMap_append, List.filterMap_cons,
      (entryOf_some_iff T P fuel m k _).2 ⟨helig, hk, rfl⟩]
    apply mapGet_mapSetAll_last
    intro e he
    obtain ⟨m1, hm1, he1⟩ := List.mem_filterMap.1 he
    obtain ⟨k1, mt1⟩ := e
    rw [entryOf_some_iff] at he1
    intro heq
    exact hlast m1 hm1 he1.1 (by rw [he1.2.1]; exact congrArg some heq)
  · have hperm : (table.map Prod.fst).Perm (wireNames T P fuel typ).dedup := by
      rw [List.perm_ext_iff_of_nodup hkeys.1 (List.nodup_dedup _)]
      intro a
      rw [hkeys.2 a, List.mem_dedup]
    have := hperm.length_eq
    simpa using this

/-- C19 (witness): `*UrlServer` has the eligible methods `GetURL` and, after it,
`GetUrl`; both convert to "get_url". -/
theorem suitableMethods_last_wins_witness :
    [(go "get_url", descriptorOf (Sample.updateInfo (go "GetUrl") Sample.tUrlServer 6))].filter
        (fun e => decide (e.1 = go "get_url")) =
      [(go "get_url", descriptorOf (Sample.updateInfo (go "GetUrl") Sample.tUrlServer 6))] ∧
    [(go "get_url", descriptorOf (Sample.updateInfo (go "GetUrl") Sample.tUrlServer 6))].length =
      (wireNames asciiTables Sample.program 1 (GoType.ptr Sample.tUrlServer)).dedup.length :=
  suitableMethods_last_wins asciiTables Sample.program 1 (GoType.ptr Sample.tUrlServer)
    [(go "get_url", descriptorOf (Sample.updateInfo (go "GetUrl") Sample.tUrlServer 6))]
    [Sample.updateInfo (go "GetURL") Sample.tUrlServer 5] []
    (Sample.updateInfo (go "GetUrl") Sample.tUrlServer 6) (go "get_url")
    rfl rfl rfl rfl (by intro m1 h1; simp at h1)

/-! ## C14 -/

/-- C14 (counterexample): `*MixedServer` has the ineligible method `Close() error` and
the eligible method `GetLoginKind` of dapr_test.go; `registMethods` does not return nil
but panics, in the extraction of the field `CreateAt time.Time` of the result type
`GetLoginKindResponse`. -/
theorem registMethods_mixed_service_panics :
    Sample.program.methods (GoType.ptr Sample.tMixedServer) =
      [Sample.closeOf Sample.tMixedServer, Sample.getLoginKindOf Sample.tMixedServer] ∧
    eligible asciiTables Sample.program 3 (Sample.closeOf Sample.tMixedServer) = false ∧
    eligible asciiTables Sample.program 3 (Sample.getLoginKindOf Sample.tMixedServer) = true ∧
    (∀ ρ : RangeOrder,
      registMethods asciiTables Sample.program 3 ρ newDaprServer (go "className")
        (some { typ := GoType.ptr Sample.tMixedServer, isNil := false }) =
          some Exec.panicked) := by
  refine ⟨rfl, rfl, rfl, ?_⟩
  intro ρ
  have hreg : register asciiTables Sample.program 3 newDaprServer
      (some { typ := GoType.ptr Sample.tMixedServer, isNil := false }) (go "className") true =
        some (Exec.returned (none,
          { svcName := go "className",
            service := some
              { name := go "className",
                rcvr := { typ := GoType.ptr Sample.tMixedServer, isNil := false },
                typ := GoType.ptr Sample.tMixedServer,
                method := [(go "get_login_kind",
                  descriptorOf (Sample.getLoginKindOf Sample.tMixedServer))] },
            signature := none })) := rfl
  unfold registMethods
  rw [if_neg (by decide), hreg]
  have hv := visit_single ρ
    (go "get_login_kind", descriptorOf (Sample.getLoginKindOf Sample.tMixedServer))
  have hsig : getSignature Sample.program 3 ρ
      { svcName := go "className",
        service := some
          { name := go "className",
            rcvr := { typ := GoType.ptr Sample.tMixedServer, isNil := false },
            typ := GoType.ptr Sample.tMixedServer,
            method := [(go "get_login_kind",
              descriptorOf (Sample.getLoginKindOf Sample.tMixedServer))] },
        signature := none } = some Exec.panicked := by
    unfold getSignature
    simp only [hv]
    rfl
  simp only [hsig]

/-- C14 (amended): for a service object that is not a nil pointer, with at least one
eligible method, whatever its ineligible methods, and a non-empty service name: when the
scan ends with the table `table` and the types of every registered method extract (the
argument type, and the reply type when it is a pointer), `registMethods` returns nil
and the server holds the service name, the method table and a signature; in whatever
order the method map is visited, the signature has one entry per entry of the table,
that is exactly one entry for each wire name of an eligible method, and no other
entry. -/
theorem registMethods_eligible_methods (T : UnicodeTables) (P : Program) (fuel : Nat)
    (ρ : RangeOrder) (server : DaprServer) (className : GoString) (svr : Receiver)
    (table : GoMap MethodType)
    (hname : className ≠ go "")
    (hobj : ¬ (P.kind svr.typ = Kind.Ptr ∧ svr.isNil = true))
    (hscan : suitableMethods T P fuel svr.typ = some (Exec.returned table))
    (helig : ∃ m ∈ P.methods svr.typ, eligible T P fuel m = true)
    (hext : ∀ e ∈ table, extracts P fuel e = true) :
    ∃ spec,
      registMethods T P fuel ρ server className (some svr) =
        some (Exec.returned (none,
          { svcName := className,
            service := some { name := className, rcvr := svr, typ := svr.typ, method := table },
            signature := some { apiVersion := className, spec := some spec } })) ∧
      List.Forall₂ (SigEntry P fuel) (ρ.visit table) spec ∧
      (spec.map fun r => r.name).Nodup ∧
      ∀ k, k ∈ (spec.map fun r => r.name) ↔
        ∃ m ∈ P.methods svr.typ, eligible T P fuel m = true ∧
          camelToLowerStyle T m.name = some k := by
  have hkeys := suitableMethods_keys T P fuel svr.typ table hscan
  have hne : table.length ≠ 0 := by
    obtain ⟨m, hm, he⟩ := helig
    obtain ⟨k, hk⟩ := camelToLowerStyle_total T m.name
    have : k ∈ table.map Prod.fst :=
      (hkeys.2 k).2 ((mem_wireNames T P fuel svr.typ k).2 ⟨m, hm, he, hk⟩)
    intro h0
    have hnil : table = [] := List.length_eq_zero.1 h0
    rw [hnil] at this
    simp at this
  have hreg : register T P fuel server (some svr) className true =
      some (Exec.returned (none,
        { svcName := className,
          service := some { name := className, rcvr := svr, typ := svr.typ, method := table },
          signature := server.signature })) := by
    unfold register receiverTypeName
    by_cases hk : P.kind svr.typ = Kind.Ptr
    · have hn : svr.isNil = false := by
        cases hnil : svr.isNil with
        | false => rfl
        | true => exact absurd ⟨hk, hnil⟩ hobj
      simp only [hk, hn, if_true, Bool.false_eq_true, if_false, hname, hscan, hne,
        Bool.not_true, Bool.and_false]
    · simp only [hk, if_false, if_true, Bool.false_eq_true, hname, hscan, hne,
        Bool.not_true, Bool.and_false]
  obtain ⟨spec, hspec, hall⟩ := getSignature_returns P fuel ρ
    { svcName := className,
      service := some { name := className, rcvr := svr, typ := svr.typ, method := table },
      signature := server.signature }
    { name := className, rcvr := svr, typ := svr.typ, method := table } rfl hext
  have hnames := names_of_sigEntries P fuel _ spec hall
  have hperm : (spec.map fun r => r.name).Perm (table.map Prod.fst) := by
    rw [hnames]
    exact (ρ.perm table).map Prod.fst
  refine ⟨spec, ?_, hall, ?_, ?_⟩
  · unfold registMethods
    simp only [hname, if_false, hreg, hspec]
  · exact hperm.nodup_iff.2 hkeys.1
  · intro k
    rw [hperm.mem_iff, hkeys.2 k, mem_wireNames]

/-- C14 (witness): `*UpdateServer` has the ineligible method `Close() error` and the
eligible method `UpdateInfo` (as in exmaple/main.go). -/
theorem registMethods_eligible_methods_witness :
    ∃ spec,
      registMethods asciiTables Sample.program 3 RangeOrder.reversed newDaprServer
          (go "className") (some { typ := GoType.ptr Sample.tUpdateServer, isNil := false }) =
        some (Exec.returned (none,
          { svcName := go "className",
            service := some { name := go "className",
                              rcvr := { typ := GoType.ptr Sample.tUpdateServer, isNil := false },
                              typ := GoType.ptr Sample.tUpdateServer,
                              method := [(go "update_info", Sample.updateInfoType)] },
            signature := some { apiVersion := go "className", spec := some spec } })) ∧
      List.Forall₂ (SigEntry Sample.program 3)
        (RangeOrder.reversed.visit [(go "update_info", Sample.updateInfoType)]) spec ∧
      (spec.map fun r => r.name).Nodup ∧
      ∀ k, k ∈ (spec.map fun r => r.name) ↔
        ∃ m ∈ Sample.program.methods (GoType.ptr Sample.tUpdateServer),
          eligible asciiTables Sample.program 3 m = true ∧
            camelToLowerStyle asciiTables m.name = some k :=
  registMethods_eligible_methods asciiTables Sample.program 3 RangeOrder.reversed newDaprServer
    (go "className")
    { typ := GoType.ptr Sample.tUpdateServer, isNil := false }
    [(go "update_info", Sample.updateInfoType)]
    (by decide) (by decide) rfl
    ⟨Sample.updateInfo (go "UpdateInfo") Sample.tUpdateServer 2,
      List.mem_cons_of_mem _ (List.mem_cons_self _ _), rfl⟩
    (by
      intro e he
      have : e = (go "update_info", Sample.updateInfoType) := by simpa using he
      subst this
      rfl)



/-! ## C15 -/

/-- A word: an upper-case ASCII letter followed by one or more lower-case ASCII
letters. -/
theorem runs_words (T : UnicodeTables) (hT : AsciiStandard T) (ws : List (Char × List Char))
    (hw : ∀ w ∈ ws, w.1.isUpper = true ∧ w.2 ≠ [] ∧ ∀ c ∈ w.2, c.isLower = true) :
    runs T (joinWith (ws.map fun w => w.1 :: w.2) []) = wordRuns ws := by
  have hup : ∀ c : Char, c.isUpper = true → runeClass T c = 2 := by
    intro c hc
    have hc2 := (isUpper_iff c).1 hc
    have hs := hT c (by omega)
    have hl : c.isLower = false := by
      have : ¬ c.isLower = true := by rw [isLower_iff]; omega
      simpa using this
    simp [runeClass, hs.1, hs.2.1, hc, hl]
  induction ws with
  | nil => rfl
  | cons w rest ih =>
    have hw1 := hw w (List.mem_cons_self _ _)
    have hrest : ∀ x ∈ rest, x.1.isUpper = true ∧ x.2 ≠ [] ∧ ∀ c ∈ x.2, c.isLower = true :=
      fun x hx => hw x (List.mem_cons_of_mem _ hx)
    have hj : joinWith ((w :: rest).map fun w => w.1 :: w.2) [] =
        [w.1] ++ (w.2 ++ joinWith (rest.map fun w => w.1 :: w.2) []) := by
      cases rest with
      | nil => simp [joinWith]
      | cons x xs => simp [joinWith]
    obtain ⟨l0, ls, hl⟩ := List.exists_cons_of_ne_nil hw1.2.1
    rw [hj, runs_append T 2 [w.1] _ (by simp), runs_append T 1 w.2 _ hw1.2.1, ih hrest]
    · rfl
    · intro c hc
      exact runeClass_of_isLower T hT c (hw1.2.2 c hc)
    · intro y hy
      cases rest with
      | nil => simp [joinWith] at hy
      | cons x xs =>
        have hx := hw x (by simp)
        have : y = x.1 := by
          cases xs with
          | nil => simpa [joinWith] using hy.symm
          | cons x2 xs2 => simpa [joinWith] using hy.symm
        rw [this, hup x.1 hx.1]; decide
    · intro c hc
      simp only [List.mem_singleton] at hc
      subst hc; exact hup _ hw1.1
    · intro y hy
      rw [hl] at hy
      simp only [List.cons_append, List.head?_cons, Option.some.injEq] at hy
      subst hy
      rw [runeClass_of_isLower T hT l0 (hw1.2.2 l0 (by rw [hl]; simp))]; decide

theorem fixFrom_move (T : UnicodeTables) (a0 : Char) (as : List Char) (b0 : Char)
    (bs : List Char) (rest : List (List Char)) (z : Char) (hu : T.isUpper a0 = true)
    (hl : T.isLower b0 = true) (hz : (a0 :: as).getLast? = some z) :
    fixFrom T (a0 :: as) ((b0 :: bs) :: rest) =
      (fixFrom T (z :: b0 :: bs) rest).map fun out => (a0 :: as).dropLast :: out := by
  rw [fixFrom]
  simp only [List.head?_cons, hu, hl, if_true, hz]

theorem fixFrom_keep (T : UnicodeTables) (a0 : Char) (as : List Char) (b0 : Char)
    (bs : List Char) (rest : List (List Char)) (hl : T.isLower b0 = false) :
    fixFrom T (a0 :: as) ((b0 :: bs) :: rest) =
      (fixFrom T (b0 :: bs) rest).map fun out => (a0 :: as) :: out := by
  rw [fixFrom]
  simp only [List.head?_cons, hl, Bool.false_eq_true, if_false]
  split_ifs <;> rfl

theorem fixFrom_words (T : UnicodeTables) (hT : AsciiStandard T) (ws : List (Char × List Char))
    (hw : ∀ w ∈ ws, w.1.isUpper = true ∧ w.2 ≠ [] ∧ ∀ c ∈ w.2, c.isLower = true) :
    ∀ (u : Char) (l : List Char), u.isUpper = true → l ≠ [] → (∀ c ∈ l, c.isLower = true) →
      fixFrom T [u] (l :: wordRuns ws) = some ([] :: (u :: l) :: wordFixed ws) := by
  have hupT : ∀ c : Char, c.isUpper = true → T.isUpper c = true ∧ T.isLower c = false := by
    intro c hc
    have hc2 := (isUpper_iff c).1 hc
    have hs := hT c (by omega)
    have hl : c.isLower = false := by
      have : ¬ c.isLower = true := by rw [isLower_iff]; omega
      simpa using this
    exact ⟨by rw [hs.2.1]; exact hc, by rw [hs.1]; exact hl⟩
  have hlowT : ∀ c : Char, c.isLower = true → T.isLower c = true := by
    intro c hc
    rw [(hT c (ascii_of_isLower c hc)).1]; exact hc
  induction ws with
  | nil =>
    intro u l hu hl hlc
    obtain ⟨l0, ls, rfl⟩ := List.exists_cons_of_ne_nil hl
    rw [wordRuns, fixFrom_move T u [] l0 ls [] u (hupT u hu).1 (hlowT l0 (hlc l0 (by simp))) rfl]
    rfl
  | cons w rest ih =>
    intro u l hu hl hlc
    have hw1 := hw w (List.mem_cons_self _ _)
    have hrest : ∀ x ∈ rest, x.1.isUpper = true ∧ x.2 ≠ [] ∧ ∀ c ∈ x.2, c.isLower = true :=
      fun x hx => hw x (List.mem_cons_of_mem _ hx)
    obtain ⟨l0, ls, rfl⟩ := List.exists_cons_of_ne_nil hl
    have h2 := ih hrest w.1 w.2 hw1.1 hw1.2.1 hw1.2.2
    rw [wordRuns, fixFrom_move T u [] l0 ls _ u (hupT u hu).1 (hlowT l0 (hlc l0 (by simp))) rfl,
      fixFrom_keep T u (l0 :: ls) w.1 [] _ (hupT w.1 hw1.1).2, h2]
    rfl

theorem collectEntries_wordFixed (ws : List (Char × List Char)) :
    collectEntries (wordFixed ws) = ws.map fun w => ofRunes (w.1 :: w.2) := by
  induction ws with
  | nil => rfl
  | cons w rest ih =>
    simp only [collectEntries, wordFixed, List.map_cons] at ih ⊢
    simp [List.filter_cons, ih]

/-- The converter on an identifier made of words. -/
theorem camelToLowerStyle_of_words (T : UnicodeTables) (hT : AsciiStandard T)
    (ws : List (Char × List Char))
    (hw : ∀ w ∈ ws, w.1.isUpper = true ∧ w.2 ≠ [] ∧ ∀ c ∈ w.2, c.isLower = true) :
    camelToLowerStyle T (ofRunes (joinWith (ws.map fun w => w.1 :: w.2) [])) =
      some (stringsJoin (ws.map fun w => ofRunes ((w.1 :: w.2).map Char.toLower)) (go "_")) := by
  have hfix : fixLoop T (wordRuns ws) = some (wordFixed ws) := by
    cases ws with
    | nil => rfl
    | cons w rest =>
      have hw1 := hw w (List.mem_cons_self _ _)
      exact fixFrom_words T hT rest (fun x hx => hw x (List.mem_cons_of_mem _ hx))
        w.1 w.2 hw1.1 hw1.2.1 hw1.2.2
  unfold camelToLowerStyle
  rw [camelSplit_ofRunes, runs_words T hT ws hw, hfix, Option.map_some',
    collectEntries_wordFixed]
  simp only [List.map_map]
  congr 2
  apply List.map_congr_left
  intro w hwm
  have hw1 := hw w hwm
  simp only [Function.comp, stringsToLower_ofRunes]
  congr 1
  apply List.map_congr_left
  intro c hc
  rcases List.mem_cons.1 hc with h | hc
  · have hc2 := (isUpper_iff w.1).1 hw1.1
    rw [h]
    exact (hT w.1 (by omega)).2.2.2
  · exact (hT c (ascii_of_isLower c (hw1.2.2 c hc))).2.2.2

/-- C15: for an identifier made of words, each one upper-case ASCII letter `w.1`
followed by one or more lower-case ASCII letters `w.2`, `camelToLowerStyle` returns the
lowered words joined by single underscores; "GetLoginKind" becomes "get_login_kind". -/
theorem camelToLowerStyle_words (T : UnicodeTables) (hT : AsciiStandard T)
    (ws : List (Char × List Char))
    (hw : ∀ w ∈ ws, w.1.isUpper = true ∧ w.2 ≠ [] ∧ ∀ c ∈ w.2, c.isLower = true) :
    camelToLowerStyle T (ofRunes (joinWith (ws.map fun w => w.1 :: w.2) [])) =
      some (stringsJoin (ws.map fun w => ofRunes ((w.1 :: w.2).map Char.toLower)) (go "_")) ∧
    camelToLowerStyle T (go "GetLoginKind") = some (go "get_login_kind") :=
  ⟨camelToLowerStyle_of_words T hT ws hw,
    camelToLowerStyle_of_words T hT
      [('G', ['e', 't']), ('L', ['o', 'g', 'i', 'n']), ('K', ['i', 'n', 'd'])] (by decide)⟩

/-- C15 (witness): the method name of dapr_test.go, "GetLoginKind". -/
theorem camelToLowerStyle_words_witness :
    camelToLowerStyle asciiTables (ofRunes (joinWith
        ([('G', ['e', 't']), ('L', ['o', 'g', 'i', 'n']), ('K', ['i', 'n', 'd'])].map
          fun w => w.1 :: w.2) [])) =
      some (stringsJoin
        ([('G', ['e', 't']), ('L', ['o', 'g', 'i', 'n']), ('K', ['i', 'n', 'd'])].map
          fun w => ofRunes ((w.1 :: w.2).map Char.toLower)) (go "_")) ∧
    camelToLowerStyle asciiTables (go "GetLoginKind") = some (go "get_login_kind") :=
  camelToLowerStyle_words asciiTables asciiStandard_asciiTables
    [('G', ['e', 't']), ('L', ['o', 'g', 'i', 'n']), ('K', ['i', 'n', 'd'])] (by decide)



/-! ## C16 -/

/-- The reply pointer of every call that a handler makes is the one it allocated. -/
theorem invokeWarpper_calls_reply (P : Program) (R : Runtime) (mtype : MethodType)
    (data : List Nat) (r : HandlerResult) (h : invokeWarpper P R mtype data = Exec.returned r) :
    ∀ c ∈ r.calls, c.2 = allocReply P mtype := by
  unfold invokeWarpper at h
  cases hd : R.unmarshal data (P.elem mtype.argType) with
  | error err =>
    simp only [hd, Exec.returned.injEq] at h
    subst h; intro c hc; simp at hc
  | ok v =>
    cases hv : validParam R (GoValue.ptr v) with
    | some err =>
      simp only [hd, hv, Exec.returned.injEq] at h
      subst h; intro c hc; simp at hc
    | none =>
      simp only [hd, hv] at h
      repeat' split at h
      all_goals first
        | (simp at h; done)
        | (simp only [Exec.returned.injEq] at h; subst h
           intro c hc
           simp only [List.mem_singleton] at hc
           subst hc; rfl)

/-- C16 (counterexample): for `GetLoginKind` (dapr_test.go), with the typed result
`*GetLoginKindResponse`, the handler allocates the zero value of
`GetLoginKindResponse`; its field `Kinds []LoginKind` holds a nil slice, not an empty
one. -/
theorem allocReply_struct_fields_nil :
    Sample.program.kind Sample.getLoginKindType.replyType = Kind.Ptr ∧
    allocReply Sample.program Sample.getLoginKindType =
      some (ReplyTarget.zero Sample.tGetLoginKindResponse) ∧
    nilContainerFields Sample.program (ReplyTarget.zero Sample.tGetLoginKindResponse) =
      [Sample.fld "Kinds" (GoType.slice Sample.tLoginKind) "kinds"] := by
  decide

/-- C16 (amended): for a method with a typed result (a reply type that is not of
interface kind), the value that the handler allocates behind the reply pointer, and
passes to the method, is an empty, non-nil map when the reply type points to a type of
map kind, an empty, non-nil slice when it points to a type of slice kind, and otherwise
the zero value of the type pointed to, in which every field of map or slice kind holds
nil. -/
theorem allocReply_typed (P : Program) (R : Runtime) (mtype : MethodType) (data : List Nat)
    (htyped : P.kind mtype.replyType ≠ Kind.Interface) :
    (P.kind (P.elem mtype.replyType) = Kind.Map →
      allocReply P mtype = some (ReplyTarget.emptyMap (P.elem mtype.replyType))) ∧
    (P.kind (P.elem mtype.replyType) = Kind.Slice →
      allocReply P mtype = some (ReplyTarget.emptySlice (P.elem mtype.replyType))) ∧
    (P.kind (P.elem mtype.replyType) ≠ Kind.Map →
      P.kind (P.elem mtype.replyType) ≠ Kind.Slice →
      allocReply P mtype = some (ReplyTarget.zero (P.elem mtype.replyType)) ∧
      nilContainerFields P (ReplyTarget.zero (P.elem mtype.replyType)) =
        (P.fields (P.elem mtype.replyType)).filter fun f =>
          decide (P.kind f.typ = Kind.Map) || decide (P.kind f.typ = Kind.Slice)) ∧
    (∀ r, invokeWarpper P R mtype data = Exec.returned r →
      ∀ c ∈ r.calls, c.2 = allocReply P mtype) := by
  refine ⟨?_, ?_, ?_, invokeWarpper_calls_reply P R mtype data⟩
  · intro hk; simp [allocReply, htyped, hk]
  · intro hk; simp [allocReply, htyped, hk]
  · intro h1 h2
    refine ⟨?_, rfl⟩
    unfold allocReply
    simp only [htyped, if_false]

/-- C16 (witness): the reply of `GetLoginKind`, which points to a struct type. -/
theorem allocReply_typed_witness :
    allocReply Sample.program Sample.getLoginKindType =
      some (ReplyTarget.zero (Sample.program.elem Sample.getLoginKindType.replyType)) ∧
    nilContainerFields Sample.program
        (ReplyTarget.zero (Sample.program.elem Sample.getLoginKindType.replyType)) =
      (Sample.program.fields (Sample.program.elem Sample.getLoginKindType.replyType)).filter
        fun f => decide (Sample.program.kind f.typ = Kind.Map) ||
          decide (Sample.program.kind f.typ = Kind.Slice) :=
  (allocReply_typed Sample.program Sample.runtime Sample.getLoginKindType [] (by decide)).2.2.1
    (by decide) (by decide)

/-! ## C17 -/

theorem isDigitByte_digit (a : Nat) (ha : a < 10) : isDigitByte (48 + a) = true := by
  simp only [isDigitByte, Bool.and_eq_true, decide_eq_true_eq]
  omega

theorem getnum_digits (a b : Nat) (rest : Bytes) (fixed : Bool) (ha : a < 10) (hb : b < 10) :
    getnum ((48 + a) :: (48 + b) :: rest) fixed = Except.ok (a * 10 + b, rest) := by
  simp [getnum, isDigitAt, isDigitByte_digit a ha, isDigitByte_digit b hb]

theorem skip_byte (c : Nat) (rest : Bytes) (hc : c ≠ 32) :
    skip (c :: rest) [c] = Except.ok rest := by
  simp [skip, skipFrom, hc]

theorem skip_space (c : Nat) (rest : Bytes) (hc : c ≠ 32) :
    skip (32 :: c :: rest) [32] = Except.ok (c :: rest) := by
  simp [skip, skipFrom, cutspace, List.dropWhile, hc]

theorem atoi_digits (a b c d : Nat) (ha : a < 10) (hb : b < 10) (hc : c < 10) (hd : d < 10) :
    atoi [48 + a, 48 + b, 48 + c, 48 + d] =
      Except.ok ((((a * 10 + b) * 10 + c) * 10 + d : Nat) : Int) := by
  have h45 : ¬ 48 + a = 45 := by omega
  have h43 : ¬ 48 + a = 43 := by omega
  simp [atoi, h45, h43, isDigitByte_digit a ha, isDigitByte_digit b hb, isDigitByte_digit c hc,
    isDigitByte_digit d hd]

theorem fraction_quote : fraction [34] = (0, [34]) := by
  decide

/-- The parser on a text of the pattern: the numbers that the digits spell, when they
are in range. -/
theorem parseInLocation_digits (loc : Location)
    (y1 y2 y3 y4 m1 m2 d1 d2 h1 h2 n1 n2 s1 s2 : Nat)
    (hy1 : y1 < 10) (hy2 : y2 < 10) (hy3 : y3 < 10) (hy4 : y4 < 10)
    (hm1 : m1 < 10) (hm2 : m2 < 10) (hd1 : d1 < 10) (hd2 : d2 < 10)
    (hh1 : h1 < 10) (hh2 : h2 < 10) (hn1 : n1 < 10) (hn2 : n2 < 10)
    (hs1 : s1 < 10) (hs2 : s2 < 10)
    (hmonth : 1 ≤ m1 * 10 + m2 ∧ m1 * 10 + m2 ≤ 12)
    (hday : 1 ≤ d1 * 10 + d2 ∧
      d1 * 10 + d2 ≤ daysIn (m1 * 10 + m2) ((((y1 * 10 + y2) * 10 + y3) * 10 + y4 : Nat) : Int))
    (hhour : h1 * 10 + h2 < 24) (hminute : n1 * 10 + n2 < 60) (hsecond : s1 * 10 + s2 < 60) :
    parseInLocation loc
      [34, 48 + y1, 48 + y2, 48 + y3, 48 + y4, 45, 48 + m1, 48 + m2, 45, 48 + d1, 48 + d2, 32,
       48 + h1, 48 + h2, 58, 48 + n1, 48 + n2, 58, 48 + s1, 48 + s2, 34] =
      Except.ok (loc.date
        { year := ((((y1 * 10 + y2) * 10 + y3) * 10 + y4 : Nat) : Int),
          month := m1 * 10 + m2, day := d1 * 10 + d2, hour := h1 * 10 + h2,
          minute := n1 * 10 + n2, second := s1 * 10 + s2, nsec := 0 }) := by
  have hq : quote = [34] := rfl
  have hdash : ascii "-" = [45] := rfl
  have hsp : ascii " " = [32] := rfl
  have hcol : ascii ":" = [58] := rfl
  have hdate : parseDate
      [34, 48 + y1, 48 + y2, 48 + y3, 48 + y4, 45, 48 + m1, 48 + m2, 45, 48 + d1, 48 + d2, 32,
       48 + h1, 48 + h2, 58, 48 + n1, 48 + n2, 58, 48 + s1, 48 + s2, 34] =
      Except.ok (((((y1 * 10 + y2) * 10 + y3) * 10 + y4 : Nat) : Int), m1 * 10 + m2,
        d1 * 10 + d2,
        [32, 48 + h1, 48 + h2, 58, 48 + n1, 48 + n2, 58, 48 + s1, 48 + s2, 34]) := by
    unfold parseDate
    rw [hq, skip_byte 34 _ (by decide)]
    have hlen : ¬ ([48 + y1, 48 + y2, 48 + y3, 48 + y4, 45, 48 + m1, 48 + m2, 45, 48 + d1,
        48 + d2, 32, 48 + h1, 48 + h2, 58, 48 + n1, 48 + n2, 58, 48 + s1, 48 + s2, 34].length < 4 ∨
        isDigitAt [48 + y1, 48 + y2, 48 + y3, 48 + y4, 45, 48 + m1, 48 + m2, 45, 48 + d1,
        48 + d2, 32, 48 + h1, 48 + h2, 58, 48 + n1, 48 + n2, 58, 48 + s1, 48 + s2, 34] 0 =
          false) := by
      simp [isDigitAt, isDigitByte_digit y1 hy1]
    have hmr : ¬ (m1 * 10 + m2 ≤ 0 ∨ 12 < m1 * 10 + m2) := by omega
    simp only [hlen, if_false, List.take, List.drop, atoi_digits y1 y2 y3 y4 hy1 hy2 hy3 hy4,
      hdash, skip_byte 45 _ (by decide), getnum_digits m1 m2 _ true hm1 hm2, hmr,
      getnum_digits d1 d2 _ true hd1 hd2]
  have hclock : parseClock
      [32, 48 + h1, 48 + h2, 58, 48 + n1, 48 + n2, 58, 48 + s1, 48 + s2, 34] =
      Except.ok (h1 * 10 + h2, n1 * 10 + n2, s1 * 10 + s2, 0, [34]) := by
    unfold parseClock
    have h32 : 48 + h1 ≠ 32 := by omega
    have hhr : ¬ 24 ≤ h1 * 10 + h2 := by omega
    have hnr : ¬ 60 ≤ n1 * 10 + n2 := by omega
    have hsr : ¬ 60 ≤ s1 * 10 + s2 := by omega
    simp only [hsp, hcol, skip_space _ _ h32, getnum_digits h1 h2 _ false hh1 hh2, hhr, if_false,
      skip_byte 58 _ (by decide), getnum_digits n1 n2 _ true hn1 hn2, hnr,
      getnum_digits s1 s2 _ true hs1 hs2, hsr, fraction_quote]
  unfold parseInLocation
  have hdr : ¬ (d1 * 10 + d2 < 1 ∨
      daysIn (m1 * 10 + m2) ((((y1 * 10 + y2) * 10 + y3) * 10 + y4 : Nat) : Int) <
        d1 * 10 + d2) := by omega
  simp only [hdate, hclock, hq, skip_byte 34 _ (by decide), ne_eq, not_true_eq_false, if_false,
    hdr]

theorem appendInt_two (n : Nat) (h : n < 100) :
    appendInt (n : Int) 2 = [48 + n / 10, 48 + n % 10] := by
  have hneg : ¬ ((n : Int) < 0) := by omega
  simp [appendInt, hneg, h]

theorem appendInt_four (y : Int) (h0 : 0 ≤ y) (h1 : y ≤ 9999) :
    appendInt y 4 =
      [48 + y.natAbs / 1000, 48 + y.natAbs / 100 % 10, 48 + y.natAbs / 10 % 10,
       48 + y.natAbs % 10] := by
  have hneg : ¬ (y < 0) := by omega
  have hu : y.natAbs < 10000 := by omega
  simp [appendInt, hneg, hu]

/-- The bytes that `MarshalJSON` returns for a reading in range with a year from 0 to
9999. -/
theorem MarshalJSON_bytes (t : JSONTime) (hr : t.inRange = true)
    (hy : 0 ≤ t.year ∧ t.year ≤ 9999) :
    (MarshalJSON t).1 =
      [34, 48 + t.year.natAbs / 1000, 48 + t.year.natAbs / 100 % 10,
       48 + t.year.natAbs / 10 % 10, 48 + t.year.natAbs % 10, 45,
       48 + t.month / 10, 48 + t.month % 10, 45, 48 + t.day / 10, 48 + t.day % 10, 32,
       48 + t.hour / 10, 48 + t.hour % 10, 58, 48 + t.minute / 10, 48 + t.minute % 10, 58,
       48 + t.second / 10, 48 + t.second % 10, 34] := by
  simp only [JSONTime.inRange, Bool.and_eq_true, decide_eq_true_eq] at hr
  obtain ⟨⟨⟨⟨⟨⟨⟨hm1, hm2⟩, hd1⟩, hd2⟩, hh⟩, hmin⟩, hs⟩, _⟩ := hr
  have hdi : daysIn t.month t.year ≤ 31 := by
    unfold daysIn
    split_ifs <;> omega
  have hq : quote = [34] := rfl
  have hdash : ascii "-" = [45] := rfl
  have hsp : ascii " " = [32] := rfl
  have hcol : ascii ":" = [58] := rfl
  simp only [MarshalJSON, timeFormat, appendInt_four t.year hy.1 hy.2,
    appendInt_two t.month (by omega), appendInt_two t.day (by omega),
    appendInt_two t.hour (by omega), appendInt_two t.minute (by omega),
    appendInt_two t.second (by omega), hq, hdash, hsp, hcol, List.cons_append, List.nil_append,
    List.append_nil]

/-- C17 (counterexample): the time 2021-03-14 02:30:00 UTC in a process whose local time
zone is America/New_York.  `MarshalJSON` returns "2021-03-14 02:30:00" in quotation
marks; `UnmarshalJSON` of these bytes succeeds, but no time has that reading in the
local zone and the decoded value reads 01:30:00 (or 03:30:00, should `time.Date` choose
the other zone); marshalling it again yields "2021-03-14 01:30:00" (or
"2021-03-14 03:30:00"), in both cases other bytes. -/
theorem MarshalJSON_gap_not_round_trip :
    Sample.halfPastTwo.inRange = true ∧
    (MarshalJSON Sample.halfPastTwo).1 = quote ++ ascii "2021-03-14 02:30:00" ++ quote ∧
    UnmarshalJSON (Sample.newYork false) (MarshalJSON Sample.halfPastTwo).1 =
      ({ year := 2021, month := 3, day := 14, hour := 1, minute := 30, second := 0,
         nsec := 0 }, none) ∧
    (MarshalJSON (UnmarshalJSON (Sample.newYork false) (MarshalJSON Sample.halfPastTwo).1).1).1 =
      quote ++ ascii "2021-03-14 01:30:00" ++ quote ∧
    (MarshalJSON (UnmarshalJSON (Sample.newYork false) (MarshalJSON Sample.halfPastTwo).1).1).1 ≠
      (MarshalJSON Sample.halfPastTwo).1 ∧
    UnmarshalJSON (Sample.newYork true) (MarshalJSON Sample.halfPastTwo).1 =
      ({ year := 2021, month := 3, day := 14, hour := 3, minute := 30, second := 0,
         nsec := 0 }, none) ∧
    (MarshalJSON (UnmarshalJSON (Sample.newYork true) (MarshalJSON Sample.halfPastTwo).1).1).1 =
      quote ++ ascii "2021-03-14 03:30:00" ++ quote ∧
    (MarshalJSON (UnmarshalJSON (Sample.newYork true) (MarshalJSON Sample.halfPastTwo).1).1).1 ≠
      (MarshalJSON Sample.halfPastTwo).1 := by
  decide

/-- C17 (amended): for a `JSONTime` whose reading is in range with a year from 0 to
9999, and any local time zone, `MarshalJSON` returns, without error, a quoted string in
the pattern `YYYY-MM-DD HH:MM:SS`; `UnmarshalJSON` of these bytes succeeds and gives
what `time.Date` makes of the reading, cut to the second, in the local zone; and when
some time has that reading in the local zone, as for every time that is in the local
zone, marshalling the decoded value again yields the same bytes. -/
theorem MarshalJSON_round_trip (loc : Location) (t : JSONTime) (hr : t.inRange = true)
    (hy : 0 ≤ t.year ∧ t.year ≤ 9999) :
    (MarshalJSON t).2 = none ∧
    quotedPattern (MarshalJSON t).1 = true ∧
    UnmarshalJSON loc (MarshalJSON t).1 = (loc.date t.toSecond, none) ∧
    (loc.date t.toSecond = t.toSecond →
      MarshalJSON (UnmarshalJSON loc (MarshalJSON t).1).1 = MarshalJSON t) := by
  have hbytes := MarshalJSON_bytes t hr hy
  have hr0 := hr
  simp only [JSONTime.inRange, Bool.and_eq_true, decide_eq_true_eq] at hr
  obtain ⟨⟨⟨⟨⟨⟨⟨hm1, hm2⟩, hd1⟩, hd2⟩, hh⟩, hmin⟩, hs⟩, _⟩ := hr
  have hdi : daysIn t.month t.year ≤ 31 := by
    unfold daysIn
    split_ifs <;> omega
  obtain ⟨u, hu⟩ := Int.eq_ofNat_of_zero_le hy.1
  have hu2 : u ≤ 9999 := by omega
  have hnat : t.year.natAbs = u := by rw [hu]; rfl
  have hyear : ((((u / 1000 * 10 + u / 100 % 10) * 10 + u / 10 % 10) * 10 + u % 10 : Nat) : Int) =
      t.year := by
    rw [hu]
    congr 1
    omega
  have hparse : parseInLocation loc (MarshalJSON t).1 = Except.ok (loc.date t.toSecond) := by
    rw [hbytes, hnat]
    rw [parseInLocation_digits loc (u / 1000) (u / 100 % 10) (u / 10 % 10) (u % 10)
      (t.month / 10) (t.month % 10) (t.day / 10) (t.day % 10) (t.hour / 10) (t.hour % 10)
      (t.minute / 10) (t.minute % 10) (t.second / 10) (t.second % 10)
      (by omega) (by omega) (by omega) (by omega) (by omega) (by omega) (by omega) (by omega)
      (by omega) (by omega) (by omega) (by omega) (by omega) (by omega)
      (by omega)
      (by
        rw [hyear]
        have e1 : t.month / 10 * 10 + t.month % 10 = t.month := by omega
        have e2 : t.day / 10 * 10 + t.day % 10 = t.day := by omega
        rw [e1, e2]
        exact ⟨hd1, hd2⟩)
      (by omega) (by omega) (by omega)]
    have e1 : t.month / 10 * 10 + t.month % 10 = t.month := by omega
    have e2 : t.day / 10 * 10 + t.day % 10 = t.day := by omega
    have e3 : t.hour / 10 * 10 + t.hour % 10 = t.hour := by omega
    have e4 : t.minute / 10 * 10 + t.minute % 10 = t.minute := by omega
    have e5 : t.second / 10 * 10 + t.second % 10 = t.second := by omega
    rw [hyear, e1, e2, e3, e4, e5]
    rfl
  have hun : UnmarshalJSON loc (MarshalJSON t).1 = (loc.date t.toSecond, none) := by
    unfold UnmarshalJSON
    rw [hparse]
  refine ⟨rfl, ?_, hun, ?_⟩
  · rw [hbytes]
    simp only [quotedPattern, Bool.and_eq_true, decide_eq_true_eq]
    have d : ∀ a : Nat, a < 10 → isDigitByte (48 + a) = true := isDigitByte_digit
    simp only [d (u / 1000) (by omega), d (u / 100 % 10) (by omega), d (u / 10 % 10) (by omega),
      d (u % 10) (by omega), d (t.month / 10) (by omega), d (t.month % 10) (by omega),
      d (t.day / 10) (by omega), d (t.day % 10) (by omega), d (t.hour / 10) (by omega),
      d (t.hour % 10) (by omega), d (t.minute / 10) (by omega), d (t.minute % 10) (by omega),
      d (t.second / 10) (by omega), d (t.second % 10) (by omega), hnat, and_self]
  · intro hloc
    rw [hun, hloc]
    rfl

/-- C17 (witness): a time of the afternoon of 5 November 2026 in a process whose local
zone is UTC. -/
theorem MarshalJSON_round_trip_witness :
    (MarshalJSON Sample.afternoon).2 = none ∧
    quotedPattern (MarshalJSON Sample.afternoon).1 = true ∧
    UnmarshalJSON Location.utc (MarshalJSON Sample.afternoon).1 =
      (Location.utc.date Sample.afternoon.toSecond, none) ∧
    MarshalJSON (UnmarshalJSON Location.utc (MarshalJSON Sample.afternoon).1).1 =
      MarshalJSON Sample.afternoon :=
  ⟨(MarshalJSON_round_trip Location.utc Sample.afternoon (by decide) (by decide)).1,
   (MarshalJSON_round_trip Location.utc Sample.afternoon (by decide) (by decide)).2.1,
   (MarshalJSON_round_trip Location.utc Sample.afternoon (by decide) (by decide)).2.2.1,
   (MarshalJSON_round_trip Location.utc Sample.afternoon (by decide) (by decide)).2.2.2 rfl⟩


/-! ## C18 -/

/-- The step of a slice field, not embedded, whose element type is a struct type `E`
or a pointer to it: the empty-array marker when `E` has the name of the struct type
that is being extracted, and otherwise the extraction of `E`, wrapped in an array; no
entry when that extraction returns an error. -/
theorem fieldStep_struct_slice (P : Program) (fuel : Nat)
    (recur : GoType → Option (Exec YamlResult)) (srcValue : Option GoType)
    (srcType E : GoType) (f : StructField) (hE : P.kind E = Kind.Struct)
    (hanon : f.anonymous = false)
    (hf : f.typ = GoType.slice E ∨ f.typ = GoType.slice (GoType.ptr E)) :
    fieldStep P (fuel + 1) recur srcValue srcType f =
      if P.name srcType = P.name E then
        some (Exec.returned [((getStructFieldName f).1, FieldValue.nested [])])
      else
        afterCall (recur E) fun ret => [((getStructFieldName f).1, FieldValue.nestedArr [ret])] := by
  have hk : P.kind f.typ = Kind.Slice := by rcases hf with h | h <;> rw [h] <;> rfl
  have hn : P.name f.typ = [] := by rcases hf with h | h <;> rw [h] <;> rfl
  have hbase : indirectType P (fuel + 1) (P.elem f.typ) = some E := by
    rcases hf with h | h
    · rw [h]
      exact indirectType_of_base P _ E (by rw [hE]; decide) (by rw [hE]; decide)
    · rw [h]
      exact indirectType_ptr_struct P fuel E hE
  have hek : P.kind (P.elem f.typ) = Kind.Ptr ∨ P.kind (P.elem f.typ) = Kind.Struct := by
    rcases hf with h | h
    · right; rw [h]; exact hE
    · left; rw [h]; rfl
  unfold fieldStep
  simp only [hanon, Bool.false_eq_true, if_false, getJsonDataType_of_slice P f.typ hk, ne_eq,
    not_true_eq_false, hn, hk, hek, hbase, if_true,
    show ¬ (([] : GoString) = go "Time") from by decide,
    show ¬ (([] : GoString) = go "JSONTime") from by decide,
    show ¬ (Kind.Slice = Kind.Ptr) from by decide,
    show ¬ (Kind.Slice = Kind.Struct) from by decide, or_true]

/-- C18 (the code at the failing input): the struct type `Node` of package `a` has the
field `Peers []b.Node`, whose element type is another struct type, `Node` of package
`b`, with the field `ID int`.  The extraction of `a.Node` gives the empty-array marker
for `Peers`; it does not recurse into `b.Node`, whose extraction is `id: "number"`. -/
theorem structToYaml_same_name_marker :
    Sample.program.fields Sample.tNodeA =
      [Sample.fld "Peers" (GoType.slice Sample.tNodeB) "peers"] ∧
    Sample.tNodeB ≠ Sample.tNodeA ∧
    Sample.program.kind Sample.tNodeB = Kind.Struct ∧
    Sample.program.name Sample.tNodeB = Sample.program.name Sample.tNodeA ∧
    structToYaml Sample.program 3 Sample.tNodeB =
      some (Exec.returned (Except.ok [(go "id", FieldValue.tag (go "number"))])) ∧
    structToYaml Sample.program 3 Sample.tNodeA =
      some (Exec.returned (Except.ok [(go "peers", FieldValue.nested [])])) :=
  ⟨rfl, by decide, rfl, rfl, rfl, rfl⟩



/-! ## C20 -/

theorem indexComma_none (tag : GoString) (h : Item.rune ',' ∉ tag) : indexComma tag = none := by
  induction tag with
  | nil => rfl
  | cons it rest ih =>
    have h1 : ¬ it = Item.rune ',' := fun heq => h (by rw [heq]; exact List.mem_cons_self _ _)
    have h2 : Item.rune ',' ∉ rest := fun hm => h (List.mem_cons_of_mem _ hm)
    simp [indexComma, h1, ih h2]

theorem indexComma_append (pre post : GoString) (h : Item.rune ',' ∉ pre) :
    indexComma (pre ++ Item.rune ',' :: post) = some pre.length := by
  induction pre with
  | nil => simp [indexComma]
  | cons it rest ih =>
    have h1 : ¬ it = Item.rune ',' := fun heq => h (by rw [heq]; exact List.mem_cons_self _ _)
    have h2 : Item.rune ',' ∉ rest := fun hm => h (List.mem_cons_of_mem _ hm)
    simp [indexComma, h1, ih h2]

/-- C20: `getStructFieldName` returns the json tag as it is, with `omitEmpty` false,
when the tag does not end in "omitempty" (the empty string for a field without json
tag); when the tag ends in "omitempty" it returns `omitEmpty` true and the text before
the first comma if that text is not empty, and the Go field name if the tag starts with
a comma or has no comma. -/
theorem getStructFieldName_cases (ft : StructField) :
    (¬ (go "omitempty" <:+ ft.jsonTag) → getStructFieldName ft = (ft.jsonTag, false)) ∧
    (ft.jsonTag = go "" → getStructFieldName ft = (go "", false)) ∧
    (go "omitempty" <:+ ft.jsonTag →
      (getStructFieldName ft).2 = true ∧
      (∀ pre post, ft.jsonTag = pre ++ Item.rune ',' :: post → Item.rune ',' ∉ pre →
        (pre ≠ [] → (getStructFieldName ft).1 = pre) ∧
        (pre = [] → (getStructFieldName ft).1 = ft.name)) ∧
      (Item.rune ',' ∉ ft.jsonTag → (getStructFieldName ft).1 = ft.name)) := by
  have hno : ¬ (go "omitempty" <:+ ft.jsonTag) → getStructFieldName ft = (ft.jsonTag, false) := by
    intro h
    unfold getStructFieldName
    have : ¬ ((go "omitempty").isSuffixOf ft.jsonTag = true) := by
      rw [List.isSuffixOf_iff_suffix]; exact h
    simp only [this, Bool.false_eq_true, if_false]
  refine ⟨hno, ?_, ?_⟩
  · intro he
    have := hno (by
      rw [he]
      intro hs
      have := hs.length_le
      revert this
      decide)
    rw [this, he]
  · intro h
    have hb : (go "omitempty").isSuffixOf ft.jsonTag = true := by
      rw [List.isSuffixOf_iff_suffix]; exact h
    refine ⟨?_, ?_, ?_⟩
    · unfold getStructFieldName
      simp only [hb, if_true]
      split
      · split_ifs <;> rfl
      · rfl
    · intro pre post htag hpre
      have hi : indexComma ft.jsonTag = some pre.length := by
        rw [htag]; exact indexComma_append pre post hpre
      constructor
      · intro hne
        have hpos : 0 < pre.length := List.length_pos.2 hne
        unfold getStructFieldName
        simp only [hb, if_true, hi, hpos]
        rw [htag]
        simp
      · intro hnil
        subst hnil
        unfold getStructFieldName
        simp only [hb, if_true, hi, List.length_nil, Nat.lt_irrefl, if_false]
    · intro hc
      unfold getStructFieldName
      simp only [hb, if_true, indexComma_none ft.jsonTag hc]

/-- C20 (witness): the field `ID int` of `SubDemo` (dapr_test.go), with the tag
"id,omitempty". -/
theorem getStructFieldName_cases_witness :
    (getStructFieldName (Sample.fld "ID" Sample.tInt "id,omitempty")).2 = true ∧
    (getStructFieldName (Sample.fld "ID" Sample.tInt "id,omitempty")).1 = go "id" :=
  ⟨((getStructFieldName_cases (Sample.fld "ID" Sample.tInt "id,omitempty")).2.2
      ⟨go "id,", rfl⟩).1,
   (((getStructFieldName_cases (Sample.fld "ID" Sample.tInt "id,omitempty")).2.2
      ⟨go "id,", rfl⟩).2.1 (go "id") (go "omitempty") rfl (by decide)).1 (by decide)⟩

/-! ## The entries of `camelSplit` partition the string (C21, C22) -/

theorem grow_flatten (T : UnicodeTables) (cs : List Char) :
    ∀ (cur : List Char) (cls : Nat), (grow T cur cls cs).flatten = cur ++ cs := by
  induction cs with
  | nil => intro cur cls; simp [grow]
  | cons r rest ih =>
    intro cur cls
    unfold grow
    split_ifs with hc
    · rw [ih]; simp
    · rw [List.flatten_cons, ih]; simp

theorem runs_flatten (T : UnicodeTables) (cs : List Char) : (runs T cs).flatten = cs := by
  cases cs with
  | nil => rfl
  | cons r rest => simp [runs, grow_flatten]

theorem fixFrom_flatten (T : UnicodeTables) (rest : List (List Char)) :
    ∀ (a : List Char) (out : List (List Char)),
      fixFrom T a rest = some out → out.flatten = a ++ rest.flatten := by
  induction rest with
  | nil =>
    intro a out h
    simp only [fixFrom, Option.some.injEq] at h
    subst h
    simp
  | cons b rest ih =>
    intro a out h
    have keep : ∀ o, fixFrom T b rest = some o → out = a :: o →
        out.flatten = a ++ (b :: rest).flatten := by
      intro o ho hout
      rw [hout, List.flatten_cons, ih b o ho, List.flatten_cons]
    have keepCase : (fixFrom T b rest).map (fun o => a :: o) = some out →
        out.flatten = a ++ (b :: rest).flatten := by
      intro hk
      cases ho : fixFrom T b rest with
      | none => simp [ho] at hk
      | some o =>
        simp only [ho, Option.map_some', Option.some.injEq] at hk
        exact keep o ho hk.symm
    unfold fixFrom at h
    cases ha : a.head? with
    | none => simp [ha] at h
    | some a0 =>
      simp only [ha] at h
      by_cases hu : T.isUpper a0 = true
      · simp only [hu, if_true] at h
        cases hb : b.head? with
        | none => simp [hb] at h
        | some b0 =>
          simp only [hb] at h
          by_cases hl : T.isLower b0 = true
          · simp only [hl, if_true] at h
            cases hz : a.getLast? with
            | none => simp [hz] at h
            | some z =>
              simp only [hz] at h
              cases ho : fixFrom T (z :: b) rest with
              | none => simp [ho] at h
              | some o =>
                simp only [ho, Option.map_some', Option.some.injEq] at h
                have hne : a ≠ [] := by
                  intro hnil
                  simp [hnil] at hz
                have hlast : a.getLast hne = z := by
                  have := List.getLast?_eq_getLast a hne
                  rw [hz] at this
                  exact (Option.some.inj this).symm
                have hsplit : a.dropLast ++ [z] = a := by
                  rw [← hlast]
                  exact List.dropLast_append_getLast hne
                rw [← h, List.flatten_cons, ih (z :: b) o ho, List.flatten_cons]
                conv_rhs => rw [← hsplit]
                simp
          · have hl2 : T.isLower b0 = false := by simpa using hl
            simp only [hl2, Bool.false_eq_true, if_false] at h
            exact keepCase h
      · have hu2 : T.isUpper a0 = false := by simpa using hu
        simp only [hu2, Bool.false_eq_true, if_false] at h
        exact keepCase h

theorem fixLoop_flatten (T : UnicodeTables) (rs out : List (List Char))
    (h : fixLoop T rs = some out) : out.flatten = rs.flatten := by
  cases rs with
  | nil =>
    simp only [fixLoop, Option.some.injEq] at h
    subst h
    rfl
  | cons a rest =>
    rw [List.flatten_cons]
    exact fixFrom_flatten T rest a out h

theorem collectEntries_flatten (rs : List (List Char)) :
    (collectEntries rs).flatten = ofRunes rs.flatten := by
  induction rs with
  | nil => rfl
  | cons r rs ih =>
    cases r with
    | nil => simpa [collectEntries, List.filter] using ih
    | cons c cs =>
      have : collectEntries ((c :: cs) :: rs) = ofRunes (c :: cs) :: collectEntries rs := by
        simp [collectEntries, List.filter]
      rw [this, List.flatten_cons, ih, List.flatten_cons, ofRunes_append]

theorem collectEntries_nonempty (rs : List (List Char)) :
    ∀ e ∈ collectEntries rs, e ≠ [] := by
  intro e he
  simp only [collectEntries, List.mem_map, List.mem_filter] at he
  obtain ⟨r, ⟨_, hr⟩, rfl⟩ := he
  cases r with
  | nil => simp at hr
  | cons c cs => simp [ofRunes]

theorem joinWith_nil {α : Type} (parts : List (List α)) : joinWith parts [] = parts.flatten := by
  induction parts with
  | nil => rfl
  | cons p rest ih =>
    cases rest with
    | nil => simp [joinWith]
    | cons q rest => simp only [joinWith, List.append_nil, ih, List.flatten_cons]

theorem stringsToLower_flatten (T : UnicodeTables) (parts : List GoString) :
    (parts.map (stringsToLower T)).flatten = stringsToLower T parts.flatten := by
  induction parts with
  | nil => rfl
  | cons p rest ih =>
    simp only [List.map_cons, List.flatten_cons, ih]
    simp [stringsToLower]

/-- The split of a valid string: the entries are those of the second loop applied to the
runs, they are non-empty, and they concatenate to the string. -/
theorem camelSplit_partition (T : UnicodeTables) (s : GoString) (hv : validString s = true) :
    ∃ names, camelSplit T s = some names ∧ (∀ e ∈ names, e ≠ []) ∧ names.flatten = s := by
  obtain ⟨out, ho⟩ := fixLoop_total T (runs T (runesOf s)) (runs_nonempty T (runesOf s))
  refine ⟨collectEntries out, ?_, collectEntries_nonempty out, ?_⟩
  · conv_lhs => rw [← ofRunes_runesOf s hv]
    rw [camelSplit_ofRunes, ho]
    rfl
  · rw [collectEntries_flatten, fixLoop_flatten T _ out ho, runs_flatten, ofRunes_runesOf s hv]

/-- The first loop of `camelSplit` never fails and builds non-empty runs. -/
theorem splitLoop_total (T : UnicodeTables) (cs : List Char) :
    ∃ st, splitLoop T cs ([], 0) = some st ∧ st.1 = runs T cs := by
  have h := splitLoop_runs T cs
  cases hs : splitLoop T cs ([], 0) with
  | none => simp [hs] at h
  | some st =>
    simp only [hs, Option.map_some', Option.some.injEq] at h
    exact ⟨st, rfl, h⟩

/-- C21: for every valid UTF-8 string `s`, `camelSplit s` returns entries that are all
non-empty and whose concatenation, in order, is `s`; `camelToLowerStyle s` is the
lower-cased entries joined by `"_"`, and the same entries joined without the separator
are `strings.ToLower(s)`. -/
theorem camelSplit_entries_concat (T : UnicodeTables) (s : GoString)
    (hv : validString s = true) :
    ∃ names, camelSplit T s = some names ∧
      (∀ e ∈ names, e ≠ go "") ∧
      stringsJoin names (go "") = s ∧
      camelToLowerStyle T s = some (stringsJoin (names.map (stringsToLower T)) (go "_")) ∧
      stringsJoin (names.map (stringsToLower T)) (go "") = stringsToLower T s := by
  obtain ⟨names, hs, hne, hj⟩ := camelSplit_partition T s hv
  refine ⟨names, hs, hne, ?_, ?_, ?_⟩
  · show joinWith names [] = s
    rw [joinWith_nil, hj]
  · unfold camelToLowerStyle
    rw [hs]
  · show joinWith (names.map (stringsToLower T)) [] = stringsToLower T s
    rw [joinWith_nil, stringsToLower_flatten, hj]

theorem camelSplit_entries_concat_witness :
    ∃ names, camelSplit asciiTables (go "PDFLoader") = some names ∧
      (∀ e ∈ names, e ≠ go "") ∧
      stringsJoin names (go "") = go "PDFLoader" ∧
      camelToLowerStyle asciiTables (go "PDFLoader") =
        some (stringsJoin (names.map (stringsToLower asciiTables)) (go "_")) ∧
      stringsJoin (names.map (stringsToLower asciiTables)) (go "") =
        stringsToLower asciiTables (go "PDFLoader") :=
  camelSplit_entries_concat asciiTables (go "PDFLoader") (by decide)

/-- C22: `camelSplit` is total.  On every string the first loop returns non-empty runs,
and the boundary-correction loop returns on them: every read of `runes[i][0]`,
`runes[i+1][0]` and `runes[i][len(runes[i])-1]` finds a non-empty run (the model
returns `none` on such a read of an empty run), although the loop leaves empty runs
behind, as for `"Ab"`. -/
theorem camelSplit_no_empty_read (T : UnicodeTables) (src : GoString) :
    (∃ st out, splitLoop T (runesOf src) ([], 0) = some st ∧ (∀ r ∈ st.1, r ≠ []) ∧
      fixLoop T st.1 = some out) ∧
    (∃ names, camelSplit T src = some names) ∧
    fixLoop asciiTables [['A'], ['b']] = some [[], ['A', 'b']] := by
  obtain ⟨st, hst, hruns⟩ := splitLoop_total T (runesOf src)
  obtain ⟨out, ho⟩ := fixLoop_total T (runs T (runesOf src)) (runs_nonempty T (runesOf src))
  refine ⟨⟨st, out, hst, ?_, ?_⟩, ?_, rfl⟩
  · rw [hruns]
    exact runs_nonempty T (runesOf src)
  · rw [hruns]
    exact ho
  · unfold camelSplit
    split_ifs with hvalid
    · exact ⟨[src], rfl⟩
    · rw [hst]
      simp only [hruns, ho]
      exact ⟨collectEntries out, rfl⟩

end DaprWrapper
